import Mathlib

/-!
# TinySTL `algorithm.h`: heap, sort, ordered search and scans

A shallow embedding of the heap primitives (`_Push_heap`, `_Adjust_heap`, `push_heap`,
`pop_heap`, `make_heap`, `sort_heap`, `is_heap_until`), of the hybrid sort
(`_Insert_sort`, `_Partition`, `_Quick_sort`, `sort`), of the binary searches
(`lower_bound`, `upper_bound`, `equal_range`, `binary_search`) and of the scans
(`min_element`, `max_element`, `minmax_element`, `lexicographical_compare`) of
`src/TinySTL/algorithm.h`, followed by the theorems about them.

Modelling conventions.

* A range `[first, last)` is the `List` of its elements; the cursor `first + k` is the index `k`
  and `last` is the length.  A routine that receives `first` and separate offsets
  (`_Push_heap`, `_Adjust_heap`) works on the list of the storage starting at `first`.
  A call on a sub-range replaces that segment of the list and leaves the rest as it is.
* `*(first + k)` is `deref a k`; a write `*(first + k) = v` is `a.set k v`.  Elements are
  copied (`tiny_stl::move` of a value type).
* The built-in `operator<` of the element type is Lean's `<` on `α`; `tiny_stl::less<>` is
  `less`.  A caller-supplied comparison object is a function `cmp : α → α → Bool`.
* `difference_type` values are natural numbers: every offset the routines compute is
  non-negative, and `(hole - 1) / 2` at `hole = 0` is `0` both in C++ (truncating division of
  `-1`) and with truncated subtraction.  Lengths are far below `2^63`, so no offset overflows.
* Loops carry a fuel argument that the caller sets to a bound on the number of iterations;
  the lemmas named `..._fuel_succ` show that more fuel does not change the result.
* The static `std::mt19937` of `_Get_random` is an arbitrary stream `g : Nat → Nat` of draws;
  a draw for a range of `count` elements is reduced to the closed interval `[0, count - 1]` of
  the `uniform_int_distribution`, and the stream advances by one.
-/

namespace TinySTL

variable {α : Type}

/-! ## Data model -/

/-- Dereference `*(first + k)` of the storage `a`.  A read outside the storage, undefined in
the source, yields the default element. -/
def deref [Inhabited α] (a : List α) (k : Nat) : α := a.getD k default

/-- Modelled from the spec: `iter_swap`, which `algorithm.h` calls and does not define; the
spec has it swap the two elements, here those at `first + i` and `first + j`. -/
def iter_swap [Inhabited α] (a : List α) (i j : Nat) : List α :=
  (a.set i (deref a j)).set j (deref a i)

/-- Modelled from the spec: the default ordering `tiny_stl::less<>` of `functional.h`, a header
that is not part of the sources at hand; the spec has it be the built-in less-than. -/
def less [LT α] [DecidableRel (fun x y : α => x < y)] : α → α → Bool :=
  fun x y => decide (x < y)

/-- A caller-supplied ordering for the examples: `x` is before `y` when `y < x`, the built-in
greater-than. -/
def greater [LT α] [DecidableRel (fun x y : α => x < y)] : α → α → Bool :=
  fun x y => decide (y < x)

/-- Strict weak ordering: irreflexive, transitive, and with transitive incomparability. -/
structure StrictWeakOrder (cmp : α → α → Bool) : Prop where
  irrefl : ∀ x, cmp x x = false
  trans : ∀ x y z, cmp x y = true → cmp y z = true → cmp x z = true
  incomp_trans : ∀ x y z, cmp x y = false → cmp y x = false → cmp y z = false →
    cmp z y = false → (cmp x z = false ∧ cmp z x = false)

/-- The heap invariant on the first `n` elements of `a`, restricted to the children of the
nodes `s, s+1, ...`: no such child `k` has `cmp (parent k) k`. -/
def HeapFrom [Inhabited α] (cmp : α → α → Bool) (a : List α) (s n : Nat) : Prop :=
  ∀ k, 1 ≤ k → k < n → s ≤ (k - 1) / 2 → cmp (deref a ((k - 1) / 2)) (deref a k) = false

/-- A range is a valid heap under `cmp`: there is no position `k ≥ 1` with
`cmp a[(k-1)/2] a[k]`. -/
def IsHeap [Inhabited α] (cmp : α → α → Bool) (a : List α) : Prop :=
  HeapFrom cmp a 0 a.length

/-- A range is sorted under `cmp`: no element is strictly before an earlier one. -/
def SortedBy (cmp : α → α → Bool) (a : List α) : Prop :=
  a.Pairwise (fun x y => cmp y x = false)

/-- Node `h` lies in the subtree rooted at node `t` of the implicit binary tree. -/
inductive Below (t : Nat) : Nat → Prop where
  | root : Below t t
  | left {h : Nat} : Below t h → Below t (2 * h + 1)
  | right {h : Nat} : Below t h → Below t (2 * h + 2)

/-! ## Heap primitives -/

/-- The loop of `_Push_heap`: while the hole is below `top` and its parent is before `val`,
move the parent down into the hole. On exit `val` is stored in the hole. -/
def _Push_heap_loop [Inhabited α] (cmp : α → α → Bool) (top : Nat) (val : α) :
    Nat → List α → Nat → List α
  | 0, a, hole => a.set hole val
  | fuel + 1, a, hole =>
    let i := (hole - 1) / 2
    if top < hole && cmp (deref a i) val then
      _Push_heap_loop cmp top val fuel (a.set hole (deref a i)) i
    else
      a.set hole val

/-- The function `_Push_heap(first, hole, top, val, cmp)`. The hole strictly decreases, so
`hole` iterations suffice. -/
def _Push_heap [Inhabited α] (cmp : α → α → Bool) (a : List α) (hole top : Nat) (val : α) :
    List α :=
  _Push_heap_loop cmp top val hole a hole

/-- The function `push_heap(first, last, cmp)`. -/
def push_heap [Inhabited α] (cmp : α → α → Bool) (a : List α) : List α :=
  let count := a.length
  if count ≥ 2 then
    let last := a.length - 1
    let val := deref a last
    _Push_heap cmp a (count - 1) 0 val
  else
    a

/-- The `while (rightChild < len)` loop of `_Adjust_heap`; the two children are compared with
the built-in `operator<`, as in the source. Returns the storage, the hole and `rightChild`
at loop exit. -/
def _Adjust_heap_loop [Inhabited α] [LT α] [DecidableRel (fun x y : α => x < y)] (len : Nat) :
    Nat → List α → Nat → Nat → List α × Nat × Nat
  | 0, a, hole, rightChild => (a, hole, rightChild)
  | fuel + 1, a, hole, rightChild =>
    if rightChild < len then
      let rightChild := if deref a rightChild < deref a (rightChild - 1) then rightChild - 1
        else rightChild
      _Adjust_heap_loop len fuel (a.set hole (deref a rightChild)) rightChild
        (rightChild * 2 + 2)
    else
      (a, hole, rightChild)

/-- The function `_Adjust_heap(first, hole, len, val, cmp)`. `rightChild` strictly grows, so
`len` iterations suffice. -/
def _Adjust_heap [Inhabited α] [LT α] [DecidableRel (fun x y : α => x < y)]
    (cmp : α → α → Bool) (a : List α) (hole len : Nat) (val : α) : List α :=
  let top := hole
  let r := _Adjust_heap_loop len len a hole (hole * 2 + 2)
  let a := r.1
  let hole := r.2.1
  let rightChild := r.2.2
  if rightChild = len then
    _Push_heap cmp (a.set hole (deref a (rightChild - 1))) (rightChild - 1) top val
  else
    _Push_heap cmp a hole top val

/-- The function `_Pop_heap(first, last, dest, val, cmp)` with `first` the start of `a`. -/
def _Pop_heap [Inhabited α] [LT α] [DecidableRel (fun x y : α => x < y)]
    (cmp : α → α → Bool) (a : List α) (last dest : Nat) (val : α) : List α :=
  _Adjust_heap cmp (a.set dest (deref a 0)) 0 last val

/-- The function `pop_heap(first, last, cmp)` on the range `a`. -/
def pop_heap [Inhabited α] [LT α] [DecidableRel (fun x y : α => x < y)]
    (cmp : α → α → Bool) (a : List α) : List α :=
  let last := a.length - 1
  let val := deref a last
  _Pop_heap cmp a last last val

/-- The loop of `sort_heap`: `for (; last - first > 1; --last) pop_heap(first, last);` with
`n = last - first`. The call passes no comparison, so `tiny_stl::less<>` is used. -/
def sort_heap_loop [Inhabited α] [LT α] [DecidableRel (fun x y : α => x < y)] :
    Nat → List α → List α
  | n + 2, a => sort_heap_loop (n + 1) (pop_heap less (a.take (n + 2)) ++ a.drop (n + 2))
  | _, a => a

/-- The function `sort_heap(first, last, cmp)`; `cmp` is not used by the body. -/
def sort_heap [Inhabited α] [LT α] [DecidableRel (fun x y : α => x < y)]
    (_cmp : α → α → Bool) (a : List α) : List α :=
  sort_heap_loop a.length a

/-- The `while (true)` loop of `make_heap`, from `parent` down to `0`. -/
def make_heap_loop [Inhabited α] [LT α] [DecidableRel (fun x y : α => x < y)]
    (cmp : α → α → Bool) (len : Nat) : Nat → List α → List α
  | 0, a => _Adjust_heap cmp a 0 len (deref a 0)
  | parent + 1, a =>
    make_heap_loop cmp len parent (_Adjust_heap cmp a (parent + 1) len (deref a (parent + 1)))

/-- The function `make_heap(first, last, cmp)`. -/
def make_heap [Inhabited α] [LT α] [DecidableRel (fun x y : α => x < y)]
    (cmp : α → α → Bool) (a : List α) : List α :=
  if a.length < 2 then a
  else make_heap_loop cmp a.length ((a.length - 2) / 2) a

/-- The `for` loop of `is_heap_until`, from `offset` on. -/
def is_heap_until_loop [Inhabited α] (cmp : α → α → Bool) (a : List α) : Nat → Nat → Nat
  | 0, _ => a.length
  | fuel + 1, offset =>
    if offset < a.length then
      if cmp (deref a ((offset - 1) / 2)) (deref a offset) then offset
      else is_heap_until_loop cmp a fuel (offset + 1)
    else a.length

/-- The function `is_heap_until(first, last, cmp)`; the result is an offset from `first`. -/
def is_heap_until [Inhabited α] (cmp : α → α → Bool) (a : List α) : Nat :=
  if a.length ≥ 2 then is_heap_until_loop cmp a a.length 1 else a.length

/-- The function `is_heap(first, last, cmp)`. -/
def is_heap [Inhabited α] (cmp : α → α → Bool) (a : List α) : Bool :=
  is_heap_until cmp a == a.length

/-- The `for` loop of `is_sorted_until`: `next` is advanced, then compared with `last`. -/
def is_sorted_until_loop [Inhabited α] (cmp : α → α → Bool) (a : List α) :
    Nat → Nat → Nat → Nat
  | 0, _, _ => a.length
  | fuel + 1, first, next =>
    if next + 1 ≠ a.length then
      if cmp (deref a (next + 1)) (deref a first) then next + 1
      else is_sorted_until_loop cmp a fuel (first + 1) (next + 1)
    else a.length

/-- The function `is_sorted_until(first, last, cmp)`; the result is an offset from `first`. -/
def is_sorted_until [Inhabited α] (cmp : α → α → Bool) (a : List α) : Nat :=
  if a.length ≠ 0 then is_sorted_until_loop cmp a a.length 0 0 else a.length

/-- The function `is_sorted(first, last, cmp)`. -/
def is_sorted [Inhabited α] (cmp : α → α → Bool) (a : List α) : Bool :=
  is_sorted_until cmp a == a.length

/-! ## Hybrid sort -/

/-- The inner loop of `_Insert_sort`: `for (; j > first && cmp(key, *(j-1)); --j) *j = *(j-1);`.
Returns the storage and `j` at loop exit. -/
def _Insert_sort_inner [Inhabited α] (cmp : α → α → Bool) (key : α) :
    Nat → List α → List α × Nat
  | 0, a => (a, 0)
  | j + 1, a =>
    if cmp key (deref a j) then _Insert_sort_inner cmp key j (a.set (j + 1) (deref a j))
    else (a, j + 1)

/-- The outer loop of `_Insert_sort`: `for (i = first + 1; i != last; ++i)`. -/
def _Insert_sort_outer [Inhabited α] (cmp : α → α → Bool) : Nat → List α → Nat → List α
  | 0, a, _ => a
  | fuel + 1, a, i =>
    if i ≠ a.length then
      let key := deref a i
      let r := _Insert_sort_inner cmp key i a
      _Insert_sort_outer cmp fuel (r.1.set r.2 key) (i + 1)
    else a

/-- The function `_Insert_sort(first, last, cmp)`. -/
def _Insert_sort [Inhabited α] (cmp : α → α → Bool) (a : List α) : List α :=
  if a.length = 0 then a else _Insert_sort_outer cmp a.length a 1

/-- The function `_Get_random(first, last)` for a range of `count` elements: the next draw of
the stream, inside `[0, count - 1]`, and the advanced stream. -/
def _Get_random (g : Nat → Nat) (count : Nat) : Nat × (Nat → Nat) :=
  (g 0 % count, fun n => g (n + 1))

/-- The scan of `_Partition`: `for (j = first; j < last - 1; ++j) if (cmp(*j, key))
iter_swap(i++, j);`. Returns the storage and `i`. -/
def _Partition_loop [Inhabited α] (cmp : α → α → Bool) (key : α) (lastm1 : Nat) :
    Nat → List α → Nat → Nat → List α × Nat
  | 0, a, i, _ => (a, i)
  | fuel + 1, a, i, j =>
    if j < lastm1 then
      if cmp (deref a j) key then
        _Partition_loop cmp key lastm1 fuel (iter_swap a i j) (i + 1) (j + 1)
      else
        _Partition_loop cmp key lastm1 fuel a i (j + 1)
    else (a, i)

/-- The function `_Partition(first, last, cmp)`: the range after the call, the returned
position, and the advanced stream. -/
def _Partition [Inhabited α] (cmp : α → α → Bool) (a : List α) (g : Nat → Nat) :
    List α × Nat × (Nat → Nat) :=
  let rp := _Get_random g a.length
  let randomPos := rp.1
  let a := iter_swap a randomPos (a.length - 1)
  let key := deref a (a.length - 1)
  let r := _Partition_loop cmp key (a.length - 1) a.length a 0 0
  (iter_swap r.1 r.2 (a.length - 1), r.2, rp.2)

/-- The constant `_INSERT_SORT_MAX`. -/
def _INSERT_SORT_MAX : Nat := 32

/-- The second half of `_Quick_sort`, run on the current range `[first, last)` with the
`count` computed on entry: heap sort above the threshold, insertion sort from two elements. -/
def _Quick_sort_finish [Inhabited α] [LT α] [DecidableRel (fun x y : α => x < y)]
    (cmp : α → α → Bool) (count : Nat) (cur : List α) : List α :=
  if count > _INSERT_SORT_MAX then sort_heap cmp (make_heap cmp cur)
  else if count ≥ 2 then _Insert_sort cmp cur
  else cur

/-- The function `_Quick_sort(first, last, diff, cmp)`. After the two recursive calls the
source sets `first = miditer` and `last = miditer + 1`, so the second half runs on the
one-element range of the pivot. The budget strictly decreases along the recursion, so fuel
`diff` suffices. -/
def _Quick_sort [Inhabited α] [LT α] [DecidableRel (fun x y : α => x < y)]
    (cmp : α → α → Bool) : Nat → List α → Nat → (Nat → Nat) → List α × (Nat → Nat)
  | 0, a, _, g => (_Quick_sort_finish cmp a.length a, g)
  | fuel + 1, a, diff, g =>
    let count := a.length
    if count > _INSERT_SORT_MAX && diff > 0 then
      let p := _Partition cmp a g
      let miditer := p.2.1
      let diff := (diff >>> 1) + (diff >>> 2)
      let l := _Quick_sort cmp fuel (p.1.take miditer) diff p.2.2
      let r := _Quick_sort cmp fuel (p.1.drop (miditer + 1)) diff l.2
      (l.1 ++ _Quick_sort_finish cmp count ((p.1.drop miditer).take 1) ++ r.1, r.2)
    else
      (_Quick_sort_finish cmp count a, g)

/-- The function `sort(first, last, cmp)`: the sorted range and the advanced stream. -/
def sort [Inhabited α] [LT α] [DecidableRel (fun x y : α => x < y)]
    (cmp : α → α → Bool) (a : List α) (g : Nat → Nat) : List α × (Nat → Nat) :=
  if (a.length : Int) - 1 > 0 then _Quick_sort cmp a.length a a.length g
  else (a, g)

/-! ## Ordered search -/

/-- The `while (size > 0)` loop of `lower_bound`; the state is `first`, `ret`, `size`, and the
result is `ret` at loop exit. -/
def lower_bound_loop [Inhabited α] (cmp : α → α → Bool) (a : List α) (val : α) :
    Nat → Nat → Nat → Nat → Nat
  | 0, _, ret, _ => ret
  | fuel + 1, first, ret, size =>
    if size > 0 then
      let step := size >>> 1
      let ret := first + step
      if !cmp (deref a ret) val then
        lower_bound_loop cmp a val fuel first ret step
      else
        lower_bound_loop cmp a val fuel (ret + 1) (ret + 1) (size - (step + 1))
    else ret

/-- The function `lower_bound(first, last, val, cmp)`; the result is an offset from `first`.
The assertion `is_sorted(first, last, cmp)` is the precondition of the theorems. -/
def lower_bound [Inhabited α] (cmp : α → α → Bool) (a : List α) (val : α) : Nat :=
  lower_bound_loop cmp a val a.length 0 0 a.length

/-- The `while (size > 0)` loop of `upper_bound`. -/
def upper_bound_loop [Inhabited α] (cmp : α → α → Bool) (a : List α) (val : α) :
    Nat → Nat → Nat → Nat → Nat
  | 0, _, ret, _ => ret
  | fuel + 1, first, ret, size =>
    if size > 0 then
      let step := size >>> 1
      let ret := first + step
      if cmp val (deref a ret) then
        upper_bound_loop cmp a val fuel first ret step
      else
        upper_bound_loop cmp a val fuel (ret + 1) (ret + 1) (size - (step + 1))
    else ret

/-- The function `upper_bound(first, last, val, cmp)`; the result is an offset from `first`. -/
def upper_bound [Inhabited α] (cmp : α → α → Bool) (a : List α) (val : α) : Nat :=
  upper_bound_loop cmp a val a.length 0 0 a.length

/-- The function `equal_range(first, last, val, cmp)`: the pair of offsets. -/
def equal_range [Inhabited α] (cmp : α → α → Bool) (a : List α) (val : α) : Nat × Nat :=
  (lower_bound cmp a val, upper_bound cmp a val)

/-- The value of the return expression of `binary_search(first, last, val, cmp)`,
`(!(first == last)) && !(cmp(val, *first))` after `first = lower_bound(...)`; the expression
has the type `bool`. -/
def binary_search_expr [Inhabited α] (cmp : α → α → Bool) (a : List α) (val : α) : Bool :=
  let first := lower_bound cmp a val
  (!(first == a.length)) && !(cmp val (deref a first))

/-- The iterator types of the sources at hand that can be passed as `FwdIter`. -/
inductive FwdIterType where
  /-- A pointer `T*` into an array of elements. -/
  | pointer : FwdIterType
  /-- The class `_Array_iterator<T, Size>` of `array.h`. -/
  | array_iterator : FwdIterType
  /-- The class `_Array_const_iterator<T, Size>` of `array.h`. -/
  | array_const_iterator : FwdIterType

/-- The implicit conversion from `bool` to an iterator type, with the iterator given as an
offset from `first`, if the type has one. A value of type `bool` does not convert to a pointer
`T*`, and the constructors of `_Array_const_iterator` and `_Array_iterator` that take arguments
are `explicit` and take a pointer, so none of the three types has such a conversion. -/
def bool_to_FwdIter : FwdIterType → Option (Bool → Nat)
  | FwdIterType.pointer => none
  | FwdIterType.array_iterator => none
  | FwdIterType.array_const_iterator => none

/-- The function `binary_search(first, last, val, cmp)` for the iterator type `t`. Its declared
return type is `FwdIter`, so the return statement converts the `bool` value of the return
expression to `FwdIter`; the result is that iterator, as an offset from `first`, and `none`
when `FwdIter` has no conversion from `bool`: the instantiation is then ill-formed and no call
returns a value. -/
def binary_search [Inhabited α] (t : FwdIterType) (cmp : α → α → Bool) (a : List α) (val : α) :
    Option Nat :=
  (bool_to_FwdIter t).map fun conv => conv (binary_search_expr cmp a val)

/-! ## Minimum, maximum and lexicographic comparison -/

/-- The `for` loop of `min_element`; `m` is the variable the source calls `max_iter`. -/
def min_element_loop [Inhabited α] (cmp : α → α → Bool) (a : List α) : Nat → Nat → Nat → Nat
  | 0, _, m => m
  | fuel + 1, first, m =>
    if first ≠ a.length then
      if cmp (deref a first) (deref a m) then min_element_loop cmp a fuel (first + 1) first
      else min_element_loop cmp a fuel (first + 1) m
    else m

/-- The function `min_element(first, last, cmp)`; the result is an offset from `first`. -/
def min_element [Inhabited α] (cmp : α → α → Bool) (a : List α) : Nat :=
  if 0 = a.length then a.length else min_element_loop cmp a a.length 1 0

/-- The `for` loop of `max_element`. -/
def max_element_loop [Inhabited α] (cmp : α → α → Bool) (a : List α) : Nat → Nat → Nat → Nat
  | 0, _, m => m
  | fuel + 1, first, m =>
    if first ≠ a.length then
      if cmp (deref a m) (deref a first) then max_element_loop cmp a fuel (first + 1) first
      else max_element_loop cmp a fuel (first + 1) m
    else m

/-- The function `max_element(first, last, cmp)`; the result is an offset from `first`. -/
def max_element [Inhabited α] (cmp : α → α → Bool) (a : List α) : Nat :=
  if 0 = a.length then a.length else max_element_loop cmp a a.length 1 0

/-- The `while (++first != last)` loop of `minmax_element`; `first` is the cursor before the
increment of the loop condition, `mn` and `mx` are `ret.first` and `ret.second`. -/
def minmax_element_loop [Inhabited α] (cmp : α → α → Bool) (a : List α) :
    Nat → Nat → Nat → Nat → Nat × Nat
  | 0, _, mn, mx => (mn, mx)
  | fuel + 1, first, mn, mx =>
    if first + 1 ≠ a.length then
      let iter := first + 1
      let first := first + 2
      if first = a.length then
        if cmp (deref a iter) (deref a mn) then (iter, mx)
        else if !(cmp (deref a iter) (deref a mx)) then (mn, iter)
        else (mn, mx)
      else if cmp (deref a first) (deref a iter) then
        let mn1 := if cmp (deref a first) (deref a mn) then first else mn
        let mx1 := if !cmp (deref a iter) (deref a mx) then iter else mx
        minmax_element_loop cmp a fuel first mn1 mx1
      else
        let mn1 := if cmp (deref a iter) (deref a mn) then iter else mn
        let mx1 := if !cmp (deref a first) (deref a mx) then first else mx
        minmax_element_loop cmp a fuel first mn1 mx1
    else (mn, mx)

/-- The function `minmax_element(first, last, cmp)`; the results are offsets from `first`. -/
def minmax_element [Inhabited α] (cmp : α → α → Bool) (a : List α) : Nat × Nat :=
  if 0 = a.length then (0, 0)
  else if 1 = a.length then (0, 0)
  else if cmp (deref a 1) (deref a 0) then minmax_element_loop cmp a a.length 1 1 0
  else minmax_element_loop cmp a a.length 1 0 1

/-- The function `_Lexicographical_compare(first1, last1, first2, last2, pred)`; each range is
the list of its remaining elements, and advancing a cursor drops the head. -/
def _Lexicographical_compare (pred : α → α → Bool) : List α → List α → Bool
  | x :: xs, y :: ys =>
    if pred x y then true
    else if pred y x then false
    else _Lexicographical_compare pred xs ys
  | [], _ :: _ => true
  | _, [] => false

/-- The function `lexicographical_compare(first1, last1, first2, last2, pred)`. -/
def lexicographical_compare (pred : α → α → Bool) (a b : List α) : Bool :=
  _Lexicographical_compare pred a b

end TinySTL

namespace TinySTL

variable {α : Type}

/-! ## Concrete inputs and checked accesses -/

/-- The 43 integers `42, 41, ..., 0`: a range sorted under `greater`, and the
shortest length at which the recursion budget of `_Quick_sort` can reach zero on a sub-range
of more than `_INSERT_SORT_MAX` elements. -/
def descending43 : List Int :=
  [42, 41, 40, 39, 38, 37, 36, 35, 34, 33, 32, 31, 30, 29, 28, 27, 26, 25, 24, 23, 22, 21,
    20, 19, 18, 17, 16, 15, 14, 13, 12, 11, 10, 9, 8, 7, 6, 5, 4, 3, 2, 1, 0]

/-- A pivot stream whose every draw selects offset `0` of the range being partitioned. -/
def firstPivot : Nat → Nat := fun _ => 0

/-- Checked dereference `*(first + k)` for a signed offset `k`: `none` when the position is
outside the range `[first, last)`. -/
def derefChecked (a : List α) (k : Int) : Option α :=
  if 0 ≤ k then a[k.toNat]? else none

/-- Checked write `*(first + k) = v`: `none` when the position is outside `[first, last)`. -/
def setChecked (a : List α) (k : Int) (v : α) : Option (List α) :=
  if 0 ≤ k ∧ k < (a.length : Int) then some (a.set k.toNat v) else none

/-- The function `pop_heap(first, last, cmp)` with the accesses of its own body and of
`_Pop_heap` checked against the range: `--last; val = *last; *dest = *first;` and then
`_Adjust_heap(first, 0, last - first, val, cmp)`. -/
def pop_heap_checked [Inhabited α] [LT α] [DecidableRel (fun x y : α => x < y)]
    (cmp : α → α → Bool) (a : List α) : Option (List α) :=
  let last : Int := (a.length : Int) - 1
  match derefChecked a last with
  | none => none
  | some val =>
    match derefChecked a 0 with
    | none => none
    | some front =>
      match setChecked a last front with
      | none => none
      | some a1 => some (_Adjust_heap cmp a1 0 last.toNat val)

end TinySTL

namespace TinySTL

variable {α : Type}

/-! ## Extremal positions -/

/-- Position `m` is the earliest position of a smallest element among the first `n` elements:
no element is before `a[m]`, and `a[m]` is before every earlier element. -/
def FirstMin [Inhabited α] (cmp : α → α → Bool) (a : List α) (n m : Nat) : Prop :=
  m < n ∧ (∀ j, j < n → cmp (deref a j) (deref a m) = false) ∧
    (∀ j, j < m → cmp (deref a m) (deref a j) = true)

/-- Position `m` is the earliest position of a largest element among the first `n` elements:
`a[m]` is before no element, and every earlier element is before `a[m]`. -/
def FirstMax [Inhabited α] (cmp : α → α → Bool) (a : List α) (n m : Nat) : Prop :=
  m < n ∧ (∀ j, j < n → cmp (deref a m) (deref a j) = false) ∧
    (∀ j, j < m → cmp (deref a j) (deref a m) = true)

/-- Position `m` is the latest position of a largest element among the first `n` elements:
`a[m]` is before no element, and every later element is before `a[m]`. -/
def LastMax [Inhabited α] (cmp : α → α → Bool) (a : List α) (n m : Nat) : Prop :=
  m < n ∧ (∀ j, j < n → cmp (deref a m) (deref a j) = false) ∧
    (∀ j, m < j → j < n → cmp (deref a j) (deref a m) = true)

end TinySTL

namespace TinySTL

variable {α : Type}

/-! ## Predicates that may throw

A comparison object whose call may throw is a function into `Option Bool`, with `none` for a
call that throws. A routine returns `Except.error s` when the exception leaves it, `s` being
the contents of its range at that moment, and `Except.ok s` when it completes. The built-in
`operator<` does not throw. -/

/-- The comparison that answers like `cmp` where `cmp` returns, and `false` elsewhere. -/
def orFalse (cmp : α → α → Option Bool) : α → α → Bool :=
  fun x y => (cmp x y).getD false

/-- The contents `e` differ from a permutation of `a` in at most one position: writing a
suitable element `v` to one position `hole` of `e` gives a permutation of `a`. -/
def NearPerm (e a : List α) : Prop :=
  e.length = a.length ∧ ∃ (hole : Nat) (v : α), (e.set hole v).Perm a

/-- The loop of `_Push_heap` with a comparison that may throw; `cmp` is called only when
`top < hole` holds. -/
def _Push_heap_loop_ex [Inhabited α] (cmp : α → α → Option Bool) (top : Nat) (val : α) :
    Nat → List α → Nat → Except (List α) (List α)
  | 0, a, hole => Except.ok (a.set hole val)
  | fuel + 1, a, hole =>
    let i := (hole - 1) / 2
    if top < hole then
      match cmp (deref a i) val with
      | none => Except.error a
      | some true => _Push_heap_loop_ex cmp top val fuel (a.set hole (deref a i)) i
      | some false => Except.ok (a.set hole val)
    else
      Except.ok (a.set hole val)

/-- The function `_Push_heap` with a comparison that may throw. -/
def _Push_heap_ex [Inhabited α] (cmp : α → α → Option Bool) (a : List α) (hole top : Nat)
    (val : α) : Except (List α) (List α) :=
  _Push_heap_loop_ex cmp top val hole a hole

/-- The function `push_heap` with a comparison that may throw. -/
def push_heap_ex [Inhabited α] (cmp : α → α → Option Bool) (a : List α) :
    Except (List α) (List α) :=
  let count := a.length
  if count ≥ 2 then
    let last := a.length - 1
    let val := deref a last
    _Push_heap_ex cmp a (count - 1) 0 val
  else
    Except.ok a

/-- The function `_Adjust_heap` with a comparison that may throw: the descent uses the
built-in `operator<`, the final `_Push_heap` uses `cmp`. -/
def _Adjust_heap_ex [Inhabited α] [LT α] [DecidableRel (fun x y : α => x < y)]
    (cmp : α → α → Option Bool) (a : List α) (hole len : Nat) (val : α) :
    Except (List α) (List α) :=
  let top := hole
  let r := _Adjust_heap_loop len len a hole (hole * 2 + 2)
  let a := r.1
  let hole := r.2.1
  let rightChild := r.2.2
  if rightChild = len then
    _Push_heap_ex cmp (a.set hole (deref a (rightChild - 1))) (rightChild - 1) top val
  else
    _Push_heap_ex cmp a hole top val

/-- The function `pop_heap` with a comparison that may throw. -/
def pop_heap_ex [Inhabited α] [LT α] [DecidableRel (fun x y : α => x < y)]
    (cmp : α → α → Option Bool) (a : List α) : Except (List α) (List α) :=
  let last := a.length - 1
  let val := deref a last
  _Adjust_heap_ex cmp (a.set last (deref a 0)) 0 last val

/-- The function `sort_heap` with a comparison that may throw: the body never calls `cmp`,
so it always completes. -/
def sort_heap_ex [Inhabited α] [LT α] [DecidableRel (fun x y : α => x < y)]
    (_cmp : α → α → Option Bool) (a : List α) : Except (List α) (List α) :=
  Except.ok (sort_heap_loop a.length a)

/-- The loop of `make_heap` with a comparison that may throw. -/
def make_heap_loop_ex [Inhabited α] [LT α] [DecidableRel (fun x y : α => x < y)]
    (cmp : α → α → Option Bool) (len : Nat) : Nat → List α → Except (List α) (List α)
  | 0, a => _Adjust_heap_ex cmp a 0 len (deref a 0)
  | parent + 1, a =>
    match _Adjust_heap_ex cmp a (parent + 1) len (deref a (parent + 1)) with
    | Except.error e => Except.error e
    | Except.ok a1 => make_heap_loop_ex cmp len parent a1

/-- The function `make_heap` with a comparison that may throw. -/
def make_heap_ex [Inhabited α] [LT α] [DecidableRel (fun x y : α => x < y)]
    (cmp : α → α → Option Bool) (a : List α) : Except (List α) (List α) :=
  if a.length < 2 then Except.ok a
  else make_heap_loop_ex cmp a.length ((a.length - 2) / 2) a

/-- The inner loop of `_Insert_sort` with a comparison that may throw; `cmp` is called only
when `j > first` holds. -/
def _Insert_sort_inner_ex [Inhabited α] (cmp : α → α → Option Bool) (key : α) :
    Nat → List α → Except (List α) (List α × Nat)
  | 0, a => Except.ok (a, 0)
  | j + 1, a =>
    match cmp key (deref a j) with
    | none => Except.error a
    | some true => _Insert_sort_inner_ex cmp key j (a.set (j + 1) (deref a j))
    | some false => Except.ok (a, j + 1)

/-- The outer loop of `_Insert_sort` with a comparison that may throw. -/
def _Insert_sort_outer_ex [Inhabited α] (cmp : α → α → Option Bool) :
    Nat → List α → Nat → Except (List α) (List α)
  | 0, a, _ => Except.ok a
  | fuel + 1, a, i =>
    if i ≠ a.length then
      let key := deref a i
      match _Insert_sort_inner_ex cmp key i a with
      | Except.error e => Except.error e
      | Except.ok r => _Insert_sort_outer_ex cmp fuel (r.1.set r.2 key) (i + 1)
    else Except.ok a

/-- The function `_Insert_sort` with a comparison that may throw. -/
def _Insert_sort_ex [Inhabited α] (cmp : α → α → Option Bool) (a : List α) :
    Except (List α) (List α) :=
  if a.length = 0 then Except.ok a else _Insert_sort_outer_ex cmp a.length a 1

/-- The scan of `_Partition` with a comparison that may throw. -/
def _Partition_loop_ex [Inhabited α] (cmp : α → α → Option Bool) (key : α) (lastm1 : Nat) :
    Nat → List α → Nat → Nat → Except (List α) (List α × Nat)
  | 0, a, i, _ => Except.ok (a, i)
  | fuel + 1, a, i, j =>
    if j < lastm1 then
      match cmp (deref a j) key with
      | none => Except.error a
      | some true => _Partition_loop_ex cmp key lastm1 fuel (iter_swap a i j) (i + 1) (j + 1)
      | some false => _Partition_loop_ex cmp key lastm1 fuel a i (j + 1)
    else Except.ok (a, i)

/-- The function `_Partition` with a comparison that may throw. -/
def _Partition_ex [Inhabited α] (cmp : α → α → Option Bool) (a : List α) (g : Nat → Nat) :
    Except (List α) (List α × Nat × (Nat → Nat)) :=
  let rp := _Get_random g a.length
  let randomPos := rp.1
  let a := iter_swap a randomPos (a.length - 1)
  let key := deref a (a.length - 1)
  match _Partition_loop_ex cmp key (a.length - 1) a.length a 0 0 with
  | Except.error e => Except.error e
  | Except.ok r => Except.ok (iter_swap r.1 r.2 (a.length - 1), r.2, rp.2)

/-- The second half of `_Quick_sort` with a comparison that may throw. -/
def _Quick_sort_finish_ex [Inhabited α] [LT α] [DecidableRel (fun x y : α => x < y)]
    (cmp : α → α → Option Bool) (count : Nat) (cur : List α) : Except (List α) (List α) :=
  if count > _INSERT_SORT_MAX then
    match make_heap_ex cmp cur with
    | Except.error e => Except.error e
    | Except.ok h => sort_heap_ex cmp h
  else if count ≥ 2 then _Insert_sort_ex cmp cur
  else Except.ok cur

/-- The function `_Quick_sort` with a comparison that may throw. An exception that leaves a
call on a sub-range leaves the rest of the range as it was at that moment. -/
def _Quick_sort_ex [Inhabited α] [LT α] [DecidableRel (fun x y : α => x < y)]
    (cmp : α → α → Option Bool) :
    Nat → List α → Nat → (Nat → Nat) → Except (List α) (List α × (Nat → Nat))
  | 0, a, _, g =>
    match _Quick_sort_finish_ex cmp a.length a with
    | Except.error e => Except.error e
    | Except.ok s => Except.ok (s, g)
  | fuel + 1, a, diff, g =>
    let count := a.length
    if count > _INSERT_SORT_MAX && diff > 0 then
      match _Partition_ex cmp a g with
      | Except.error e => Except.error e
      | Except.ok p =>
        let miditer := p.2.1
        let diff := (diff >>> 1) + (diff >>> 2)
        match _Quick_sort_ex cmp fuel (p.1.take miditer) diff p.2.2 with
        | Except.error e => Except.error (e ++ p.1.drop miditer)
        | Except.ok l =>
          match _Quick_sort_ex cmp fuel (p.1.drop (miditer + 1)) diff l.2 with
          | Except.error e => Except.error (l.1 ++ (p.1.drop miditer).take 1 ++ e)
          | Except.ok r =>
            match _Quick_sort_finish_ex cmp count ((p.1.drop miditer).take 1) with
            | Except.error e => Except.error (l.1 ++ e ++ r.1)
            | Except.ok c => Except.ok (l.1 ++ c ++ r.1, r.2)
    else
      match _Quick_sort_finish_ex cmp count a with
      | Except.error e => Except.error e
      | Except.ok s => Except.ok (s, g)

/-- The function `sort` with a comparison that may throw. -/
def sort_ex [Inhabited α] [LT α] [DecidableRel (fun x y : α => x < y)]
    (cmp : α → α → Option Bool) (a : List α) (g : Nat → Nat) :
    Except (List α) (List α × (Nat → Nat)) :=
  if (a.length : Int) - 1 > 0 then _Quick_sort_ex cmp a.length a a.length g
  else Except.ok (a, g)

/-- The less-than on integers that throws when called with exactly the arguments `(p, q)`. -/
def lessThrowAt (p q : Int) : Int → Int → Option Bool :=
  fun x y => if x = p ∧ y = q then none else some (decide (x < y))

end TinySTL

namespace TinySTL

variable {α : Type}

/-! ## Stability, extraction order and recursion budget -/

/-- Equivalence of two elements under `cmp`: neither is before the other. -/
def equivBy (cmp : α → α → Bool) (x y : α) : Bool := !cmp x y && !cmp y x

/-- Stability of the rearrangement `out` of `a`: for every element `x`, the elements equivalent
to `x` under `cmp` stand in `out` in the order they have in `a`. -/
def StableBy (cmp : α → α → Bool) (out a : List α) : Prop :=
  ∀ x, out.filter (equivBy cmp x) = a.filter (equivBy cmp x)

/-- A comparison of integers by their tens only, so that distinct integers can be equivalent:
`cmp(x, y) = (x / 10 < y / 10)`. -/
def byTens : Int → Int → Bool := fun x y => decide (x / 10 < y / 10)

/-- Repeated `pop_heap(first, last, cmp)` on the shrinking range, `n` being the current
`last - first`: each call moves the front of the heap to `last - 1`, where it is read off before
`last` is decremented. Returns the extracted elements in the order of their extraction. -/
def pop_all [Inhabited α] [LT α] [DecidableRel (fun x y : α => x < y)]
    (cmp : α → α → Bool) : Nat → List α → List α
  | 0, _ => []
  | n + 1, a =>
    let a := pop_heap cmp (a.take (n + 1)) ++ a.drop (n + 1)
    deref a n :: pop_all cmp n a

/-- The extraction order of `make_heap(first, last, cmp)` followed by repeated `pop_heap`. -/
def heap_extract [Inhabited α] [LT α] [DecidableRel (fun x y : α => x < y)]
    (cmp : α → α → Bool) (a : List α) : List α :=
  pop_all cmp a.length (make_heap cmp a)

/-- The budget update of `_Quick_sort`: `diff = (diff >> 1) + (diff >> 2);`. -/
def budget_step (diff : Nat) : Nat := (diff >>> 1) + (diff >>> 2)

/-- The budget handed to the calls at recursion level `k`, when `sort` starts `_Quick_sort`
with the budget `n = last - first`. -/
def budget_after (n : Nat) : Nat → Nat
  | 0 => n
  | k + 1 => budget_step (budget_after n k)

/-! ## Ordered search in the assertion-checked build -/

/-- The statement `assert(e);` of the build without `NDEBUG`: the program aborts, here `none`,
when `e` is false, and goes on otherwise. -/
def assert_ (e : Bool) : Option Unit := if e then some () else none

/-- The loop of `_Push_heap`, `none` when `fuel` iterations do not reach the exit. -/
def _Push_heap_loop_strict [Inhabited α] (cmp : α → α → Bool) (top : Nat) (val : α) :
    Nat → List α → Nat → Option (List α)
  | 0, a, hole =>
    if top < hole && cmp (deref a ((hole - 1) / 2)) val then none else some (a.set hole val)
  | fuel + 1, a, hole =>
    let i := (hole - 1) / 2
    if top < hole && cmp (deref a i) val then
      _Push_heap_loop_strict cmp top val fuel (a.set hole (deref a i)) i
    else
      some (a.set hole val)

/-- The `while (rightChild < len)` loop of `_Adjust_heap`, `none` when `fuel` iterations do not
reach the exit. -/
def _Adjust_heap_loop_strict [Inhabited α] [LT α] [DecidableRel (fun x y : α => x < y)]
    (len : Nat) : Nat → List α → Nat → Nat → Option (List α × Nat × Nat)
  | 0, a, hole, rightChild => if rightChild < len then none else some (a, hole, rightChild)
  | fuel + 1, a, hole, rightChild =>
    if rightChild < len then
      let rightChild := if deref a rightChild < deref a (rightChild - 1) then rightChild - 1
        else rightChild
      _Adjust_heap_loop_strict len fuel (a.set hole (deref a rightChild)) rightChild
        (rightChild * 2 + 2)
    else
      some (a, hole, rightChild)

/-- The `while (true)` loop of `make_heap`, left by `if (parent-- == 0) return;`, `none` when
`fuel` iterations do not reach the exit. -/
def make_heap_loop_strict [Inhabited α] [LT α] [DecidableRel (fun x y : α => x < y)]
    (cmp : α → α → Bool) (len : Nat) : Nat → Nat → List α → Option (List α)
  | 0, _, _ => none
  | fuel + 1, parent, a =>
    let a := _Adjust_heap cmp a parent len (deref a parent)
    if parent = 0 then some a else make_heap_loop_strict cmp len fuel (parent - 1) a

/-- The loop of `sort_heap`, `for (; last - first > 1; --last) pop_heap(first, last);`, `none`
when `fuel` iterations do not reach the exit. -/
def sort_heap_loop_strict [Inhabited α] [LT α] [DecidableRel (fun x y : α => x < y)] :
    Nat → Nat → List α → Option (List α)
  | 0, n, a => if n > 1 then none else some a
  | fuel + 1, n, a =>
    if n > 1 then
      sort_heap_loop_strict fuel (n - 1) (pop_heap less (a.take n) ++ a.drop n)
    else some a

/-- The inner loop of `_Insert_sort`, `none` when `fuel` iterations do not reach the exit. -/
def _Insert_sort_inner_strict [Inhabited α] (cmp : α → α → Bool) (key : α) :
    Nat → Nat → List α → Option (List α × Nat)
  | 0, j, a => if j > 0 && cmp key (deref a (j - 1)) then none else some (a, j)
  | fuel + 1, j, a =>
    if j > 0 && cmp key (deref a (j - 1)) then
      _Insert_sort_inner_strict cmp key fuel (j - 1) (a.set j (deref a (j - 1)))
    else some (a, j)

/-- The outer loop of `_Insert_sort`, `none` when `fuel` iterations do not reach the exit. -/
def _Insert_sort_outer_strict [Inhabited α] (cmp : α → α → Bool) :
    Nat → List α → Nat → Option (List α)
  | 0, a, i => if i ≠ a.length then none else some a
  | fuel + 1, a, i =>
    if i ≠ a.length then
      let key := deref a i
      let r := _Insert_sort_inner cmp key i a
      _Insert_sort_outer_strict cmp fuel (r.1.set r.2 key) (i + 1)
    else some a

/-- The scan of `_Partition`, `none` when `fuel` iterations do not reach the exit. -/
def _Partition_loop_strict [Inhabited α] (cmp : α → α → Bool) (key : α) (lastm1 : Nat) :
    Nat → List α → Nat → Nat → Option (List α × Nat)
  | 0, a, i, j => if j < lastm1 then none else some (a, i)
  | fuel + 1, a, i, j =>
    if j < lastm1 then
      if cmp (deref a j) key then
        _Partition_loop_strict cmp key lastm1 fuel (iter_swap a i j) (i + 1) (j + 1)
      else
        _Partition_loop_strict cmp key lastm1 fuel a i (j + 1)
    else some (a, i)

/-- The function `_Quick_sort(first, last, diff, cmp)`, `none` when the recursion is deeper
than `fuel`. -/
def _Quick_sort_strict [Inhabited α] [LT α] [DecidableRel (fun x y : α => x < y)]
    (cmp : α → α → Bool) : Nat → List α → Nat → (Nat → Nat) → Option (List α × (Nat → Nat))
  | 0, a, diff, g =>
    if a.length > _INSERT_SORT_MAX && diff > 0 then none
    else some (_Quick_sort_finish cmp a.length a, g)
  | fuel + 1, a, diff, g =>
    let count := a.length
    if count > _INSERT_SORT_MAX && diff > 0 then
      let p := _Partition cmp a g
      let miditer := p.2.1
      let diff := (diff >>> 1) + (diff >>> 2)
      (_Quick_sort_strict cmp fuel (p.1.take miditer) diff p.2.2).bind fun l =>
        (_Quick_sort_strict cmp fuel (p.1.drop (miditer + 1)) diff l.2).bind fun r =>
          some (l.1 ++ _Quick_sort_finish cmp count ((p.1.drop miditer).take 1) ++ r.1, r.2)
    else
      some (_Quick_sort_finish cmp count a, g)

/-! ## Non-modifying and modifying sequence operations -/

/-- The loop of `mismatch` with three iterators, `while (first1 != last1 && test(*first1,
*first2)) { ++first1; ++first2; }`, for the loop test `test`; `i1` and `i2` are the offsets of
`first1` and `first2` in the ranges `a` and `b`. -/
def mismatch_loop3 [Inhabited α] (test : α → α → Bool) (a b : List α) :
    Nat → Nat → Nat → Nat × Nat
  | 0, i1, i2 => (i1, i2)
  | fuel + 1, i1, i2 =>
    if i1 ≠ a.length && test (deref a i1) (deref b i2) then
      mismatch_loop3 test a b fuel (i1 + 1) (i2 + 1)
    else (i1, i2)

/-- The loop of `mismatch` with four iterators, `while (first1 != last1 && first2 != last2 &&
test(*first1, *first2)) { ++first1; ++first2; }`. -/
def mismatch_loop4 [Inhabited α] (test : α → α → Bool) (a b : List α) :
    Nat → Nat → Nat → Nat × Nat
  | 0, i1, i2 => (i1, i2)
  | fuel + 1, i1, i2 =>
    if i1 ≠ a.length && i2 ≠ b.length && test (deref a i1) (deref b i2) then
      mismatch_loop4 test a b fuel (i1 + 1) (i2 + 1)
    else (i1, i2)

/-- The function `mismatch(first1, last1, first2, pred)`: the loop test is `pred(*first1,
*first2)`. -/
def mismatch_pred [Inhabited α] (pred : α → α → Bool) (a b : List α) : Nat × Nat :=
  mismatch_loop3 pred a b a.length 0 0

/-- The function `mismatch(first1, last1, first2)`: the loop test is `*first1 != *first2`. -/
def mismatch_plain [Inhabited α] [DecidableEq α] (a b : List α) : Nat × Nat :=
  mismatch_loop3 (fun x y => decide (x ≠ y)) a b a.length 0 0

/-- The function `mismatch(first1, last1, first2, last2, pred)`. -/
def mismatch_pred4 [Inhabited α] (pred : α → α → Bool) (a b : List α) : Nat × Nat :=
  mismatch_loop4 pred a b a.length 0 0

/-- The function `mismatch(first1, last1, first2, last2)`: the loop test is
`*first1 != *first2`. -/
def mismatch_plain4 [Inhabited α] [DecidableEq α] (a b : List α) : Nat × Nat :=
  mismatch_loop4 (fun x y => decide (x ≠ y)) a b a.length 0 0

/-- The loop of `copy`, `for (; first != last; ++first) *dest++ = *first;`: `s` holds the
source elements not yet read, `d` is the storage that starts at the original `dest`, and `k`
the offset of `dest` in it. -/
def copy_loop : List α → List α → Nat → List α × Nat
  | [], d, k => (d, k)
  | x :: s, d, k => copy_loop s (d.set k x) (k + 1)

/-- The function `copy(first, last, dest)` for the source range `s`: the destination storage
after the call and the offset of the returned iterator from `dest`. -/
def copy (s d : List α) : List α × Nat := copy_loop s d 0

/-- The loop of `copy_n`, `for (Size i = 0; i < count; ++i) *dst = *src;`: neither `src` nor
`dst` is advanced, so every iteration writes the element at `src` to the position `dst`. -/
def copy_n_loop [Inhabited α] (s : List α) (count : Int) : Nat → Int → List α → List α
  | 0, _, d => d
  | fuel + 1, i, d =>
    if i < count then copy_n_loop s count fuel (i + 1) (d.set 0 (deref s 0)) else d

/-- The function `copy_n(src, count, dst)` for the source storage `s` that starts at `src`:
the destination storage after the call and the offset of the returned iterator from `dst`. -/
def copy_n [Inhabited α] (s : List α) (count : Int) (d : List α) : List α × Nat :=
  if count > 0 then (copy_n_loop s count count.toNat 0 d, 0) else (d, 0)

/-- The `do ... while (next != last)` loop of `rotate`: the storage, `first` and `mid` at loop
exit, `none` when `fuel` iterations do not reach the exit. -/
def rotate_loop1 [Inhabited α] (last : Nat) :
    Nat → List α → Nat → Nat → Nat → Option (List α × Nat × Nat)
  | 0, _, _, _, _ => none
  | fuel + 1, a, first, mid, next =>
    let a := iter_swap a first next
    let first := first + 1
    let next := next + 1
    let mid := if first = mid then next else mid
    if next ≠ last then rotate_loop1 last fuel a first mid next else some (a, first, mid)

/-- The `for (next = mid; next != last;)` loop of `rotate`, `none` when `fuel` iterations do not
reach the exit. -/
def rotate_loop2 [Inhabited α] (last : Nat) :
    Nat → List α → Nat → Nat → Nat → Option (List α)
  | 0, a, _, _, next => if next ≠ last then none else some a
  | fuel + 1, a, first, mid, next =>
    if next ≠ last then
      let a := iter_swap a first next
      let first := first + 1
      let next := next + 1
      if first = mid then rotate_loop2 last fuel a first next next
      else if next = last then rotate_loop2 last fuel a first mid mid
      else rotate_loop2 last fuel a first mid next
    else some a

/-- The position of the storage at hand whose element stands at position `k` once the second
loop of `rotate` has run to its exit from the state `first`, `mid`, `next`: the front
`[0, first)` stays, and it is followed by the elements of `[next, last)`, of `[mid, next)` and
of `[first, mid)`. -/
def rotate_src (last first mid next k : Nat) : Nat :=
  if k < first then k
  else if k < first + (last - next) then k - first + next
  else if k < first + (last - mid) then k - (first + (last - next)) + mid
  else k - (last - mid)

/-- The function `rotate(first, mid, last)` on the range `a` with `mid` an offset from `first`:
the range after the call and the offset of the returned iterator, `none` when a loop does not
exit within `fuel` iterations. -/
def rotate_fuel [Inhabited α] (fuel : Nat) (a : List α) (mid : Nat) : Option (List α × Nat) :=
  if 0 = mid then some (a, a.length)
  else if mid = a.length then some (a, 0)
  else
    (rotate_loop1 a.length fuel a 0 mid mid).bind fun r =>
      let ret := r.2.1
      (rotate_loop2 a.length fuel r.1 r.2.1 r.2.2 r.2.2).bind fun a => some (a, ret)

/-- The function `rotate(first, mid, last)` with the iteration bound `last - first`. -/
def rotate [Inhabited α] (a : List α) (mid : Nat) : Option (List α × Nat) :=
  rotate_fuel a.length a mid

end TinySTL

namespace TinySTL

variable {α : Type}

/-! ## `equal` and the comparison operators of `array` -/

/-- Modelled from the spec: the equality functor `tiny_stl::equal_to<>` of `functional.h`, a
header that is not part of the sources at hand; like `tiny_stl::less<>` it is taken to be the
built-in operator, here `==`. -/
def equal_to [DecidableEq α] : α → α → Bool := fun x y => decide (x = y)

/-- The loop of `equal(first1, last1, first2, pred)`: `for (; first1 != last1; ++first1,
++first2) if (!pred(*first1, *first2)) return false; return true;`, with `i1` and `i2` the
offsets of `first1` and `first2` in the range `a` and in the storage `b`. -/
def equal_loop [Inhabited α] (pred : α → α → Bool) (a b : List α) : Nat → Nat → Nat → Bool
  | 0, _, _ => true
  | fuel + 1, i1, i2 =>
    if i1 ≠ a.length then
      if !pred (deref a i1) (deref b i2) then false
      else equal_loop pred a b fuel (i1 + 1) (i2 + 1)
    else true

/-- The function `equal(first1, last1, first2, pred)`. -/
def equal [Inhabited α] (pred : α → α → Bool) (a b : List α) : Bool :=
  equal_loop pred a b a.length 0 0

/-- The `operator==` of `array<T, Size>`: `equal(lhs.begin(), lhs.end(), rhs.begin())`, which
passes `equal_to<>`. An array is the list of its `Size` elements. -/
def array_eq [Inhabited α] [DecidableEq α] (lhs rhs : List α) : Bool :=
  equal equal_to lhs rhs

/-- The `operator!=` of `array<T, Size>`: `!(lhs == rhs)`. -/
def array_ne [Inhabited α] [DecidableEq α] (lhs rhs : List α) : Bool :=
  !array_eq lhs rhs

/-- The `operator<` of `array<T, Size>`: `lexicographical_compare(lhs.begin(), lhs.end(),
rhs.begin(), rhs.end())`, which passes `less<>`. -/
def array_lt [LT α] [DecidableRel (fun x y : α => x < y)] (lhs rhs : List α) : Bool :=
  lexicographical_compare less lhs rhs

/-- The `operator>` of `array<T, Size>`: `rhs < lhs`. -/
def array_gt [LT α] [DecidableRel (fun x y : α => x < y)] (lhs rhs : List α) : Bool :=
  array_lt rhs lhs

/-- The `operator<=` of `array<T, Size>`: `!(rhs < lhs)`. -/
def array_le [LT α] [DecidableRel (fun x y : α => x < y)] (lhs rhs : List α) : Bool :=
  !array_lt rhs lhs

/-- The `operator>=` of `array<T, Size>`: `!(lhs < rhs)`. -/
def array_ge [LT α] [DecidableRel (fun x y : α => x < y)] (lhs rhs : List α) : Bool :=
  !array_lt lhs rhs

/-! ## The array iterator of the `_DEBUG` build

An operation yields `none` when one of its assertions fails. The iterators range over an array
whose elements are the list `a`, so `Size` is `a.length`; `size_t` has 64 bits. -/

/-- The class `_Array_const_iterator` of the `_DEBUG` build: the address `ptr` of the first
element of the array (`0` for `nullptr`) and the index `idx`. -/
structure _Array_const_iterator where
  /-- The member `ptr`. -/
  ptr : Nat
  /-- The member `idx`. -/
  idx : Nat
deriving DecidableEq

/-- The iterator `array::begin()`, `iterator(elements, 0)`, of an array at the address `p`. -/
def array_begin (p : Nat) : _Array_const_iterator := ⟨p, 0⟩

/-- The iterator `array::end()`, `iterator(elements, Size)`, of an array at the address `p`. -/
def array_end (p Size : Nat) : _Array_const_iterator := ⟨p, Size⟩

/-- The `operator*`: `assert(ptr != nullptr && idx < Size); return ptr[idx];`. -/
def iter_deref [Inhabited α] (a : List α) (it : _Array_const_iterator) : Option α :=
  (assert_ (it.ptr != 0 && decide (it.idx < a.length))).bind fun _ => some (deref a it.idx)

/-- The pre-increment: `assert(ptr != nullptr && idx < Size); ++idx;`. -/
def iter_inc (Size : Nat) (it : _Array_const_iterator) : Option _Array_const_iterator :=
  (assert_ (it.ptr != 0 && decide (it.idx < Size))).bind fun _ => some ⟨it.ptr, it.idx + 1⟩

/-- The pre-decrement: `assert(ptr != nullptr && idx != 0); --idx;`. -/
def iter_dec (it : _Array_const_iterator) : Option _Array_const_iterator :=
  (assert_ (it.ptr != 0 && it.idx != 0)).bind fun _ => some ⟨it.ptr, it.idx - 1⟩

/-- The `operator+` with an offset, through `operator+=`: `assert(idx + offset <= Size);
idx += offset;`, the sum being taken in `size_t`, that is modulo `2 ^ 64 = 18446744073709551616`. -/
def iter_add (Size : Nat) (it : _Array_const_iterator) (offset : Int) :
    Option _Array_const_iterator :=
  let s := (((it.idx : Int) + offset) % (18446744073709551616 : Int)).toNat
  (assert_ (decide (s ≤ Size))).bind fun _ => some ⟨it.ptr, s⟩

/-- The `operator-` with an offset, through `operator-=`: `*this += (-offset)`. -/
def iter_sub (Size : Nat) (it : _Array_const_iterator) (offset : Int) :
    Option _Array_const_iterator :=
  iter_add Size it (-offset)

/-- The `operator-` of two iterators: `assert(ptr == rhs.ptr); return idx - rhs.idx;`. -/
def iter_diff (l r : _Array_const_iterator) : Option Int :=
  (assert_ (l.ptr == r.ptr)).bind fun _ => some ((l.idx : Int) - (r.idx : Int))

/-- The `operator==`: `assert(ptr == rhs.ptr); return idx == rhs.idx;`. -/
def iter_eq (l r : _Array_const_iterator) : Option Bool :=
  (assert_ (l.ptr == r.ptr)).bind fun _ => some (l.idx == r.idx)

/-- The `operator!=`: `!(*this == rhs)`. -/
def iter_ne (l r : _Array_const_iterator) : Option Bool :=
  (iter_eq l r).bind fun c => some (!c)

/-- The `operator<`: `assert(ptr != rhs.ptr); return idx < rhs.idx;`. -/
def iter_lt (l r : _Array_const_iterator) : Option Bool :=
  (assert_ (l.ptr != r.ptr)).bind fun _ => some (decide (l.idx < r.idx))

/-- The `operator<=`: `!(rhs < *this)`. -/
def iter_le (l r : _Array_const_iterator) : Option Bool :=
  (iter_lt r l).bind fun c => some (!c)

/-- The `operator>`: `rhs < *this`. -/
def iter_gt (l r : _Array_const_iterator) : Option Bool :=
  iter_lt r l

/-- The `operator>=`: `!(*this < rhs)`. -/
def iter_ge (l r : _Array_const_iterator) : Option Bool :=
  (iter_lt l r).bind fun c => some (!c)

/-- The inner loop of `_Insert_sort` on array iterators of the `_DEBUG` build:
`for (; j > first && cmp(key, *(j - 1)); --j) *j = *(j - 1);`. Returns the storage and `j` at
loop exit. -/
def _Insert_sort_inner_dbg [Inhabited α] (cmp : α → α → Bool) (key : α)
    (first : _Array_const_iterator) :
    Nat → List α → _Array_const_iterator → Option (List α × _Array_const_iterator)
  | 0, a, j => some (a, j)
  | fuel + 1, a, j =>
    (iter_gt j first).bind fun c =>
      if c then
        (iter_sub a.length j 1).bind fun jm1 =>
          (iter_deref a jm1).bind fun x =>
            if cmp key x then
              (iter_deref a j).bind fun _ =>
                (iter_dec j).bind fun j1 =>
                  _Insert_sort_inner_dbg cmp key first fuel (a.set j.idx x) j1
            else some (a, j)
      else some (a, j)

/-- The outer loop of `_Insert_sort` on array iterators of the `_DEBUG` build:
`for (i = first + 1; i != last; ++i)`, with `*j = key` after the inner loop. -/
def _Insert_sort_outer_dbg [Inhabited α] (cmp : α → α → Bool)
    (first last : _Array_const_iterator) :
    Nat → List α → _Array_const_iterator → Option (List α)
  | 0, a, _ => some a
  | fuel + 1, a, i =>
    (iter_ne i last).bind fun c =>
      if c then
        (iter_deref a i).bind fun key =>
          (_Insert_sort_inner_dbg cmp key first a.length a i).bind fun r =>
            (iter_deref r.1 r.2).bind fun _ =>
              (iter_inc a.length i).bind fun i1 =>
                _Insert_sort_outer_dbg cmp first last fuel (r.1.set r.2.idx key) i1
      else some a

/-- The function `_Insert_sort(first, last, cmp)` on the iterators `begin()` and `end()` of an
array at the address `p` with the elements `a`, in the `_DEBUG` build. -/
def _Insert_sort_dbg [Inhabited α] (cmp : α → α → Bool) (p : Nat) (a : List α) :
    Option (List α) :=
  (iter_eq (array_begin p) (array_end p a.length)).bind fun c =>
    if c then some a
    else
      (iter_add a.length (array_begin p) 1).bind fun i =>
        _Insert_sort_outer_dbg cmp (array_begin p) (array_end p a.length) a.length a i

/-- The scan of `_Partition` on array iterators of the `_DEBUG` build:
`for (j = first; j < last - 1; ++j) if (cmp(*j, key)) iter_swap(i++, j);`. Returns the
storage and `i`. -/
def _Partition_loop_dbg [Inhabited α] (cmp : α → α → Bool) (key : α)
    (last : _Array_const_iterator) :
    Nat → List α → _Array_const_iterator → _Array_const_iterator →
      Option (List α × _Array_const_iterator)
  | 0, a, i, _ => some (a, i)
  | fuel + 1, a, i, j =>
    (iter_sub a.length last 1).bind fun lm1 =>
      (iter_lt j lm1).bind fun c =>
        if c then
          (iter_deref a j).bind fun x =>
            if cmp x key then
              (iter_inc a.length i).bind fun i1 =>
                (iter_deref a i).bind fun _ =>
                  (iter_inc a.length j).bind fun j1 =>
                    _Partition_loop_dbg cmp key last fuel (iter_swap a i.idx j.idx) i1 j1
            else
              (iter_inc a.length j).bind fun j1 =>
                _Partition_loop_dbg cmp key last fuel a i j1
        else some (a, i)

/-- The function `_Partition(first, last, cmp)` on the iterators `begin()` and `end()` of an
array at the address `p` with the elements `a`, in the `_DEBUG` build: the storage, the
returned iterator and the advanced stream. -/
def _Partition_dbg [Inhabited α] (cmp : α → α → Bool) (p : Nat) (a : List α) (g : Nat → Nat) :
    Option (List α × _Array_const_iterator × (Nat → Nat)) :=
  let first := array_begin p
  let last := array_end p a.length
  (iter_diff last first).bind fun count =>
    let rp := _Get_random g count.toNat
    (iter_add a.length first rp.1).bind fun it1 =>
      (iter_sub a.length last 1).bind fun it2 =>
        (iter_deref a it1).bind fun _ =>
          (iter_deref a it2).bind fun _ =>
            let a1 := iter_swap a it1.idx it2.idx
            (iter_sub a1.length last 1).bind fun lm1 =>
              (iter_deref a1 lm1).bind fun key =>
                (_Partition_loop_dbg cmp key last a1.length a1 first first).bind fun r =>
                  (iter_sub r.1.length last 1).bind fun lm2 =>
                    (iter_deref r.1 r.2).bind fun _ =>
                      (iter_deref r.1 lm2).bind fun _ =>
                        some (iter_swap r.1 r.2.idx lm2.idx, r.2, rp.2)

end TinySTL

namespace TinySTL

variable {α : Type}

/-! ## Reads and writes -/

theorem deref_eq_getElem [Inhabited α] (a : List α) (k : Nat) (h : k < a.length) :
    deref a k = a[k] := by
  unfold deref
  exact List.getD_eq_getElem a default h

theorem deref_set [Inhabited α] (a : List α) (i j : Nat) (v : α) :
    deref (a.set i v) j = if i = j ∧ i < a.length then v else deref a j := by
  unfold deref
  simp only [List.getD_eq_getElem?_getD, List.getElem?_set]
  by_cases hij : i = j
  · subst hij
    by_cases hi : i < a.length
    · simp [hi]
    · simp [hi, List.getElem?_eq_none (Nat.le_of_not_lt hi)]
  · simp [hij]

theorem deref_set_self [Inhabited α] (a : List α) (i : Nat) (v : α) (h : i < a.length) :
    deref (a.set i v) i = v := by
  simp [deref_set, h]

theorem deref_set_ne [Inhabited α] (a : List α) (i j : Nat) (v : α) (h : i ≠ j) :
    deref (a.set i v) j = deref a j := by
  simp [deref_set, h]

theorem deref_append_left [Inhabited α] (a b : List α) (k : Nat) (h : k < a.length) :
    deref (a ++ b) k = deref a k := by
  unfold deref
  simp [List.getElem?_append_left h]

theorem deref_append_right [Inhabited α] (a b : List α) (k : Nat) (h : a.length ≤ k) :
    deref (a ++ b) k = deref b (k - a.length) := by
  unfold deref
  simp [List.getElem?_append_right h]

theorem deref_take [Inhabited α] (a : List α) (n k : Nat) (h : k < n) :
    deref (a.take n) k = deref a k := by
  unfold deref
  simp [List.getElem?_take, h]

theorem deref_drop [Inhabited α] (a : List α) (n k : Nat) :
    deref (a.drop n) k = deref a (n + k) := by
  unfold deref
  simp [List.getElem?_drop]

theorem deref_mem [Inhabited α] (a : List α) (k : Nat) (h : k < a.length) : deref a k ∈ a := by
  rw [deref_eq_getElem a k h]
  exact List.getElem_mem h

theorem exists_deref_of_mem [Inhabited α] (a : List α) (x : α) (h : x ∈ a) :
    ∃ k, k < a.length ∧ deref a k = x := by
  obtain ⟨k, hk, hx⟩ := List.getElem_of_mem h
  exact ⟨k, hk, by rw [deref_eq_getElem a k hk, hx]⟩

/-- Two lists of the same length with the same reads are equal. -/
theorem ext_deref [Inhabited α] (a b : List α) (hl : a.length = b.length)
    (h : ∀ k, k < a.length → deref a k = deref b k) : a = b := by
  apply List.ext_getElem hl
  intro k h1 h2
  have := h k h1
  rwa [deref_eq_getElem a k h1, deref_eq_getElem b k h2] at this

/-- Exchanging two positions of a list permutes it. -/
theorem swap_perm [Inhabited α] (a : List α) (i j : Nat) (hi : i < a.length)
    (hj : j < a.length) : ((a.set i (deref a j)).set j (deref a i)).Perm a := by
  rw [deref_eq_getElem a i hi, deref_eq_getElem a j hj]
  classical
  rw [List.perm_iff_count]
  intro b
  by_cases hij : i = j
  · subst hij
    have hself : a.set i a[i] = a := by
      apply List.ext_getElem (by simp)
      intro k h1 h2
      by_cases hk : i = k
      · subst hk; simp
      · simp [List.getElem_set_ne hk]
    rw [List.set_set, hself]
  · have hj2 : j < (a.set i a[j]).length := by simpa using hj
    rw [List.count_set _ _ _ _ hj2, List.count_set _ _ _ _ hi, List.getElem_set_ne hij]
    have h1 := List.boole_getElem_le_count b a i hi
    split_ifs at h1 ⊢ <;> omega

theorem iter_swap_perm [Inhabited α] (a : List α) (i j : Nat) (hi : i < a.length)
    (hj : j < a.length) : (iter_swap a i j).Perm a :=
  swap_perm a i j hi hj

theorem iter_swap_length [Inhabited α] (a : List α) (i j : Nat) :
    (iter_swap a i j).length = a.length := by
  simp [iter_swap]

theorem deref_iter_swap [Inhabited α] (a : List α) (i j k : Nat) (hi : i < a.length)
    (hj : j < a.length) :
    deref (iter_swap a i j) k = if k = j then deref a i else if k = i then deref a j
      else deref a k := by
  unfold iter_swap
  rw [deref_set, deref_set]
  simp only [List.length_set]
  by_cases h1 : j = k
  · subst h1; simp [hj]
  · by_cases h2 : i = k
    · subst h2; simp [h1, hi, Ne.symm h1]
    · simp [h1, h2, Ne.symm h1, Ne.symm h2]

/-- Moving the hole: storing `val` in the new hole `i` after the element of `i` went to the old
hole `h` is an exchange of two positions of the list that has `val` in the old hole. -/
theorem hole_move_perm [Inhabited α] (a : List α) (h i : Nat) (val : α) (hh : h < a.length)
    (hi : i < a.length) (hne : i ≠ h) :
    ((a.set h (deref a i)).set i val).Perm (a.set h val) := by
  have hb : (a.set h val).length = a.length := List.length_set ..
  have key := swap_perm (a.set h val) h i (by rw [hb]; exact hh) (by rw [hb]; exact hi)
  rw [deref_set_ne a h i val (Ne.symm hne), deref_set_self a h val hh, List.set_set] at key
  exact key

/-! ## Strict weak orderings -/

theorem StrictWeakOrder.asymm {cmp : α → α → Bool} (h : StrictWeakOrder cmp) {x y : α}
    (hxy : cmp x y = true) : cmp y x = false := by
  by_contra hc
  have hyx : cmp y x = true := by simpa using hc
  have := h.trans x y x hxy hyx
  rw [h.irrefl x] at this
  exact Bool.noConfusion this

/-- Negative transitivity: `x ≥ y` and `y ≥ z` give `x ≥ z`. -/
theorem StrictWeakOrder.neg_trans {cmp : α → α → Bool} (h : StrictWeakOrder cmp) {x y z : α}
    (hxy : cmp x y = false) (hyz : cmp y z = false) : cmp x z = false := by
  by_contra hc
  have hxz : cmp x z = true := by simpa using hc
  have hyx : cmp y x = false := by
    by_contra h1
    have h1 : cmp y x = true := by simpa using h1
    have := h.trans y x z h1 hxz
    rw [hyz] at this
    exact Bool.noConfusion this
  have hzy : cmp z y = false := by
    by_contra h1
    have h1 : cmp z y = true := by simpa using h1
    have := h.trans x z y hxz h1
    rw [hxy] at this
    exact Bool.noConfusion this
  have := (h.incomp_trans x y z hxy hyx hyz hzy).1
  rw [hxz] at this
  exact Bool.noConfusion this

theorem StrictWeakOrder.lt_of_lt_of_le {cmp : α → α → Bool} (h : StrictWeakOrder cmp)
    {x y z : α} (hxy : cmp x y = true) (hzy : cmp z y = false) : cmp x z = true := by
  by_contra hc
  have hxz : cmp x z = false := by simpa using hc
  have := h.neg_trans hxz hzy
  rw [hxy] at this
  exact Bool.noConfusion this

theorem StrictWeakOrder.lt_of_le_of_lt {cmp : α → α → Bool} (h : StrictWeakOrder cmp)
    {x y z : α} (hyx : cmp y x = false) (hyz : cmp y z = true) : cmp x z = true := by
  by_contra hc
  have hxz : cmp x z = false := by simpa using hc
  have := h.neg_trans hyx hxz
  rw [hyz] at this
  exact Bool.noConfusion this

/-- The built-in order of the integers is a strict weak ordering. -/
theorem less_int_swo : StrictWeakOrder (less : Int → Int → Bool) where
  irrefl := by intro x; simp [less]
  trans := by intro x y z; simp only [less, decide_eq_true_eq]; omega
  incomp_trans := by intro x y z; simp only [less, decide_eq_false_iff_not]; omega

theorem greater_int_swo : StrictWeakOrder (greater : Int → Int → Bool) where
  irrefl := by intro x; simp [greater]
  trans := by intro x y z; simp only [greater, decide_eq_true_eq]; omega
  incomp_trans := by intro x y z; simp only [greater, decide_eq_false_iff_not]; omega

/-! ## Sortedness -/

/-- The loop of `is_sorted_until` reaches `last` exactly when no adjacent pair from `k` on is
out of order. -/
theorem is_sorted_until_loop_eq [Inhabited α] (cmp : α → α → Bool) (a : List α) :
    ∀ fuel k, a.length ≤ k + fuel → k < a.length →
      (is_sorted_until_loop cmp a fuel k k = a.length ↔
        ∀ j, k ≤ j → j + 1 < a.length → cmp (deref a (j + 1)) (deref a j) = false) := by
  intro fuel
  induction fuel with
  | zero => intro k h1 h2; omega
  | succ f ih =>
    intro k h1 h2
    unfold is_sorted_until_loop
    by_cases hk : k + 1 = a.length
    · simp only [hk, ne_eq, not_true_eq_false, if_false, true_iff]
      intro j hj1 hj2; omega
    · simp only [ne_eq, hk, not_false_eq_true, if_true]
      by_cases hc : cmp (deref a (k + 1)) (deref a k) = true
      · simp only [hc, if_true]
        constructor
        · intro h; omega
        · intro h
          have := h k (Nat.le_refl k) (by omega)
          rw [hc] at this
          exact Bool.noConfusion this
      · have hc2 : cmp (deref a (k + 1)) (deref a k) = false := by simpa using hc
        simp only [hc2, Bool.false_eq_true, if_false]
        rw [ih (k + 1) (by omega) (by omega)]
        constructor
        · intro h j hj1 hj2
          by_cases hjk : j = k
          · subst hjk; exact hc2
          · exact h j (by omega) hj2
        · intro h j hj1 hj2
          exact h j (by omega) hj2

/-- The source predicate `is_sorted` holds exactly when no adjacent pair is out of order. -/
theorem is_sorted_iff_adjacent [Inhabited α] (cmp : α → α → Bool) (a : List α) :
    is_sorted cmp a = true ↔
      ∀ j, j + 1 < a.length → cmp (deref a (j + 1)) (deref a j) = false := by
  unfold is_sorted is_sorted_until
  by_cases h0 : a.length = 0
  · simp only [h0, ne_eq, not_true_eq_false, if_false, beq_self_eq_true, true_iff]
    intro j hj; omega
  · simp only [ne_eq, h0, not_false_eq_true, if_true, beq_iff_eq]
    rw [is_sorted_until_loop_eq cmp a a.length 0 (by omega) (by omega)]
    constructor
    · intro h j hj; exact h j (Nat.zero_le j) hj
    · intro h j _ hj; exact h j hj

/-- Under a strict weak ordering, adjacent sortedness gives sortedness of every pair. -/
theorem adjacent_to_pairs [Inhabited α] {cmp : α → α → Bool} (h : StrictWeakOrder cmp)
    (a : List α)
    (hadj : ∀ j, j + 1 < a.length → cmp (deref a (j + 1)) (deref a j) = false) :
    ∀ i j, i ≤ j → j < a.length → cmp (deref a j) (deref a i) = false := by
  intro i j hij
  induction j with
  | zero =>
    intro _
    have : i = 0 := by omega
    subst this
    exact h.irrefl _
  | succ n ih =>
    intro hj
    by_cases hin : i = n + 1
    · subst hin; exact h.irrefl _
    · exact h.neg_trans (hadj n hj) (ih (by omega) (by omega))

theorem sortedBy_iff_pairs [Inhabited α] (cmp : α → α → Bool) (a : List α) :
    SortedBy cmp a ↔ ∀ i j, i < j → j < a.length → cmp (deref a j) (deref a i) = false := by
  unfold SortedBy
  rw [List.pairwise_iff_getElem]
  constructor
  · intro h i j hij hj
    have := h i j (by omega) hj hij
    rwa [deref_eq_getElem a j hj, deref_eq_getElem a i (by omega)]
  · intro h i j hi hj hij
    have := h i j hij hj
    rwa [deref_eq_getElem a j hj, deref_eq_getElem a i hi] at this

theorem is_sorted_of_sortedBy [Inhabited α] (cmp : α → α → Bool) (a : List α)
    (h : SortedBy cmp a) : is_sorted cmp a = true := by
  rw [is_sorted_iff_adjacent]
  intro j hj
  exact (sortedBy_iff_pairs cmp a).1 h j (j + 1) (by omega) hj

theorem sortedBy_of_is_sorted [Inhabited α] {cmp : α → α → Bool} (hswo : StrictWeakOrder cmp)
    (a : List α) (h : is_sorted cmp a = true) : SortedBy cmp a := by
  rw [sortedBy_iff_pairs]
  intro i j hij hj
  exact adjacent_to_pairs hswo a ((is_sorted_iff_adjacent cmp a).1 h) i j (by omega) hj

end TinySTL

namespace TinySTL

variable {α : Type}

/-! ## Ordered search -/

/-- Fuel beyond the window size does not change the result of the `lower_bound` loop. -/
theorem lower_bound_loop_fuel_succ [Inhabited α] (cmp : α → α → Bool) (a : List α) (val : α) :
    ∀ fuel first ret size, size ≤ fuel →
      lower_bound_loop cmp a val (fuel + 1) first ret size =
        lower_bound_loop cmp a val fuel first ret size := by
  intro fuel
  induction fuel with
  | zero =>
    intro first ret size h
    have : size = 0 := by omega
    subst this
    simp [lower_bound_loop]
  | succ f ih =>
    intro first ret size h
    rw [lower_bound_loop]
    conv => rhs; rw [lower_bound_loop]
    have h2 : size >>> 1 ≤ f := by rw [Nat.shiftRight_eq_div_pow]; omega
    by_cases hs : size > 0
    · simp only [hs, if_true]
      have h3 : size - (size >>> 1 + 1) ≤ f := by omega
      rw [ih _ _ _ h2, ih _ _ _ h3]
    · simp [hs]

/-- The binary search of `lower_bound` on a range partitioned by `fun x => cmp x val`: the
result splits the range into the elements that are before `val` and those that are not. -/
theorem lower_bound_loop_spec [Inhabited α] (cmp : α → α → Bool) (a : List α) (val : α)
    (hpart : ∀ i j, i ≤ j → j < a.length → cmp (deref a j) val = true →
      cmp (deref a i) val = true) :
    ∀ fuel first ret size, size ≤ fuel → first + size ≤ a.length → (size = 0 → ret = first) →
      (∀ q, q < first → cmp (deref a q) val = true) →
      (∀ q, first + size ≤ q → q < a.length → cmp (deref a q) val = false) →
      lower_bound_loop cmp a val fuel first ret size ≤ a.length ∧
      (∀ q, q < lower_bound_loop cmp a val fuel first ret size → cmp (deref a q) val = true) ∧
      (∀ q, lower_bound_loop cmp a val fuel first ret size ≤ q → q < a.length →
        cmp (deref a q) val = false) := by
  intro fuel
  induction fuel with
  | zero =>
    intro first ret size h1 h2 h3 h4 h5
    have hs : size = 0 := by omega
    have hr := h3 hs
    subst hs
    subst hr
    simp only [lower_bound_loop]
    exact ⟨by omega, h4, fun q hq hl => h5 q (by omega) hl⟩
  | succ f ih =>
    intro first ret size h1 h2 h3 h4 h5
    rw [lower_bound_loop]
    by_cases hs : size > 0
    · simp only [hs, if_true]
      have hstep : size >>> 1 = size / 2 := by rw [Nat.shiftRight_eq_div_pow, Nat.pow_one]
      have hmid : first + size >>> 1 < a.length := by rw [hstep]; omega
      by_cases hc : cmp (deref a (first + size >>> 1)) val = true
      · simp only [hc, Bool.not_true, Bool.false_eq_true, if_false]
        apply ih
        · rw [hstep]; omega
        · rw [hstep]; omega
        · intro _; rfl
        · intro q hq
          exact hpart q (first + size >>> 1) (by omega) hmid hc
        · intro q hq hl
          apply h5 q _ hl
          rw [hstep] at hq; omega
      · have hc2 : cmp (deref a (first + size >>> 1)) val = false := by simpa using hc
        simp only [hc2, Bool.not_false, if_true]
        apply ih
        · rw [hstep]; omega
        · rw [hstep]; omega
        · intro h0; rw [h0]; rfl
        · exact h4
        · intro q hq hl
          by_contra hq2
          have hq3 : cmp (deref a q) val = true := by simpa using hq2
          have := hpart (first + size >>> 1) q hq hl hq3
          rw [hc2] at this
          exact Bool.noConfusion this
    · have hs0 : size = 0 := by omega
      have hr := h3 hs0
      subst hs0
      subst hr
      simp only [gt_iff_lt, Nat.lt_irrefl, if_false]
      exact ⟨by omega, h4, fun q hq hl => h5 q (by omega) hl⟩

/-- The loop of `upper_bound` is the loop of `lower_bound` for the test `!cmp(val, x)`. -/
theorem upper_bound_loop_eq [Inhabited α] (cmp : α → α → Bool) (a : List α) (val : α) :
    ∀ fuel first ret size, upper_bound_loop cmp a val fuel first ret size =
      lower_bound_loop (fun x v => !cmp v x) a val fuel first ret size := by
  intro fuel
  induction fuel with
  | zero => intro first ret size; simp [upper_bound_loop, lower_bound_loop]
  | succ f ih =>
    intro first ret size
    rw [upper_bound_loop, lower_bound_loop]
    simp only [ih, Bool.not_not]

theorem lower_bound_partitioned [Inhabited α] {cmp : α → α → Bool} (hswo : StrictWeakOrder cmp)
    (a : List α) (val : α) (hs : is_sorted cmp a = true) :
    ∀ i j, i ≤ j → j < a.length → cmp (deref a j) val = true → cmp (deref a i) val = true := by
  intro i j hij hj hc
  have hp := adjacent_to_pairs hswo a ((is_sorted_iff_adjacent cmp a).1 hs) i j hij hj
  exact hswo.lt_of_le_of_lt hp hc

theorem upper_bound_partitioned [Inhabited α] {cmp : α → α → Bool} (hswo : StrictWeakOrder cmp)
    (a : List α) (val : α) (hs : is_sorted cmp a = true) :
    ∀ i j, i ≤ j → j < a.length → (!cmp val (deref a j)) = true →
      (!cmp val (deref a i)) = true := by
  intro i j hij hj hc
  have hp := adjacent_to_pairs hswo a ((is_sorted_iff_adjacent cmp a).1 hs) i j hij hj
  have hc2 : cmp val (deref a j) = false := by simpa using hc
  have := hswo.neg_trans hc2 hp
  simp [this]

/-- Facts about `lower_bound` on a sorted range, shared by the claims on the search family. -/
theorem lower_bound_facts [Inhabited α] {cmp : α → α → Bool} (hswo : StrictWeakOrder cmp)
    (a : List α) (val : α) (hs : is_sorted cmp a = true) :
    lower_bound cmp a val ≤ a.length ∧
    (∀ q, q < lower_bound cmp a val → cmp (deref a q) val = true) ∧
    (∀ q, lower_bound cmp a val ≤ q → q < a.length → cmp (deref a q) val = false) := by
  unfold lower_bound
  apply lower_bound_loop_spec cmp a val (lower_bound_partitioned hswo a val hs)
  · exact Nat.le_refl _
  · omega
  · intro _; rfl
  · intro q hq; omega
  · intro q hq hl; omega

/-- Facts about `upper_bound` on a sorted range, shared by the claims on the search family. -/
theorem upper_bound_facts [Inhabited α] {cmp : α → α → Bool} (hswo : StrictWeakOrder cmp)
    (a : List α) (val : α) (hs : is_sorted cmp a = true) :
    upper_bound cmp a val ≤ a.length ∧
    (∀ q, q < upper_bound cmp a val → cmp val (deref a q) = false) ∧
    (∀ q, upper_bound cmp a val ≤ q → q < a.length → cmp val (deref a q) = true) := by
  unfold upper_bound
  rw [upper_bound_loop_eq]
  have h := lower_bound_loop_spec (fun x v => !cmp v x) a val
    (upper_bound_partitioned hswo a val hs) a.length 0 0 a.length (Nat.le_refl _) (by omega)
    (fun _ => rfl) (fun q hq => by omega) (fun q hq hl => by omega)
  refine ⟨h.1, ?_, ?_⟩
  · intro q hq
    simpa using h.2.1 q hq
  · intro q hq hl
    simpa using h.2.2 q hq hl

/-- C9: on a range sorted under a strict weak ordering, `lower_bound` returns a position `p`
of `[first, last]` with `p == last` or `!cmp(*p, value)`, every position before `p` satisfies
`cmp(*q, value)`, and `p` is the smallest position with that property. -/
theorem lower_bound_correct [Inhabited α] (cmp : α → α → Bool) (hswo : StrictWeakOrder cmp)
    (a : List α) (value : α) (hs : is_sorted cmp a = true) :
    lower_bound cmp a value ≤ a.length ∧
    (lower_bound cmp a value = a.length ∨
      cmp (deref a (lower_bound cmp a value)) value = false) ∧
    (∀ q, q < lower_bound cmp a value → cmp (deref a q) value = true) ∧
    (∀ p, p ≤ a.length → (p = a.length ∨ cmp (deref a p) value = false) →
      lower_bound cmp a value ≤ p) := by
  obtain ⟨h1, h2, h3⟩ := lower_bound_facts hswo a value hs
  refine ⟨h1, ?_, h2, ?_⟩
  · by_cases heq : lower_bound cmp a value = a.length
    · exact Or.inl heq
    · exact Or.inr (h3 _ (Nat.le_refl _) (by omega))
  · intro p hp hor
    by_contra hlt
    have hlt2 : p < lower_bound cmp a value := by omega
    rcases hor with h | h
    · omega
    · rw [h2 p hlt2] at h
      exact Bool.noConfusion h

theorem lower_bound_correct_witness :
    is_sorted less ([1, 2, 2, 2, 5] : List Int) = true ∧ lower_bound less [1, 2, 2, 2, 5] (2 : Int) ≤ 5 :=
  ⟨by decide, (lower_bound_correct less less_int_swo [1, 2, 2, 2, 5] 2 (by decide)).1⟩

/-- C10: on a range sorted under a strict weak ordering, `upper_bound` returns a position `p`
of `[first, last]` with `p == last` or `cmp(value, *p)`, every position before `p` satisfies
`!cmp(value, *q)`, and `p` is the smallest position with that property. -/
theorem upper_bound_correct [Inhabited α] (cmp : α → α → Bool) (hswo : StrictWeakOrder cmp)
    (a : List α) (value : α) (hs : is_sorted cmp a = true) :
    upper_bound cmp a value ≤ a.length ∧
    (upper_bound cmp a value = a.length ∨
      cmp value (deref a (upper_bound cmp a value)) = true) ∧
    (∀ q, q < upper_bound cmp a value → cmp value (deref a q) = false) ∧
    (∀ p, p ≤ a.length → (p = a.length ∨ cmp value (deref a p) = true) →
      upper_bound cmp a value ≤ p) := by
  obtain ⟨h1, h2, h3⟩ := upper_bound_facts hswo a value hs
  refine ⟨h1, ?_, h2, ?_⟩
  · by_cases heq : upper_bound cmp a value = a.length
    · exact Or.inl heq
    · exact Or.inr (h3 _ (Nat.le_refl _) (by omega))
  · intro p hp hor
    by_contra hlt
    have hlt2 : p < upper_bound cmp a value := by omega
    rcases hor with h | h
    · omega
    · rw [h2 p hlt2] at h
      exact Bool.noConfusion h

theorem upper_bound_correct_witness :
    is_sorted less ([1, 2, 2, 2, 5] : List Int) = true ∧ upper_bound less [1, 2, 2, 2, 5] (2 : Int) ≤ 5 :=
  ⟨by decide, (upper_bound_correct less less_int_swo [1, 2, 2, 2, 5] 2 (by decide)).1⟩

/-- The window `[lower_bound, upper_bound)` of a sorted range holds exactly the positions whose
element is equivalent to the probe. -/
theorem window_iff_equiv [Inhabited α] {cmp : α → α → Bool} (hswo : StrictWeakOrder cmp)
    (a : List α) (value : α) (hs : is_sorted cmp a = true) (q : Nat) (hq : q < a.length) :
    (lower_bound cmp a value ≤ q ∧ q < upper_bound cmp a value) ↔
      (cmp (deref a q) value = false ∧ cmp value (deref a q) = false) := by
  obtain ⟨_, l2, l3⟩ := lower_bound_facts hswo a value hs
  obtain ⟨_, u2, u3⟩ := upper_bound_facts hswo a value hs
  constructor
  · rintro ⟨h1, h2⟩
    exact ⟨l3 q h1 hq, u2 q h2⟩
  · rintro ⟨h1, h2⟩
    constructor
    · by_contra hlt
      rw [l2 q (by omega)] at h1
      exact Bool.noConfusion h1
    · by_contra hge
      rw [u3 q (by omega) hq] at h2
      exact Bool.noConfusion h2

theorem lower_le_upper [Inhabited α] {cmp : α → α → Bool} (hswo : StrictWeakOrder cmp)
    (a : List α) (value : α) (hs : is_sorted cmp a = true) :
    lower_bound cmp a value ≤ upper_bound cmp a value := by
  obtain ⟨l1, l2, _⟩ := lower_bound_facts hswo a value hs
  obtain ⟨_, _, u3⟩ := upper_bound_facts hswo a value hs
  by_contra hlt
  have h1 := l2 (upper_bound cmp a value) (by omega)
  have h2 := u3 (upper_bound cmp a value) (Nat.le_refl _) (by omega)
  rw [hswo.asymm h1] at h2
  exact Bool.noConfusion h2

/-- C11: on a range sorted under a strict weak ordering, `equal_range` is the pair
`(lower_bound, upper_bound)`, its first component is at most its second, a position of the
range lies in the window exactly when its element is equivalent to the probe, and for
`[1,2,2,2,5]` and probe `2` the window is `[1,4)`. -/
theorem equal_range_correct [Inhabited α] (cmp : α → α → Bool) (hswo : StrictWeakOrder cmp)
    (a : List α) (value : α) (hs : is_sorted cmp a = true) :
    equal_range cmp a value = (lower_bound cmp a value, upper_bound cmp a value) ∧
    (equal_range cmp a value).1 ≤ (equal_range cmp a value).2 ∧
    (equal_range cmp a value).2 ≤ a.length ∧
    (∀ q, q < a.length →
      (((equal_range cmp a value).1 ≤ q ∧ q < (equal_range cmp a value).2) ↔
        (cmp (deref a q) value = false ∧ cmp value (deref a q) = false))) ∧
    equal_range less ([1, 2, 2, 2, 5] : List Int) 2 = (1, 4) := by
  refine ⟨rfl, lower_le_upper hswo a value hs, (upper_bound_facts hswo a value hs).1, ?_, ?_⟩
  · intro q hq
    exact window_iff_equiv hswo a value hs q hq
  · decide

theorem equal_range_correct_witness :
    is_sorted less ([1, 2, 2, 2, 5] : List Int) = true ∧
      (equal_range less ([1, 2, 2, 2, 5] : List Int) 2).1 ≤
        (equal_range less ([1, 2, 2, 2, 5] : List Int) 2).2 :=
  ⟨by decide, (equal_range_correct less less_int_swo [1, 2, 2, 2, 5] 2 (by decide)).2.1⟩

/-- On a range sorted under a strict weak ordering, the value of the return expression of
`binary_search` is true exactly when the range contains an element equivalent to the probe,
and exactly when `lower_bound` differs from `upper_bound`. -/
theorem binary_search_expr_correct [Inhabited α] (cmp : α → α → Bool) (hswo : StrictWeakOrder cmp)
    (a : List α) (value : α) (hs : is_sorted cmp a = true) :
    (binary_search_expr cmp a value = true ↔
      ∃ q, q < a.length ∧ cmp (deref a q) value = false ∧ cmp value (deref a q) = false) ∧
    (binary_search_expr cmp a value = true ↔ lower_bound cmp a value ≠ upper_bound cmp a value) := by
  obtain ⟨l1, l2, l3⟩ := lower_bound_facts hswo a value hs
  obtain ⟨u1, u2, u3⟩ := upper_bound_facts hswo a value hs
  have hle := lower_le_upper hswo a value hs
  have hpairs := adjacent_to_pairs hswo a ((is_sorted_iff_adjacent cmp a).1 hs)
  have hbs : binary_search_expr cmp a value = true ↔
      (lower_bound cmp a value ≠ a.length ∧
        cmp value (deref a (lower_bound cmp a value)) = false) := by
    unfold binary_search_expr
    simp
  have hA : binary_search_expr cmp a value = true ↔
      ∃ q, q < a.length ∧ cmp (deref a q) value = false ∧ cmp value (deref a q) = false := by
    rw [hbs]
    constructor
    · rintro ⟨h1, h2⟩
      exact ⟨lower_bound cmp a value, by omega, l3 _ (Nat.le_refl _) (by omega), h2⟩
    · rintro ⟨q, hq, h1, h2⟩
      have hlq : lower_bound cmp a value ≤ q := by
        by_contra hlt
        rw [l2 q (by omega)] at h1
        exact Bool.noConfusion h1
      exact ⟨by omega, hswo.neg_trans h2 (hpairs _ q hlq hq)⟩
  refine ⟨hA, ?_⟩
  rw [hA]
  constructor
  · rintro ⟨q, hq, h1, h2⟩
    have := (window_iff_equiv hswo a value hs q hq).2 ⟨h1, h2⟩
    omega
  · intro hne
    have hlt : lower_bound cmp a value < upper_bound cmp a value := by omega
    have hq : lower_bound cmp a value < a.length := by omega
    exact ⟨lower_bound cmp a value, hq,
      (window_iff_equiv hswo a value hs _ hq).1 ⟨Nat.le_refl _, hlt⟩⟩

theorem binary_search_expr_correct_witness :
    is_sorted less ([1, 2, 2, 2, 5] : List Int) = true ∧
      (binary_search_expr less ([1, 2, 2, 2, 5] : List Int) 2 = true ↔
        lower_bound less ([1, 2, 2, 2, 5] : List Int) 2 ≠ upper_bound less [1, 2, 2, 2, 5] 2) :=
  ⟨by decide, (binary_search_expr_correct less less_int_swo [1, 2, 2, 2, 5] 2 (by decide)).2⟩

end TinySTL

namespace TinySTL

variable {α : Type}

/-! ## Heap primitives: lengths, permutations and untouched positions

None of these facts depends on any property of the comparison. -/

theorem set_deref_self [Inhabited α] (a : List α) (i : Nat) : a.set i (deref a i) = a := by
  apply ext_deref _ _ (by simp)
  intro k _
  rw [deref_set]
  by_cases h : i = k
  · subst h; simp
  · simp [h]

theorem _Push_heap_loop_length [Inhabited α] (cmp : α → α → Bool) (top : Nat) (val : α) :
    ∀ fuel (a : List α) hole, (_Push_heap_loop cmp top val fuel a hole).length = a.length := by
  intro fuel
  induction fuel with
  | zero => intro a hole; simp [_Push_heap_loop]
  | succ f ih =>
    intro a hole
    rw [_Push_heap_loop]
    split
    · rw [ih]; simp
    · simp

/-- More fuel than the hole index does not change the result of the `_Push_heap` loop. -/
theorem _Push_heap_loop_fuel_succ [Inhabited α] (cmp : α → α → Bool) (top : Nat) (val : α) :
    ∀ fuel (a : List α) hole, hole ≤ fuel →
      _Push_heap_loop cmp top val (fuel + 1) a hole = _Push_heap_loop cmp top val fuel a hole := by
  intro fuel
  induction fuel with
  | zero =>
    intro a hole h
    have : hole = 0 := by omega
    subst this
    simp [_Push_heap_loop]
  | succ f ih =>
    intro a hole h
    rw [_Push_heap_loop]
    conv => rhs; rw [_Push_heap_loop]
    rw [ih _ _ (by omega)]

/-- The `_Push_heap` loop stores `val` in the hole after exchanging it upwards: the result is
a permutation of the storage with `val` written into the initial hole. -/
theorem _Push_heap_loop_perm [Inhabited α] (cmp : α → α → Bool) (top : Nat) (val : α) :
    ∀ fuel (a : List α) hole, hole < a.length →
      (_Push_heap_loop cmp top val fuel a hole).Perm (a.set hole val) := by
  intro fuel
  induction fuel with
  | zero => intro a hole _; simp [_Push_heap_loop]
  | succ f ih =>
    intro a hole hh
    rw [_Push_heap_loop]
    split
    · rename_i hc
      have htop : top < hole := by
        simp only [Bool.and_eq_true, decide_eq_true_eq] at hc
        exact hc.1
      have hi : (hole - 1) / 2 < a.length := by omega
      refine (ih (a.set hole (deref a ((hole - 1) / 2))) ((hole - 1) / 2) (by simpa using hi)).trans ?_
      exact hole_move_perm a hole ((hole - 1) / 2) val hh hi (by omega)
    · exact List.Perm.refl _

/-- The `_Push_heap` loop writes no position above the hole. -/
theorem _Push_heap_loop_frame [Inhabited α] (cmp : α → α → Bool) (top : Nat) (val : α) :
    ∀ fuel (a : List α) hole k, hole < k →
      deref (_Push_heap_loop cmp top val fuel a hole) k = deref a k := by
  intro fuel
  induction fuel with
  | zero => intro a hole k hk; simp [_Push_heap_loop, deref_set_ne _ _ _ _ (Nat.ne_of_lt hk)]
  | succ f ih =>
    intro a hole k hk
    rw [_Push_heap_loop]
    split
    · rw [ih _ _ k (by omega), deref_set_ne _ _ _ _ (Nat.ne_of_lt hk)]
    · rw [deref_set_ne _ _ _ _ (Nat.ne_of_lt hk)]

theorem _Push_heap_length [Inhabited α] (cmp : α → α → Bool) (a : List α) (hole top : Nat)
    (val : α) : (_Push_heap cmp a hole top val).length = a.length :=
  _Push_heap_loop_length cmp top val hole a hole

theorem _Push_heap_perm [Inhabited α] (cmp : α → α → Bool) (a : List α) (hole top : Nat)
    (val : α) (h : hole < a.length) : (_Push_heap cmp a hole top val).Perm (a.set hole val) :=
  _Push_heap_loop_perm cmp top val hole a hole h

theorem _Push_heap_frame [Inhabited α] (cmp : α → α → Bool) (a : List α) (hole top : Nat)
    (val : α) (k : Nat) (h : hole < k) : deref (_Push_heap cmp a hole top val) k = deref a k :=
  _Push_heap_loop_frame cmp top val hole a hole k h

/-- Facts about the descent loop of `_Adjust_heap` that hold for every element type: length,
hole bookkeeping, permutation up to the content of the hole, and untouched positions. -/
theorem _Adjust_heap_loop_basic [Inhabited α] [LT α] [DecidableRel (fun x y : α => x < y)]
    (len : Nat) :
    ∀ fuel (a : List α) hole, len ≤ a.length → hole < a.length →
      (_Adjust_heap_loop len fuel a hole (hole * 2 + 2)).1.length = a.length ∧
      (_Adjust_heap_loop len fuel a hole (hole * 2 + 2)).2.2 =
        (_Adjust_heap_loop len fuel a hole (hole * 2 + 2)).2.1 * 2 + 2 ∧
      hole ≤ (_Adjust_heap_loop len fuel a hole (hole * 2 + 2)).2.1 ∧
      ((_Adjust_heap_loop len fuel a hole (hole * 2 + 2)).2.1 = hole ∨
        (_Adjust_heap_loop len fuel a hole (hole * 2 + 2)).2.1 < len) ∧
      (∀ v, ((_Adjust_heap_loop len fuel a hole (hole * 2 + 2)).1.set
        (_Adjust_heap_loop len fuel a hole (hole * 2 + 2)).2.1 v).Perm (a.set hole v)) ∧
      (∀ k, len ≤ k → hole < len →
        deref (_Adjust_heap_loop len fuel a hole (hole * 2 + 2)).1 k = deref a k) := by
  intro fuel
  induction fuel with
  | zero =>
    intro a hole _ _
    simp [_Adjust_heap_loop]
  | succ f ih =>
    intro a hole hlen hh
    rw [_Adjust_heap_loop]
    by_cases hrc : hole * 2 + 2 < len
    · simp only [hrc, if_true]
      generalize hc : (if deref a (hole * 2 + 2) < deref a (hole * 2 + 2 - 1)
        then hole * 2 + 2 - 1 else hole * 2 + 2) = c
      have hcb : c = hole * 2 + 1 ∨ c = hole * 2 + 2 := by
        rw [← hc]; split <;> omega
      have hcl : c < len := by omega
      have hla : (a.set hole (deref a c)).length = a.length := by simp
      obtain ⟨i1, i2, i3, i4, i5, i6⟩ :=
        ih (a.set hole (deref a c)) c (by rw [hla]; exact hlen) (by rw [hla]; omega)
      refine ⟨by rw [i1, hla], i2, by omega, Or.inr (by omega), ?_, ?_⟩
      · intro v
        exact (i5 v).trans (hole_move_perm a hole c v hh (by omega) (by omega))
      · intro k hk hlt
        rw [i6 k hk hcl, deref_set_ne _ _ _ _ (by omega)]
    · simp [hrc]

theorem _Adjust_heap_length [Inhabited α] [LT α] [DecidableRel (fun x y : α => x < y)]
    (cmp : α → α → Bool) (a : List α) (hole len : Nat) (val : α) (hlen : len ≤ a.length)
    (hh : hole < a.length) : (_Adjust_heap cmp a hole len val).length = a.length := by
  obtain ⟨i1, -⟩ := _Adjust_heap_loop_basic len len a hole hlen hh
  unfold _Adjust_heap
  dsimp only
  split
  · rw [_Push_heap_length, List.length_set, i1]
  · rw [_Push_heap_length, i1]

/-- The function `_Adjust_heap` returns a permutation of the storage with `val` written into
the initial hole, for every comparison. -/
theorem _Adjust_heap_perm [Inhabited α] [LT α] [DecidableRel (fun x y : α => x < y)]
    (cmp : α → α → Bool) (a : List α) (hole len : Nat) (val : α) (hlen : len ≤ a.length)
    (hh : hole < a.length) : (_Adjust_heap cmp a hole len val).Perm (a.set hole val) := by
  obtain ⟨i1, i2, i3, i4, i5, -⟩ := _Adjust_heap_loop_basic len len a hole hlen hh
  unfold _Adjust_heap
  dsimp only
  generalize _Adjust_heap_loop len len a hole (hole * 2 + 2) = r at i1 i2 i3 i4 i5
  obtain ⟨a1, h1, rc1⟩ := r
  simp only at i1 i2 i3 i4 i5 ⊢
  have hh1 : h1 < a1.length := by
    rcases i4 with h | h
    · rw [h, i1]; exact hh
    · rw [i1]; omega
  split
  · rename_i heq
    have hl1 : rc1 - 1 < a1.length := by rw [i1]; omega
    refine (_Push_heap_perm cmp _ (rc1 - 1) hole val (by simpa using hl1)).trans ?_
    exact (hole_move_perm a1 h1 (rc1 - 1) val hh1 hl1 (by omega)).trans (i5 val)
  · exact (_Push_heap_perm cmp a1 h1 hole val hh1).trans (i5 val)

/-- The function `_Adjust_heap` writes no position at or beyond `len`. -/
theorem _Adjust_heap_frame [Inhabited α] [LT α] [DecidableRel (fun x y : α => x < y)]
    (cmp : α → α → Bool) (a : List α) (hole len : Nat) (val : α) (hlen : len ≤ a.length)
    (hh : hole < len) (k : Nat) (hk : len ≤ k) :
    deref (_Adjust_heap cmp a hole len val) k = deref a k := by
  obtain ⟨i1, i2, i3, i4, -, i6⟩ := _Adjust_heap_loop_basic len len a hole hlen (by omega)
  unfold _Adjust_heap
  dsimp only
  generalize _Adjust_heap_loop len len a hole (hole * 2 + 2) = r at i1 i2 i3 i4 i6
  obtain ⟨a1, h1, rc1⟩ := r
  simp only at i1 i2 i3 i4 i6 ⊢
  have hh1 : h1 < len := by
    rcases i4 with h | h
    · rw [h]; exact hh
    · exact h
  split
  · rw [_Push_heap_frame _ _ _ _ _ _ (by omega), deref_set_ne _ _ _ _ (by omega), i6 k hk hh]
  · rw [_Push_heap_frame _ _ _ _ _ _ (by omega), i6 k hk hh]

/-! ### The range-level heap operations -/

theorem push_heap_length [Inhabited α] (cmp : α → α → Bool) (a : List α) :
    (push_heap cmp a).length = a.length := by
  unfold push_heap
  dsimp only
  split
  · exact _Push_heap_length ..
  · rfl

theorem push_heap_perm [Inhabited α] (cmp : α → α → Bool) (a : List α) :
    (push_heap cmp a).Perm a := by
  unfold push_heap
  dsimp only
  split
  · rename_i h
    have := _Push_heap_perm cmp a (a.length - 1) 0 (deref a (a.length - 1)) (by omega)
    rwa [set_deref_self] at this
  · exact List.Perm.refl _

theorem pop_heap_length [Inhabited α] [LT α] [DecidableRel (fun x y : α => x < y)]
    (cmp : α → α → Bool) (a : List α) (h : a ≠ []) : (pop_heap cmp a).length = a.length := by
  have hpos : 0 < a.length := List.length_pos.2 h
  unfold pop_heap _Pop_heap
  dsimp only
  rw [_Adjust_heap_length _ _ _ _ _ (by simp) (by simpa using hpos)]
  simp

theorem pop_heap_perm [Inhabited α] [LT α] [DecidableRel (fun x y : α => x < y)]
    (cmp : α → α → Bool) (a : List α) (h : a ≠ []) : (pop_heap cmp a).Perm a := by
  have hpos : 0 < a.length := List.length_pos.2 h
  unfold pop_heap _Pop_heap
  dsimp only
  refine (_Adjust_heap_perm cmp _ 0 (a.length - 1) _ (by simp) (by simpa using hpos)).trans ?_
  exact swap_perm a (a.length - 1) 0 (by omega) hpos

/-- After `pop_heap` the last position holds the former front. -/
theorem pop_heap_last [Inhabited α] [LT α] [DecidableRel (fun x y : α => x < y)]
    (cmp : α → α → Bool) (a : List α) (h : a ≠ []) :
    deref (pop_heap cmp a) (a.length - 1) = deref a 0 := by
  have hpos : 0 < a.length := List.length_pos.2 h
  unfold pop_heap _Pop_heap
  dsimp only
  by_cases h1 : a.length = 1
  · match a, h1 with
    | [x], _ =>
      simp [_Adjust_heap, _Adjust_heap_loop, _Push_heap, _Push_heap_loop, deref]
  · rw [_Adjust_heap_frame cmp _ 0 (a.length - 1) _ (by simp) (by omega) _ (Nat.le_refl _)]
    rw [deref_set_self _ _ _ (by omega)]

theorem make_heap_loop_length [Inhabited α] [LT α] [DecidableRel (fun x y : α => x < y)]
    (cmp : α → α → Bool) (len : Nat) :
    ∀ parent (a : List α), len ≤ a.length → parent < a.length →
      (make_heap_loop cmp len parent a).length = a.length := by
  intro parent
  induction parent with
  | zero =>
    intro a hlen hp
    rw [make_heap_loop]
    exact _Adjust_heap_length cmp a 0 len _ hlen hp
  | succ p ih =>
    intro a hlen hp
    rw [make_heap_loop]
    have hl := _Adjust_heap_length cmp a (p + 1) len (deref a (p + 1)) hlen hp
    rw [ih _ (by rw [hl]; exact hlen) (by rw [hl]; omega), hl]

theorem make_heap_loop_perm [Inhabited α] [LT α] [DecidableRel (fun x y : α => x < y)]
    (cmp : α → α → Bool) (len : Nat) :
    ∀ parent (a : List α), len ≤ a.length → parent < a.length →
      (make_heap_loop cmp len parent a).Perm a := by
  intro parent
  induction parent with
  | zero =>
    intro a hlen hp
    rw [make_heap_loop]
    have := _Adjust_heap_perm cmp a 0 len (deref a 0) hlen hp
    rwa [set_deref_self] at this
  | succ p ih =>
    intro a hlen hp
    rw [make_heap_loop]
    have hl := _Adjust_heap_length cmp a (p + 1) len (deref a (p + 1)) hlen hp
    have hperm := _Adjust_heap_perm cmp a (p + 1) len (deref a (p + 1)) hlen hp
    rw [set_deref_self] at hperm
    exact (ih _ (by rw [hl]; exact hlen) (by rw [hl]; omega)).trans hperm

theorem make_heap_length [Inhabited α] [LT α] [DecidableRel (fun x y : α => x < y)]
    (cmp : α → α → Bool) (a : List α) : (make_heap cmp a).length = a.length := by
  unfold make_heap
  split
  · rfl
  · exact make_heap_loop_length cmp a.length _ a (Nat.le_refl _) (by omega)

theorem make_heap_perm [Inhabited α] [LT α] [DecidableRel (fun x y : α => x < y)]
    (cmp : α → α → Bool) (a : List α) : (make_heap cmp a).Perm a := by
  unfold make_heap
  split
  · exact List.Perm.refl _
  · exact make_heap_loop_perm cmp a.length _ a (Nat.le_refl _) (by omega)

theorem sort_heap_loop_length [Inhabited α] [LT α] [DecidableRel (fun x y : α => x < y)] :
    ∀ n (a : List α), n ≤ a.length → (sort_heap_loop n a).length = a.length := by
  intro n
  induction n with
  | zero => intro a _; simp [sort_heap_loop]
  | succ m ih =>
    intro a hn
    cases m with
    | zero => simp [sort_heap_loop]
    | succ k =>
      rw [sort_heap_loop]
      have hne : a.take (k + 2) ≠ [] := by
        intro h
        have hlen : (a.take (k + 2)).length = k + 2 := by
          rw [List.length_take]; omega
        rw [h] at hlen
        exact absurd hlen (by simp)
      have hl : (pop_heap less (a.take (k + 2)) ++ a.drop (k + 2)).length = a.length := by
        rw [List.length_append, pop_heap_length less _ hne]
        simp; omega
      rw [ih _ (by rw [hl]; omega), hl]

theorem sort_heap_loop_perm [Inhabited α] [LT α] [DecidableRel (fun x y : α => x < y)] :
    ∀ n (a : List α), n ≤ a.length → (sort_heap_loop n a).Perm a := by
  intro n
  induction n with
  | zero => intro a _; simp [sort_heap_loop]
  | succ m ih =>
    intro a hn
    cases m with
    | zero => simp [sort_heap_loop]
    | succ k =>
      rw [sort_heap_loop]
      have hne : a.take (k + 2) ≠ [] := by
        intro h
        have hlen : (a.take (k + 2)).length = k + 2 := by
          rw [List.length_take]; omega
        rw [h] at hlen
        exact absurd hlen (by simp)
      have hl : (pop_heap less (a.take (k + 2)) ++ a.drop (k + 2)).length = a.length := by
        rw [List.length_append, pop_heap_length less _ hne]
        simp; omega
      refine (ih _ (by rw [hl]; omega)).trans ?_
      have := (pop_heap_perm less (a.take (k + 2)) hne).append_right (a.drop (k + 2))
      rwa [List.take_append_drop] at this

theorem sort_heap_perm [Inhabited α] [LT α] [DecidableRel (fun x y : α => x < y)]
    (cmp : α → α → Bool) (a : List α) : (sort_heap cmp a).Perm a :=
  sort_heap_loop_perm a.length a (Nat.le_refl _)

theorem sort_heap_length [Inhabited α] [LT α] [DecidableRel (fun x y : α => x < y)]
    (cmp : α → α → Bool) (a : List α) : (sort_heap cmp a).length = a.length :=
  sort_heap_loop_length a.length a (Nat.le_refl _)

end TinySTL

namespace TinySTL

variable {α : Type}

/-! ## The implicit binary tree -/

theorem Below.le {t h : Nat} (hb : Below t h) : t ≤ h := by
  induction hb with
  | root => exact Nat.le_refl _
  | left _ ih => omega
  | right _ ih => omega

theorem below_zero (h : Nat) : Below 0 h := by
  induction h using Nat.strong_induction_on with
  | _ h ih =>
    by_cases h0 : h = 0
    · subst h0; exact Below.root
    · by_cases hodd : h % 2 = 1
      · have : h = 2 * ((h - 1) / 2) + 1 := by omega
        rw [this]
        exact Below.left (ih _ (by omega))
      · have : h = 2 * ((h - 1) / 2) + 2 := by omega
        rw [this]
        exact Below.right (ih _ (by omega))

/-- A node of the subtree of `t` other than `t` has its parent in the subtree. -/
theorem Below.parent {t h : Nat} (hb : Below t h) (hne : h ≠ t) :
    Below t ((h - 1) / 2) ∧ 1 ≤ h := by
  cases hb with
  | root => exact absurd rfl hne
  | left hb2 =>
    rename_i h2
    have : (2 * h2 + 1 - 1) / 2 = h2 := by omega
    rw [this]
    exact ⟨hb2, by omega⟩
  | right hb2 =>
    rename_i h2
    have : (2 * h2 + 2 - 1) / 2 = h2 := by omega
    rw [this]
    exact ⟨hb2, by omega⟩

/-! ## Sift-up -/

/-- The `_Push_heap` loop restores the heap invariant below `top`, when the storage with `val`
in the hole satisfies it at every child other than the hole and the children of the hole are
not after the parent of the hole. -/
theorem _Push_heap_loop_heap [Inhabited α] {cmp : α → α → Bool} (hswo : StrictWeakOrder cmp)
    (top n : Nat) (val : α) :
    ∀ fuel (a : List α) hole, hole ≤ fuel → n ≤ a.length → hole < n → Below top hole →
      (∀ k, 1 ≤ k → k < n → k ≠ hole → top ≤ (k - 1) / 2 →
        cmp (deref (a.set hole val) ((k - 1) / 2)) (deref (a.set hole val) k) = false) →
      (top < hole → ∀ c, 1 ≤ c → c < n → (c - 1) / 2 = hole →
        cmp (deref (a.set hole val) ((hole - 1) / 2)) (deref (a.set hole val) c) = false) →
      HeapFrom cmp (_Push_heap_loop cmp top val fuel a hole) top n := by
  intro fuel
  induction fuel with
  | zero =>
    intro a hole hf hn hh hb inv1 inv2
    have h0 : hole = 0 := by omega
    subst h0
    rw [_Push_heap_loop]
    intro k hk1 hk2 hk3
    exact inv1 k hk1 hk2 (by omega) hk3
  | succ f ih =>
    intro a hole hf hn hh hb inv1 inv2
    have hB : ∀ k, deref (a.set hole val) k = if k = hole then val else deref a k := by
      intro k
      rw [deref_set]
      split_ifs <;> first | rfl | (exfalso; omega)
    rw [_Push_heap_loop]
    by_cases hc : (decide (top < hole) && cmp (deref a ((hole - 1) / 2)) val) = true
    · rw [if_pos hc]
      simp only [Bool.and_eq_true, decide_eq_true_eq] at hc
      obtain ⟨htop, hcv⟩ := hc
      have hne : hole ≠ top := by omega
      obtain ⟨hbp, hh1⟩ := hb.parent hne
      have hil : (hole - 1) / 2 < hole := by omega
      have hB2 : ∀ k, deref ((a.set hole (deref a ((hole - 1) / 2))).set ((hole - 1) / 2) val) k =
          if k = (hole - 1) / 2 then val else if k = hole then deref a ((hole - 1) / 2)
            else deref a k := by
        intro k
        rw [deref_set, deref_set, List.length_set]
        split_ifs <;> first | rfl | (exfalso; omega)
      apply ih _ _ (by omega) (by simpa using hn) (by omega) hbp
      · intro k hk1 hk2 hk3 hk4
        rw [hB2, hB2]
        by_cases hkh : k = hole
        · subst hkh
          simp only [if_true, if_neg (Nat.ne_of_gt hil)]
          exact hswo.asymm hcv
        · by_cases hph : (k - 1) / 2 = hole
          · have hpi : (k - 1) / 2 ≠ (hole - 1) / 2 := by omega
            rw [if_neg hpi, if_pos hph, if_neg hk3, if_neg hkh]
            have := inv2 htop k hk1 hk2 hph
            rw [hB, hB, if_neg (Nat.ne_of_lt hil), if_neg hkh] at this
            exact this
          · have i1 := inv1 k hk1 hk2 hkh hk4
            rw [hB, hB, if_neg hph, if_neg hkh] at i1
            rw [if_neg hk3, if_neg hkh]
            by_cases hpi : (k - 1) / 2 = (hole - 1) / 2
            · rw [if_pos hpi]
              rw [hpi] at i1
              by_contra hcon
              have hcon2 : cmp val (deref a k) = true := by simpa using hcon
              have := hswo.trans _ _ _ hcv hcon2
              rw [i1] at this
              exact Bool.noConfusion this
            · rw [if_neg hpi, if_neg hph]
              exact i1
      · intro htop2 c hc1 hc2 hc3
        have hi1 : 1 ≤ (hole - 1) / 2 := by omega
        have hgl : ((hole - 1) / 2 - 1) / 2 < (hole - 1) / 2 := by omega
        obtain ⟨hbg, -⟩ := hbp.parent (by omega)
        have hge := hbg.le
        have ig := inv1 ((hole - 1) / 2) hi1 (by omega) (by omega) hge
        rw [hB, hB, if_neg (by omega), if_neg (by omega)] at ig
        rw [hB2, hB2, if_neg (by omega), if_neg (by omega), if_neg (by omega)]
        by_cases hch : c = hole
        · rw [if_pos hch]
          exact ig
        · rw [if_neg hch]
          have ic := inv1 c hc1 hc2 hch (by omega)
          rw [hB, hB, hc3, if_neg (by omega), if_neg hch] at ic
          exact hswo.neg_trans ig ic
    · rw [if_neg hc]
      intro k hk1 hk2 hk3
      by_cases hkh : k = hole
      · subst hkh
        have hil : (k - 1) / 2 < k := by omega
        rw [hB, hB, if_neg (Nat.ne_of_lt hil), if_pos rfl]
        have hne : k ≠ top := by omega
        have htop : top < k := by
          have := hb.le
          omega
        simp only [Bool.and_eq_true, decide_eq_true_eq, not_and, Bool.not_eq_true] at hc
        exact hc htop
      · exact inv1 k hk1 hk2 hkh hk3

/-- The source predicate `is_heap` decides the heap invariant. -/
theorem is_heap_until_loop_spec [Inhabited α] (cmp : α → α → Bool) (a : List α) :
    ∀ fuel offset, a.length ≤ offset + fuel → 1 ≤ offset →
      (is_heap_until_loop cmp a fuel offset = a.length ∧
        ∀ k, offset ≤ k → k < a.length → cmp (deref a ((k - 1) / 2)) (deref a k) = false) ∨
      (offset ≤ is_heap_until_loop cmp a fuel offset ∧
        is_heap_until_loop cmp a fuel offset < a.length ∧
        cmp (deref a ((is_heap_until_loop cmp a fuel offset - 1) / 2))
          (deref a (is_heap_until_loop cmp a fuel offset)) = true ∧
        ∀ k, offset ≤ k → k < is_heap_until_loop cmp a fuel offset →
          cmp (deref a ((k - 1) / 2)) (deref a k) = false) := by
  intro fuel
  induction fuel with
  | zero =>
    intro offset h1 h2
    left
    rw [is_heap_until_loop]
    exact ⟨rfl, fun k hk1 hk2 => by omega⟩
  | succ f ih =>
    intro offset h1 h2
    rw [is_heap_until_loop]
    by_cases hlt : offset < a.length
    · rw [if_pos hlt]
      by_cases hc : cmp (deref a ((offset - 1) / 2)) (deref a offset) = true
      · rw [if_pos hc]
        right
        exact ⟨Nat.le_refl _, hlt, hc, fun k hk1 hk2 => by omega⟩
      · rw [if_neg hc]
        have hc2 : cmp (deref a ((offset - 1) / 2)) (deref a offset) = false := by simpa using hc
        rcases ih (offset + 1) (by omega) (by omega) with ⟨e1, e2⟩ | ⟨e1, e2, e3, e4⟩
        · left
          refine ⟨e1, fun k hk1 hk2 => ?_⟩
          by_cases hk : k = offset
          · subst hk; exact hc2
          · exact e2 k (by omega) hk2
        · right
          refine ⟨by omega, e2, e3, fun k hk1 hk2 => ?_⟩
          by_cases hk : k = offset
          · subst hk; exact hc2
          · exact e4 k (by omega) hk2
    · rw [if_neg hlt]
      left
      exact ⟨rfl, fun k hk1 hk2 => by omega⟩

theorem is_heap_until_spec [Inhabited α] (cmp : α → α → Bool) (a : List α) :
    (is_heap_until cmp a = a.length ∧
      ∀ k, 1 ≤ k → k < a.length → cmp (deref a ((k - 1) / 2)) (deref a k) = false) ∨
    (1 ≤ is_heap_until cmp a ∧ is_heap_until cmp a < a.length ∧
      cmp (deref a ((is_heap_until cmp a - 1) / 2)) (deref a (is_heap_until cmp a)) = true ∧
      ∀ k, 1 ≤ k → k < is_heap_until cmp a →
        cmp (deref a ((k - 1) / 2)) (deref a k) = false) := by
  unfold is_heap_until
  by_cases h2 : a.length ≥ 2
  · rw [if_pos h2]
    exact is_heap_until_loop_spec cmp a a.length 1 (by omega) (Nat.le_refl _)
  · rw [if_neg h2]
    left
    exact ⟨rfl, fun k hk1 hk2 => by omega⟩

theorem is_heap_iff [Inhabited α] (cmp : α → α → Bool) (a : List α) :
    is_heap cmp a = true ↔ IsHeap cmp a := by
  unfold is_heap IsHeap HeapFrom
  rw [beq_iff_eq]
  rcases is_heap_until_spec cmp a with ⟨e1, e2⟩ | ⟨e1, e2, e3, e4⟩
  · constructor
    · intro _ k hk1 hk2 _
      exact e2 k hk1 hk2
    · intro _; exact e1
  · constructor
    · intro h; omega
    · intro h
      have := h _ e1 e2 (Nat.zero_le _)
      rw [e3] at this
      exact Bool.noConfusion this

theorem isHeap_take_iff [Inhabited α] (cmp : α → α → Bool) (a : List α) (n : Nat)
    (hn : n ≤ a.length) : IsHeap cmp (a.take n) ↔ HeapFrom cmp a 0 n := by
  unfold IsHeap HeapFrom
  rw [List.length_take, Nat.min_eq_left hn]
  constructor
  · intro h k hk1 hk2 hk3
    have := h k hk1 hk2 hk3
    rwa [deref_take _ _ _ (by omega), deref_take _ _ _ hk2] at this
  · intro h k hk1 hk2 hk3
    rw [deref_take _ _ _ (by omega), deref_take _ _ _ hk2]
    exact h k hk1 hk2 hk3

/-- C5: for a strict weak ordering and a range of `n + 1` elements whose first `n` elements
form a valid heap, after `push_heap` the whole range is a valid heap (also according to the
source predicate `is_heap`) and a permutation of the range before the call. -/
theorem push_heap_correct [Inhabited α] (cmp : α → α → Bool) (hswo : StrictWeakOrder cmp)
    (a : List α) (n : Nat) (hlen : a.length = n + 1) (hheap : IsHeap cmp (a.take n)) :
    IsHeap cmp (push_heap cmp a) ∧ is_heap cmp (push_heap cmp a) = true ∧
    (push_heap cmp a).length = n + 1 ∧ (push_heap cmp a).Perm a := by
  have hmain : IsHeap cmp (push_heap cmp a) := by
    have hH := (isHeap_take_iff cmp a n (by omega)).1 hheap
    unfold IsHeap
    rw [push_heap_length]
    unfold push_heap
    dsimp only
    by_cases h2 : a.length ≥ 2
    · rw [if_pos h2]
      have hsub : a.length - 1 = n := by omega
      rw [hsub, hlen]
      unfold _Push_heap
      apply _Push_heap_loop_heap hswo 0 (n + 1) _ n a n (Nat.le_refl _) (by omega) (by omega)
        (below_zero n)
      · intro k hk1 hk2 hk3 hk4
        rw [set_deref_self]
        exact hH k hk1 (by omega) hk4
      · intro _ c hc1 hc2 hc3
        omega
    · rw [if_neg h2]
      intro k hk1 hk2 _
      omega
  exact ⟨hmain, (is_heap_iff cmp _).2 hmain, by rw [push_heap_length, hlen], push_heap_perm cmp a⟩

theorem push_heap_correct_witness :
    ([5, 4, 3, 9] : List Int).length = 3 + 1 ∧ IsHeap less (([5, 4, 3, 9] : List Int).take 3) ∧
      is_heap less (push_heap less ([5, 4, 3, 9] : List Int)) = true :=
  ⟨rfl, (is_heap_iff less _).1 (by decide),
    (push_heap_correct less less_int_swo [5, 4, 3, 9] 3 rfl ((is_heap_iff less _).1 (by decide))).2.1⟩

end TinySTL

namespace TinySTL

variable {α : Type}

/-! ## Sift-down

The heap invariant after `_Adjust_heap` needs the built-in `operator<`, which the descent loop
uses to pick the larger child, to agree with `cmp`. -/

/-- One descent step: moving the child `c` that is not before its sibling into the hole keeps
the invariant of the descent. -/
theorem descent_step [Inhabited α] {cmp : α → α → Bool}
    (top len : Nat) (a : List α) (hole c : Nat) (hlen : len ≤ a.length) (hh : hole < len)
    (hb : Below top hole) (hc1 : c < len) (hc2 : c = 2 * hole + 1 ∨ c = 2 * hole + 2)
    (hchoice : ∀ d, 1 ≤ d → d < len → (d - 1) / 2 = hole → d ≠ c →
      cmp (deref a c) (deref a d) = false)
    (inv1 : ∀ k, 1 ≤ k → k < len → k ≠ hole → (k - 1) / 2 ≠ hole → top ≤ (k - 1) / 2 →
      cmp (deref a ((k - 1) / 2)) (deref a k) = false)
    (inv2 : top < hole → ∀ d, 1 ≤ d → d < len → (d - 1) / 2 = hole →
      cmp (deref a ((hole - 1) / 2)) (deref a d) = false) :
    Below top c ∧
    (∀ k, 1 ≤ k → k < len → k ≠ c → (k - 1) / 2 ≠ c → top ≤ (k - 1) / 2 →
      cmp (deref (a.set hole (deref a c)) ((k - 1) / 2)) (deref (a.set hole (deref a c)) k)
        = false) ∧
    (top < c → ∀ d, 1 ≤ d → d < len → (d - 1) / 2 = c →
      cmp (deref (a.set hole (deref a c)) ((c - 1) / 2)) (deref (a.set hole (deref a c)) d)
        = false) := by
  have hA : ∀ k, deref (a.set hole (deref a c)) k =
      if k = hole then deref a c else deref a k := by
    intro k
    rw [deref_set]
    split_ifs <;> first | rfl | (exfalso; omega)
  have hle := hb.le
  refine ⟨?_, ?_, ?_⟩
  · rcases hc2 with h | h
    · rw [h]; exact Below.left hb
    · rw [h]; exact Below.right hb
  · intro k hk1 hk2 hk3 hk4 hk5
    rw [hA, hA]
    by_cases hkh : k = hole
    · subst hkh
      rw [if_neg (by omega), if_pos rfl]
      exact inv2 (by omega) c (by omega) hc1 (by omega)
    · rw [if_neg hkh]
      by_cases hph : (k - 1) / 2 = hole
      · rw [if_pos hph]
        exact hchoice k hk1 hk2 hph hk3
      · rw [if_neg hph]
        exact inv1 k hk1 hk2 hkh hph hk5
  · intro _ d hd1 hd2 hd3
    rw [hA, hA, if_pos (by omega), if_neg (by omega)]
    have key := inv1 d hd1 hd2 (by omega) (by omega) (by omega)
    rw [hd3] at key
    exact key

/-- The descent loop of `_Adjust_heap` keeps the invariant and stops at a hole whose right
child is outside the heap. -/
theorem _Adjust_heap_loop_heap [Inhabited α] [LT α] [DecidableRel (fun x y : α => x < y)]
    {cmp : α → α → Bool} (hswo : StrictWeakOrder cmp)
    (hlt : ∀ x y : α, x < y ↔ cmp x y = true) (top len : Nat) :
    ∀ fuel (a : List α) hole, len ≤ hole * 2 + 2 + fuel → len ≤ a.length → hole < len →
      Below top hole →
      (∀ k, 1 ≤ k → k < len → k ≠ hole → (k - 1) / 2 ≠ hole → top ≤ (k - 1) / 2 →
        cmp (deref a ((k - 1) / 2)) (deref a k) = false) →
      (top < hole → ∀ d, 1 ≤ d → d < len → (d - 1) / 2 = hole →
        cmp (deref a ((hole - 1) / 2)) (deref a d) = false) →
      Below top (_Adjust_heap_loop len fuel a hole (hole * 2 + 2)).2.1 ∧
      len ≤ (_Adjust_heap_loop len fuel a hole (hole * 2 + 2)).2.1 * 2 + 2 ∧
      (_Adjust_heap_loop len fuel a hole (hole * 2 + 2)).2.1 < len ∧
      (∀ k, 1 ≤ k → k < len → k ≠ (_Adjust_heap_loop len fuel a hole (hole * 2 + 2)).2.1 →
        (k - 1) / 2 ≠ (_Adjust_heap_loop len fuel a hole (hole * 2 + 2)).2.1 →
        top ≤ (k - 1) / 2 →
        cmp (deref (_Adjust_heap_loop len fuel a hole (hole * 2 + 2)).1 ((k - 1) / 2))
          (deref (_Adjust_heap_loop len fuel a hole (hole * 2 + 2)).1 k) = false) ∧
      (top < (_Adjust_heap_loop len fuel a hole (hole * 2 + 2)).2.1 → ∀ d, 1 ≤ d → d < len →
        (d - 1) / 2 = (_Adjust_heap_loop len fuel a hole (hole * 2 + 2)).2.1 →
        cmp (deref (_Adjust_heap_loop len fuel a hole (hole * 2 + 2)).1
            (((_Adjust_heap_loop len fuel a hole (hole * 2 + 2)).2.1 - 1) / 2))
          (deref (_Adjust_heap_loop len fuel a hole (hole * 2 + 2)).1 d) = false) := by
  intro fuel
  induction fuel with
  | zero =>
    intro a hole hf hlen hh hb inv1 inv2
    rw [_Adjust_heap_loop]
    dsimp only
    exact ⟨hb, by omega, hh, inv1, inv2⟩
  | succ f ih =>
    intro a hole hf hlen hh hb inv1 inv2
    rw [_Adjust_heap_loop]
    by_cases hrc : hole * 2 + 2 < len
    · rw [if_pos hrc]
      dsimp only
      by_cases hcl : deref a (hole * 2 + 2) < deref a (hole * 2 + 2 - 1)
      · rw [if_pos hcl]
        have hcv : cmp (deref a (hole * 2 + 2)) (deref a (hole * 2 + 2 - 1)) = true :=
          (hlt _ _).1 hcl
        obtain ⟨s1, s2, s3⟩ := descent_step top len a hole (hole * 2 + 2 - 1) hlen hh hb
          (by omega) (by omega)
          (by
            intro d hd1 hd2 hd3 hd4
            have hd : d = hole * 2 + 2 := by omega
            rw [hd]
            exact hswo.asymm hcv)
          inv1 inv2
        exact ih (a.set hole (deref a (hole * 2 + 2 - 1))) (hole * 2 + 2 - 1) (by omega)
          (by simpa using hlen) (by omega) s1 s2 s3
      · rw [if_neg hcl]
        have hcv : cmp (deref a (hole * 2 + 2)) (deref a (hole * 2 + 2 - 1)) = false := by
          by_contra hcon
          exact hcl ((hlt _ _).2 (by simpa using hcon))
        obtain ⟨s1, s2, s3⟩ := descent_step top len a hole (hole * 2 + 2) hlen hh hb
          (by omega) (by omega)
          (by
            intro d hd1 hd2 hd3 hd4
            have hd : d = hole * 2 + 2 - 1 := by omega
            rw [hd]
            exact hcv)
          inv1 inv2
        exact ih (a.set hole (deref a (hole * 2 + 2))) (hole * 2 + 2) (by omega)
          (by simpa using hlen) (by omega) s1 s2 s3
    · rw [if_neg hrc]
      dsimp only
      exact ⟨hb, by omega, hh, inv1, inv2⟩

/-- Sifting `val` up from a hole without children inside the heap finishes `_Adjust_heap`. -/
theorem push_after_descent [Inhabited α] {cmp : α → α → Bool} (hswo : StrictWeakOrder cmp)
    (top len : Nat) (val : α) (a : List α) (hole : Nat) (hlen : len ≤ a.length)
    (hh : hole < len) (hb : Below top hole) (hleaf : len ≤ 2 * hole + 1)
    (inv1 : ∀ k, 1 ≤ k → k < len → k ≠ hole → (k - 1) / 2 ≠ hole → top ≤ (k - 1) / 2 →
      cmp (deref a ((k - 1) / 2)) (deref a k) = false) :
    HeapFrom cmp (_Push_heap cmp a hole top val) top len := by
  unfold _Push_heap
  apply _Push_heap_loop_heap hswo top len val hole a hole (Nat.le_refl _) hlen hh hb
  · intro k hk1 hk2 hk3 hk4
    have hph : (k - 1) / 2 ≠ hole := by omega
    rw [deref_set_ne _ _ _ _ (Ne.symm hph), deref_set_ne _ _ _ _ (Ne.symm hk3)]
    exact inv1 k hk1 hk2 hk3 hph hk4
  · intro _ c hc1 hc2 hc3
    omega

/-- The function `_Adjust_heap` turns a storage whose nodes after `hole` are roots of heaps
into one whose node `hole` is the root of a heap as well. -/
theorem _Adjust_heap_heap [Inhabited α] [LT α] [DecidableRel (fun x y : α => x < y)]
    {cmp : α → α → Bool} (hswo : StrictWeakOrder cmp)
    (hlt : ∀ x y : α, x < y ↔ cmp x y = true) (a : List α) (hole len : Nat) (val : α)
    (hlen : len ≤ a.length) (hh : hole < len) (hheap : HeapFrom cmp a (hole + 1) len) :
    HeapFrom cmp (_Adjust_heap cmp a hole len val) hole len := by
  obtain ⟨b1, b2, b3, b4, -, -⟩ := _Adjust_heap_loop_basic len len a hole hlen (by omega)
  obtain ⟨d1, d2, d3, d4, d5⟩ := _Adjust_heap_loop_heap hswo hlt hole len len a hole (by omega)
    hlen hh Below.root
    (by
      intro k hk1 hk2 hk3 hk4 hk5
      exact hheap k hk1 hk2 (by omega))
    (by intro h; omega)
  unfold _Adjust_heap
  dsimp only
  generalize _Adjust_heap_loop len len a hole (hole * 2 + 2) = r at b1 b2 b3 b4 d1 d2 d3 d4 d5
  obtain ⟨a1, h1, rc1⟩ := r
  simp only at b1 b2 b3 b4 d1 d2 d3 d4 d5 ⊢
  by_cases heq : rc1 = len
  · rw [if_pos heq]
    have hc : rc1 - 1 = 2 * h1 + 1 := by omega
    obtain ⟨s1, s2, s3⟩ := descent_step hole len a1 h1 (rc1 - 1) (by rw [b1]; exact hlen) d3
      d1 (by omega) (Or.inl hc) (by intro d hd1 hd2 hd3 hd4; omega) d4 d5
    exact push_after_descent hswo hole len val _ (rc1 - 1) (by simpa [b1] using hlen) (by omega)
      s1 (by omega) s2
  · rw [if_neg heq]
    exact push_after_descent hswo hole len val a1 h1 (by rw [b1]; exact hlen) d3 d1 (by omega) d4

/-- The front of a heap is not before any element of the heap. -/
theorem heap_root_max [Inhabited α] {cmp : α → α → Bool} (hswo : StrictWeakOrder cmp)
    (a : List α) (n : Nat) (hheap : HeapFrom cmp a 0 n) :
    ∀ k, k < n → cmp (deref a 0) (deref a k) = false := by
  intro k
  induction k using Nat.strong_induction_on with
  | _ k ih =>
    intro hk
    by_cases h0 : k = 0
    · subst h0; exact hswo.irrefl _
    · have h1 := hheap k (by omega) hk (Nat.zero_le _)
      have h2 := ih ((k - 1) / 2) (by omega) (by omega)
      exact hswo.neg_trans h2 h1

theorem make_heap_loop_heap [Inhabited α] [LT α] [DecidableRel (fun x y : α => x < y)]
    {cmp : α → α → Bool} (hswo : StrictWeakOrder cmp)
    (hlt : ∀ x y : α, x < y ↔ cmp x y = true) (len : Nat) :
    ∀ parent (a : List α), len ≤ a.length → parent < len → HeapFrom cmp a (parent + 1) len →
      HeapFrom cmp (make_heap_loop cmp len parent a) 0 len := by
  intro parent
  induction parent with
  | zero =>
    intro a hlen hp hheap
    rw [make_heap_loop]
    exact _Adjust_heap_heap hswo hlt a 0 len _ hlen hp hheap
  | succ p ih =>
    intro a hlen hp hheap
    rw [make_heap_loop]
    have hl := _Adjust_heap_length cmp a (p + 1) len (deref a (p + 1)) hlen (by omega)
    exact ih _ (by rw [hl]; exact hlen) (by omega)
      (_Adjust_heap_heap hswo hlt a (p + 1) len _ hlen hp hheap)

/-- When the built-in `operator<` agrees with the strict weak ordering `cmp`, `make_heap`
produces a valid heap. -/
theorem make_heap_heap [Inhabited α] [LT α] [DecidableRel (fun x y : α => x < y)]
    {cmp : α → α → Bool} (hswo : StrictWeakOrder cmp)
    (hlt : ∀ x y : α, x < y ↔ cmp x y = true) (a : List α) : IsHeap cmp (make_heap cmp a) := by
  unfold IsHeap
  rw [make_heap_length]
  unfold make_heap
  by_cases h2 : a.length < 2
  · rw [if_pos h2]
    intro k hk1 hk2 _
    omega
  · rw [if_neg h2]
    apply make_heap_loop_heap hswo hlt a.length _ a (Nat.le_refl _) (by omega)
    intro k hk1 hk2 hk3
    omega

/-- When the built-in `operator<` agrees with the strict weak ordering `cmp`, `pop_heap` on a
non-empty heap leaves a heap on all but the last position. -/
theorem pop_heap_heap [Inhabited α] [LT α] [DecidableRel (fun x y : α => x < y)]
    {cmp : α → α → Bool} (hswo : StrictWeakOrder cmp)
    (hlt : ∀ x y : α, x < y ↔ cmp x y = true) (a : List α) (hne : a ≠ [])
    (hheap : IsHeap cmp a) : HeapFrom cmp (pop_heap cmp a) 0 (a.length - 1) := by
  have hpos : 0 < a.length := List.length_pos.2 hne
  by_cases h1 : a.length = 1
  · intro k hk1 hk2 _
    omega
  · unfold pop_heap _Pop_heap
    dsimp only
    apply _Adjust_heap_heap hswo hlt _ 0 (a.length - 1) _ (by simp) (by omega)
    intro k hk1 hk2 hk3
    rw [deref_set_ne _ _ _ _ (by omega), deref_set_ne _ _ _ _ (by omega)]
    exact hheap k hk1 (by omega) (Nat.zero_le _)

end TinySTL

namespace TinySTL

variable {α : Type}

/-! ## Heap sort under the built-in order -/

theorem less_iff [LT α] [DecidableRel (fun x y : α => x < y)] (x y : α) :
    x < y ↔ less x y = true := by
  simp [less]

/-- The loop of `sort_heap` on a storage whose first `n` elements are a heap under the built-in
order, whose remaining elements are sorted and not before any of the first `n`. -/
theorem sort_heap_loop_sorted [Inhabited α] [LT α] [DecidableRel (fun x y : α => x < y)]
    (hswo : StrictWeakOrder (less : α → α → Bool)) :
    ∀ n (a : List α), n ≤ a.length → HeapFrom less a 0 n →
      (∀ i j, n ≤ i → i < j → j < a.length → less (deref a j) (deref a i) = false) →
      (∀ i j, i < n → n ≤ j → j < a.length → less (deref a j) (deref a i) = false) →
      ∀ i j, i < j → j < a.length →
        less (deref (sort_heap_loop n a) j) (deref (sort_heap_loop n a) i) = false := by
  intro n
  induction n with
  | zero =>
    intro a _ _ hsuf _ i j hij hj
    rw [show sort_heap_loop 0 a = a by simp [sort_heap_loop]]
    exact hsuf i j (Nat.zero_le _) hij hj
  | succ m ih =>
    intro a hn hheap hsuf hps
    cases m with
    | zero =>
      intro i j hij hj
      rw [show sort_heap_loop (0 + 1) a = a by simp [sort_heap_loop]]
      by_cases hi : i = 0
      · subst hi; exact hps 0 j (by omega) (by omega) hj
      · exact hsuf i j (by omega) hij hj
    | succ k =>
      rw [sort_heap_loop]
      have hlh : (a.take (k + 2)).length = k + 2 := by rw [List.length_take]; omega
      have hne : a.take (k + 2) ≠ [] := by
        intro h
        rw [h] at hlh
        exact absurd hlh (by simp)
      have hH : IsHeap less (a.take (k + 2)) := (isHeap_take_iff less a (k + 2) hn).2 hheap
      have hlr : (pop_heap less (a.take (k + 2))).length = k + 2 := by
        rw [pop_heap_length less _ hne, hlh]
      have hl : (pop_heap less (a.take (k + 2)) ++ a.drop (k + 2)).length = a.length := by
        rw [List.length_append, hlr, List.length_drop]; omega
      have hleft : ∀ i, i < k + 2 →
          deref (pop_heap less (a.take (k + 2)) ++ a.drop (k + 2)) i =
            deref (pop_heap less (a.take (k + 2))) i := by
        intro i hi
        exact deref_append_left _ _ i (by rw [hlr]; exact hi)
      have hright : ∀ j, k + 2 ≤ j →
          deref (pop_heap less (a.take (k + 2)) ++ a.drop (k + 2)) j = deref a j := by
        intro j hj
        rw [deref_append_right _ _ j (by rw [hlr]; exact hj), hlr, deref_drop]
        congr 1
        omega
      have hlast : deref (pop_heap less (a.take (k + 2))) (k + 1) = deref a 0 := by
        have := pop_heap_last less (a.take (k + 2)) hne
        rw [hlh] at this
        rw [show k + 2 - 1 = k + 1 from rfl] at this
        rw [this, deref_take _ _ _ (by omega)]
      have horig : ∀ i, i < k + 2 → ∃ m, m < k + 2 ∧
          deref (pop_heap less (a.take (k + 2))) i = deref a m := by
        intro i hi
        have hmem := deref_mem (pop_heap less (a.take (k + 2))) i (by rw [hlr]; exact hi)
        have hmem2 := (pop_heap_perm less (a.take (k + 2)) hne).mem_iff.1 hmem
        obtain ⟨m, hm1, hm2⟩ := exists_deref_of_mem _ _ hmem2
        rw [hlh] at hm1
        exact ⟨m, hm1, by rw [← hm2, deref_take _ _ _ hm1]⟩
      have hroot := heap_root_max hswo a (k + 2) hheap
      have key := ih (pop_heap less (a.take (k + 2)) ++ a.drop (k + 2)) (by rw [hl]; omega)
        (by
          intro q hq1 hq2 hq3
          rw [hleft _ (by omega), hleft _ (by omega)]
          have := pop_heap_heap hswo less_iff (a.take (k + 2)) hne hH
          rw [hlh] at this
          exact this q hq1 hq2 hq3)
        (by
          intro i j hi hij hj
          rw [hl] at hj
          rw [hright j (by omega)]
          by_cases hik : i = k + 1
          · rw [hik, hleft _ (by omega), hlast]
            exact hps 0 j (by omega) (by omega) hj
          · rw [hright i (by omega)]
            exact hsuf i j (by omega) hij hj)
        (by
          intro i j hi hij hj
          rw [hl] at hj
          rw [hleft i (by omega)]
          obtain ⟨m, hm1, hm2⟩ := horig i (by omega)
          rw [hm2]
          by_cases hjk : j = k + 1
          · rw [hjk, hleft _ (by omega), hlast]
            exact hroot m hm1
          · rw [hright j (by omega)]
            exact hps m j hm1 (by omega) hj)
      intro i j hij hj
      exact key i j hij (by rw [hl]; exact hj)

/-- On a heap under the built-in order, `sort_heap` yields a range sorted by that order. -/
theorem sort_heap_sorted [Inhabited α] [LT α] [DecidableRel (fun x y : α => x < y)]
    (hswo : StrictWeakOrder (less : α → α → Bool)) (cmp : α → α → Bool) (a : List α)
    (hheap : IsHeap less a) : SortedBy less (sort_heap cmp a) := by
  rw [sortedBy_iff_pairs]
  intro i j hij hj
  rw [sort_heap_length] at hj
  unfold sort_heap
  exact sort_heap_loop_sorted hswo a.length a (Nat.le_refl _) hheap
    (fun i j hi _ hj => by omega) (fun i j _ hj1 hj2 => by omega) i j hij hj

/-- Heap sort with the built-in order: `make_heap` followed by `sort_heap` sorts. -/
theorem heap_sort_less [Inhabited α] [LT α] [DecidableRel (fun x y : α => x < y)]
    (hswo : StrictWeakOrder (less : α → α → Bool)) (a : List α) :
    SortedBy less (sort_heap less (make_heap less a)) ∧
      (sort_heap less (make_heap less a)).Perm a :=
  ⟨sort_heap_sorted hswo less _ (make_heap_heap hswo less_iff a),
    (sort_heap_perm less _).trans (make_heap_perm less a)⟩

end TinySTL

namespace TinySTL

variable {α : Type}

/-! ## Insertion sort -/

/-- The inner loop of `_Insert_sort` for every comparison: where it stops, and the storage
once `key` is written at the position where it stops. -/
theorem _Insert_sort_inner_spec [Inhabited α] (cmp : α → α → Bool) (key : α) :
    ∀ j (a : List α), j < a.length →
      (_Insert_sort_inner cmp key j a).2 ≤ j ∧
      (_Insert_sort_inner cmp key j a).1.length = a.length ∧
      (∀ k, (_Insert_sort_inner cmp key j a).2 ≤ k → k < j → cmp key (deref a k) = true) ∧
      ((_Insert_sort_inner cmp key j a).2 = 0 ∨
        cmp key (deref a ((_Insert_sort_inner cmp key j a).2 - 1)) = false) ∧
      (∀ k, deref ((_Insert_sort_inner cmp key j a).1.set (_Insert_sort_inner cmp key j a).2 key) k
        = if k < (_Insert_sort_inner cmp key j a).2 then deref a k
          else if k = (_Insert_sort_inner cmp key j a).2 then key
          else if k ≤ j then deref a (k - 1) else deref a k) ∧
      ((_Insert_sort_inner cmp key j a).1.set (_Insert_sort_inner cmp key j a).2 key).Perm
        (a.set j key) := by
  intro j
  induction j with
  | zero =>
    intro a ha
    rw [_Insert_sort_inner]
    refine ⟨Nat.le_refl _, rfl, fun k h1 h2 => by omega, Or.inl rfl, ?_, List.Perm.refl _⟩
    intro k
    dsimp only
    rw [deref_set]
    split_ifs <;> first | rfl | (exfalso; omega)
  | succ j ih =>
    intro a ha
    rw [_Insert_sort_inner]
    by_cases hc : cmp key (deref a j) = true
    · rw [if_pos hc]
      have hla : (a.set (j + 1) (deref a j)).length = a.length := by simp
      obtain ⟨i1, i2, i3, i4, i5, i6⟩ := ih (a.set (j + 1) (deref a j)) (by rw [hla]; omega)
      refine ⟨by omega, by rw [i2, hla], ?_, ?_, ?_, ?_⟩
      · intro k hk1 hk2
        by_cases hkj : k = j
        · rw [hkj]; exact hc
        · have := i3 k hk1 (by omega)
          rwa [deref_set_ne _ _ _ _ (by omega)] at this
      · rcases i4 with h | h
        · exact Or.inl h
        · by_cases h0 : (_Insert_sort_inner cmp key j (a.set (j + 1) (deref a j))).2 = 0
          · exact Or.inl h0
          · right
            rwa [deref_set_ne _ _ _ _ (by omega)] at h
      · intro k
        rw [i5 k]
        by_cases h1 : k < (_Insert_sort_inner cmp key j (a.set (j + 1) (deref a j))).2
        · rw [if_pos h1, if_pos h1, deref_set_ne _ _ _ _ (by omega)]
        · rw [if_neg h1, if_neg h1]
          by_cases h2 : k = (_Insert_sort_inner cmp key j (a.set (j + 1) (deref a j))).2
          · rw [if_pos h2, if_pos h2]
          · rw [if_neg h2, if_neg h2]
            by_cases h3 : k ≤ j
            · rw [if_pos h3, if_pos (by omega), deref_set_ne _ _ _ _ (by omega)]
            · rw [if_neg h3]
              by_cases h4 : k = j + 1
              · rw [if_pos (by omega), h4, deref_set_self _ _ _ ha]
                rfl
              · rw [if_neg (by omega), deref_set_ne _ _ _ _ (by omega)]
      · exact i6.trans (hole_move_perm a (j + 1) j key ha (by omega) (by omega))
    · rw [if_neg hc]
      dsimp only
      refine ⟨Nat.le_refl _, rfl, fun k h1 h2 => by omega, Or.inr (by simpa using hc), ?_,
        List.Perm.refl _⟩
      intro k
      rw [deref_set]
      split_ifs <;> first | rfl | (exfalso; omega)

/-- The outer loop of `_Insert_sort` returns a permutation of the same length, for every
comparison. -/
theorem _Insert_sort_outer_perm [Inhabited α] (cmp : α → α → Bool) :
    ∀ fuel (a : List α) i, i ≤ a.length →
      (_Insert_sort_outer cmp fuel a i).length = a.length ∧
      (_Insert_sort_outer cmp fuel a i).Perm a := by
  intro fuel
  induction fuel with
  | zero => intro a i _; rw [_Insert_sort_outer]; exact ⟨rfl, List.Perm.refl _⟩
  | succ f ih =>
    intro a i hi
    rw [_Insert_sort_outer]
    by_cases hne : i ≠ a.length
    · rw [if_pos hne]
      dsimp only
      obtain ⟨i1, i2, -, -, -, i6⟩ := _Insert_sort_inner_spec cmp (deref a i) i a (by omega)
      rw [set_deref_self] at i6
      have hl : ((_Insert_sort_inner cmp (deref a i) i a).1.set
          (_Insert_sort_inner cmp (deref a i) i a).2 (deref a i)).length = a.length := by
        rw [List.length_set, i2]
      obtain ⟨j1, j2⟩ := ih _ (i + 1) (by rw [hl]; omega)
      exact ⟨by rw [j1, hl], j2.trans i6⟩
    · rw [if_neg hne]
      exact ⟨rfl, List.Perm.refl _⟩

theorem _Insert_sort_perm [Inhabited α] (cmp : α → α → Bool) (a : List α) :
    (_Insert_sort cmp a).Perm a := by
  unfold _Insert_sort
  split
  · exact List.Perm.refl _
  · exact (_Insert_sort_outer_perm cmp a.length a 1 (by omega)).2

theorem _Insert_sort_length [Inhabited α] (cmp : α → α → Bool) (a : List α) :
    (_Insert_sort cmp a).length = a.length :=
  (_Insert_sort_perm cmp a).length_eq

/-- The outer loop of `_Insert_sort` extends a sorted front `[0, i)` to the whole range. -/
theorem _Insert_sort_outer_sorted [Inhabited α] {cmp : α → α → Bool}
    (hswo : StrictWeakOrder cmp) :
    ∀ fuel (a : List α) i, a.length ≤ i + fuel → i ≤ a.length →
      (∀ p q, p < q → q < i → cmp (deref a q) (deref a p) = false) →
      ∀ p q, p < q → q < a.length →
        cmp (deref (_Insert_sort_outer cmp fuel a i) q)
          (deref (_Insert_sort_outer cmp fuel a i) p) = false := by
  intro fuel
  induction fuel with
  | zero =>
    intro a i hf hi hs p q hpq hq
    rw [_Insert_sort_outer]
    exact hs p q hpq (by omega)
  | succ f ih =>
    intro a i hf hi hs
    rw [_Insert_sort_outer]
    by_cases hne : i ≠ a.length
    · rw [if_pos hne]
      dsimp only
      obtain ⟨i1, i2, i3, i4, i5, -⟩ := _Insert_sort_inner_spec cmp (deref a i) i a (by omega)
      generalize hr : _Insert_sort_inner cmp (deref a i) i a = r at i1 i2 i3 i4 i5
      have hl : (r.1.set r.2 (deref a i)).length = a.length := by
        rw [List.length_set, i2]
      intro p q hpq hq
      have key := ih (r.1.set r.2 (deref a i)) (i + 1) (by rw [hl]; omega) (by rw [hl]; omega)
        (by
          intro p q hpq hq
          rw [i5 q, i5 p]
          by_cases hq1 : q < r.2
          · rw [if_pos hq1, if_pos (by omega)]
            exact hs p q hpq (by omega)
          · rw [if_neg hq1]
            by_cases hq2 : q = r.2
            · rw [if_pos hq2, if_pos (by omega)]
              rcases i4 with h | h
              · omega
              · by_cases hp : p = r.2 - 1
                · rw [hp]; exact h
                · exact hswo.neg_trans h (hs p (r.2 - 1) (by omega) (by omega))
            · rw [if_neg hq2, if_pos (by omega)]
              by_cases hp1 : p < r.2
              · rw [if_pos hp1]
                by_cases hp : p = q - 1
                · rw [hp]; exact hswo.irrefl _
                · exact hs p (q - 1) (by omega) (by omega)
              · rw [if_neg hp1]
                by_cases hp2 : p = r.2
                · rw [if_pos hp2]
                  exact hswo.asymm (i3 (q - 1) (by omega) (by omega))
                · rw [if_neg hp2, if_pos (by omega)]
                  exact hs (p - 1) (q - 1) (by omega) (by omega))
        p q hpq (by rw [hl]; exact hq)
      exact key
    · rw [if_neg hne]
      have : i = a.length := by omega
      intro p q hpq hq
      exact hs p q hpq (by omega)

/-- For a strict weak ordering, `_Insert_sort` sorts its range. -/
theorem _Insert_sort_sorted [Inhabited α] {cmp : α → α → Bool} (hswo : StrictWeakOrder cmp)
    (a : List α) : SortedBy cmp (_Insert_sort cmp a) := by
  rw [sortedBy_iff_pairs]
  intro p q hpq hq
  rw [_Insert_sort_length] at hq
  unfold _Insert_sort
  by_cases h0 : a.length = 0
  · omega
  · rw [if_neg h0]
    exact _Insert_sort_outer_sorted hswo a.length a 1 (by omega) (by omega)
      (fun p q h1 h2 => by omega) p q hpq hq

/-! ## Partition -/

/-- The scan of `_Partition`, for every comparison. -/
theorem _Partition_loop_spec [Inhabited α] (cmp : α → α → Bool) (key : α) (lastm1 : Nat) :
    ∀ fuel (a : List α) i j, lastm1 ≤ j + fuel → i ≤ j → j ≤ lastm1 → lastm1 < a.length →
      (∀ k, k < i → cmp (deref a k) key = true) →
      (∀ k, i ≤ k → k < j → cmp (deref a k) key = false) →
      (_Partition_loop cmp key lastm1 fuel a i j).2 ≤ lastm1 ∧
      (_Partition_loop cmp key lastm1 fuel a i j).1.length = a.length ∧
      (_Partition_loop cmp key lastm1 fuel a i j).1.Perm a ∧
      deref (_Partition_loop cmp key lastm1 fuel a i j).1 lastm1 = deref a lastm1 ∧
      (∀ k, k < (_Partition_loop cmp key lastm1 fuel a i j).2 →
        cmp (deref (_Partition_loop cmp key lastm1 fuel a i j).1 k) key = true) ∧
      (∀ k, (_Partition_loop cmp key lastm1 fuel a i j).2 ≤ k → k < lastm1 →
        cmp (deref (_Partition_loop cmp key lastm1 fuel a i j).1 k) key = false) := by
  intro fuel
  induction fuel with
  | zero =>
    intro a i j hf hij hj hl h1 h2
    rw [_Partition_loop]
    exact ⟨by omega, rfl, List.Perm.refl _, rfl, h1, fun k hk1 hk2 => h2 k hk1 (by omega)⟩
  | succ f ih =>
    intro a i j hf hij hj hl h1 h2
    rw [_Partition_loop]
    by_cases hjl : j < lastm1
    · rw [if_pos hjl]
      by_cases hc : cmp (deref a j) key = true
      · rw [if_pos hc]
        have hS : ∀ k, deref (iter_swap a i j) k =
            if k = j then deref a i else if k = i then deref a j else deref a k :=
          fun k => deref_iter_swap a i j k (by omega) (by omega)
        obtain ⟨r1, r2, r3, r4, r5, r6⟩ := ih (iter_swap a i j) (i + 1) (j + 1) (by omega)
          (by omega) (by omega) (by rw [iter_swap_length]; exact hl)
          (by
            intro k hk
            rw [hS]
            by_cases hkj : k = j
            · rw [if_pos hkj]
              have : i = j := by omega
              rw [this]; exact hc
            · rw [if_neg hkj]
              by_cases hki : k = i
              · rw [if_pos hki]; exact hc
              · rw [if_neg hki]; exact h1 k (by omega))
          (by
            intro k hk1 hk2
            rw [hS]
            by_cases hkj : k = j
            · rw [if_pos hkj]
              exact h2 i (Nat.le_refl _) (by omega)
            · rw [if_neg hkj, if_neg (by omega)]
              exact h2 k (by omega) (by omega))
        refine ⟨r1, by rw [r2, iter_swap_length], r3.trans (iter_swap_perm a i j (by omega)
          (by omega)), ?_, r5, r6⟩
        rw [r4, hS, if_neg (by omega), if_neg (by omega)]
      · rw [if_neg hc]
        have hc2 : cmp (deref a j) key = false := by simpa using hc
        exact ih a i (j + 1) (by omega) (by omega) (by omega) hl h1
          (by
            intro k hk1 hk2
            by_cases hkj : k = j
            · rw [hkj]; exact hc2
            · exact h2 k hk1 (by omega))
    · rw [if_neg hjl]
      exact ⟨by omega, rfl, List.Perm.refl _, rfl, h1, fun k hk1 hk2 => h2 k hk1 (by omega)⟩

/-- Facts about `_Partition` on a non-empty range, for every comparison and every stream. -/
theorem _Partition_spec [Inhabited α] (cmp : α → α → Bool) (a : List α) (g : Nat → Nat)
    (h : 1 ≤ a.length) :
    (_Get_random g a.length).1 < a.length ∧
    (_Partition cmp a g).2.1 < a.length ∧
    (_Partition cmp a g).1.length = a.length ∧
    deref (_Partition cmp a g).1 (_Partition cmp a g).2.1 = deref a (_Get_random g a.length).1 ∧
    (∀ k, k < (_Partition cmp a g).2.1 →
      cmp (deref (_Partition cmp a g).1 k) (deref a (_Get_random g a.length).1) = true) ∧
    (∀ k, (_Partition cmp a g).2.1 < k → k < a.length →
      cmp (deref (_Partition cmp a g).1 k) (deref a (_Get_random g a.length).1) = false) ∧
    (_Partition cmp a g).1.Perm a := by
  have hrp : (_Get_random g a.length).1 < a.length := by
    unfold _Get_random
    exact Nat.mod_lt _ (by omega)
  unfold _Partition
  dsimp only
  generalize hrpe : (_Get_random g a.length).1 = rp at hrp
  have hl1 : (iter_swap a rp (a.length - 1)).length = a.length := iter_swap_length ..
  have hS : ∀ k, deref (iter_swap a rp (a.length - 1)) k =
      if k = a.length - 1 then deref a rp else if k = rp then deref a (a.length - 1)
        else deref a k :=
    fun k => deref_iter_swap a rp (a.length - 1) k hrp (by omega)
  have hkey : deref (iter_swap a rp (a.length - 1)) (a.length - 1) = deref a rp := by
    rw [hS, if_pos rfl]
  rw [hl1, hkey]
  obtain ⟨r1, r2, r3, r4, r5, r6⟩ := _Partition_loop_spec cmp (deref a rp) (a.length - 1)
    a.length (iter_swap a rp (a.length - 1)) 0 0 (by omega) (Nat.le_refl _) (by omega)
    (by rw [hl1]; omega) (fun k hk => by omega) (fun k hk1 hk2 => by omega)
  generalize _Partition_loop cmp (deref a rp) (a.length - 1) a.length
    (iter_swap a rp (a.length - 1)) 0 0 = r at r1 r2 r3 r4 r5 r6
  rw [hl1] at r2
  rw [hkey] at r4
  have hT : ∀ k, deref (iter_swap r.1 r.2 (a.length - 1)) k =
      if k = a.length - 1 then deref r.1 r.2 else if k = r.2 then deref r.1 (a.length - 1)
        else deref r.1 k :=
    fun k => deref_iter_swap r.1 r.2 (a.length - 1) k (by omega) (by omega)
  refine ⟨hrp, by omega, by rw [iter_swap_length, r2], ?_, ?_, ?_, ?_⟩
  · rw [hT]
    by_cases he : r.2 = a.length - 1
    · rw [if_pos he, he, r4]
    · rw [if_neg he, if_pos rfl, r4]
  · intro k hk
    rw [hT, if_neg (by omega), if_neg (by omega)]
    exact r5 k hk
  · intro k hk1 hk2
    rw [hT]
    by_cases he : k = a.length - 1
    · rw [if_pos he]
      exact r6 r.2 (Nat.le_refl _) (by omega)
    · rw [if_neg he, if_neg (by omega)]
      exact r6 k (by omega) (by omega)
  · exact ((iter_swap_perm r.1 r.2 (a.length - 1) (by omega) (by omega)).trans r3).trans
      (iter_swap_perm a rp (a.length - 1) hrp (by omega))

/-- C20: for a range of at least one element, every boolean `cmp` and every draw of the
generator, `_Partition` returns a position inside the range that holds the chosen pivot; the
elements before it satisfy `cmp(x, pivot)`, the elements after it do not, and the range is a
permutation of its input. Every position of the range can be drawn as the pivot index. -/
theorem _Partition_correct [Inhabited α] (cmp : α → α → Bool) (a : List α) (g : Nat → Nat)
    (h : 1 ≤ a.length) :
    (_Get_random g a.length).1 < a.length ∧
    (_Partition cmp a g).2.1 < a.length ∧
    (_Partition cmp a g).1.length = a.length ∧
    deref (_Partition cmp a g).1 (_Partition cmp a g).2.1 = deref a (_Get_random g a.length).1 ∧
    (∀ k, k < (_Partition cmp a g).2.1 →
      cmp (deref (_Partition cmp a g).1 k) (deref a (_Get_random g a.length).1) = true) ∧
    (∀ k, (_Partition cmp a g).2.1 < k → k < a.length →
      cmp (deref (_Partition cmp a g).1 k) (deref a (_Get_random g a.length).1) = false) ∧
    (_Partition cmp a g).1.Perm a ∧
    (∀ p, p < a.length → (_Get_random (fun _ => p) a.length).1 = p) := by
  obtain ⟨h1, h2, h3, h4, h5, h6, h7⟩ := _Partition_spec cmp a g h
  refine ⟨h1, h2, h3, h4, h5, h6, h7, ?_⟩
  intro p hp
  unfold _Get_random
  exact Nat.mod_eq_of_lt hp

theorem _Partition_correct_witness :
    1 ≤ ([3, 1, 2] : List Int).length ∧
      (_Partition less ([3, 1, 2] : List Int) (fun _ => 1)).1.Perm [3, 1, 2] :=
  ⟨by decide, (_Partition_correct less [3, 1, 2] (fun _ => 1) (by decide)).2.2.2.2.2.2.1⟩

end TinySTL

namespace TinySTL

variable {α : Type}

/-! ## The hybrid sort -/

theorem take_one_drop [Inhabited α] (l : List α) (mid : Nat) (h : mid < l.length) :
    (l.drop mid).take 1 = [deref l mid] := by
  apply ext_deref
  · simp; omega
  · intro k hk
    have hk0 : k = 0 := by
      simp at hk
      omega
    subst hk0
    rw [deref_take _ _ _ (by omega), deref_drop]
    rfl

theorem split_at_pivot (l : List α) (mid : Nat) :
    l.take mid ++ (l.drop mid).take 1 ++ l.drop (mid + 1) = l := by
  have h1 : l.drop (mid + 1) = (l.drop mid).drop 1 := by
    rw [List.drop_drop, Nat.add_comm]
  rw [h1, List.append_assoc, List.take_append_drop, List.take_append_drop]

/-- The second half of `_Quick_sort` leaves a range of at most one element unchanged. -/
theorem _Quick_sort_finish_short [Inhabited α] [LT α] [DecidableRel (fun x y : α => x < y)]
    (cmp : α → α → Bool) (count : Nat) (cur : List α) (h : cur.length ≤ 1) :
    _Quick_sort_finish cmp count cur = cur := by
  match cur, h with
  | [], _ =>
    unfold _Quick_sort_finish
    split_ifs <;> simp [make_heap, sort_heap, sort_heap_loop, _Insert_sort]
  | [x], _ =>
    unfold _Quick_sort_finish
    split_ifs <;>
      simp [make_heap, sort_heap, sort_heap_loop, _Insert_sort, _Insert_sort_outer]

/-- The second half of `_Quick_sort` permutes its range, for every comparison. -/
theorem _Quick_sort_finish_perm [Inhabited α] [LT α] [DecidableRel (fun x y : α => x < y)]
    (cmp : α → α → Bool) (count : Nat) (cur : List α) :
    (_Quick_sort_finish cmp count cur).Perm cur := by
  unfold _Quick_sort_finish
  split_ifs
  · exact (sort_heap_perm cmp _).trans (make_heap_perm cmp cur)
  · exact _Insert_sort_perm cmp cur
  · exact List.Perm.refl _

/-- The function `_Quick_sort` permutes its range, for every comparison, budget and stream. -/
theorem _Quick_sort_perm [Inhabited α] [LT α] [DecidableRel (fun x y : α => x < y)]
    (cmp : α → α → Bool) :
    ∀ fuel (a : List α) diff g, (_Quick_sort cmp fuel a diff g).1.Perm a := by
  intro fuel
  induction fuel with
  | zero =>
    intro a diff g
    rw [_Quick_sort]
    exact _Quick_sort_finish_perm cmp _ a
  | succ f ih =>
    intro a diff g
    rw [_Quick_sort]
    dsimp only
    split_ifs with hc
    · simp only [Bool.and_eq_true, decide_eq_true_eq] at hc
      have hlen : 1 ≤ a.length := by
        have := hc.1
        unfold _INSERT_SORT_MAX at this
        omega
      obtain ⟨-, p2, p3, -, -, -, p7⟩ := _Partition_spec cmp a g hlen
      refine List.Perm.trans ?_ p7
      have hsplit := split_at_pivot (_Partition cmp a g).1 (_Partition cmp a g).2.1
      refine List.Perm.trans ?_ (List.Perm.of_eq hsplit)
      exact ((ih _ _ _).append (_Quick_sort_finish_perm cmp _ _)).append (ih _ _ _)
    · exact _Quick_sort_finish_perm cmp _ a

/-- The function `sort` permutes its range, for every comparison and stream. -/
theorem sort_perm [Inhabited α] [LT α] [DecidableRel (fun x y : α => x < y)]
    (cmp : α → α → Bool) (a : List α) (g : Nat → Nat) : (sort cmp a g).1.Perm a := by
  unfold sort
  split_ifs
  · exact _Quick_sort_perm cmp _ a _ g
  · exact List.Perm.refl _

/-- With the built-in order, the second half of `_Quick_sort` sorts the whole range when
`count` is its length. -/
theorem _Quick_sort_finish_sorted [Inhabited α] [LT α] [DecidableRel (fun x y : α => x < y)]
    (hswo : StrictWeakOrder (less : α → α → Bool)) (a : List α) :
    SortedBy less (_Quick_sort_finish less a.length a) := by
  unfold _Quick_sort_finish
  split_ifs with h1 h2
  · exact (heap_sort_less hswo a).1
  · exact _Insert_sort_sorted hswo a
  · rw [sortedBy_iff_pairs]
    intro i j hij hj
    omega

/-- With the built-in order, `_Quick_sort` sorts its range for every budget and stream. -/
theorem _Quick_sort_sorted [Inhabited α] [LT α] [DecidableRel (fun x y : α => x < y)]
    (hswo : StrictWeakOrder (less : α → α → Bool)) :
    ∀ fuel (a : List α) diff g, SortedBy less (_Quick_sort less fuel a diff g).1 := by
  intro fuel
  induction fuel with
  | zero =>
    intro a diff g
    rw [_Quick_sort]
    exact _Quick_sort_finish_sorted hswo a
  | succ f ih =>
    intro a diff g
    rw [_Quick_sort]
    dsimp only
    split_ifs with hc
    · simp only [Bool.and_eq_true, decide_eq_true_eq] at hc
      have hlen : 1 ≤ a.length := by
        have := hc.1
        unfold _INSERT_SORT_MAX at this
        omega
      obtain ⟨-, p2, p3, p4, p5, p6, -⟩ := _Partition_spec less a g hlen
      generalize (_Get_random g a.length).1 = rp at p4 p5 p6
      generalize hp : _Partition less a g = p at p2 p3 p4 p5 p6
      have hmid : p.2.1 < p.1.length := by rw [p3]; exact p2
      rw [take_one_drop p.1 p.2.1 hmid,
        _Quick_sort_finish_short less a.length [deref p.1 p.2.1] (by simp), p4]
      have hL : ∀ x, x ∈ (_Quick_sort less f (List.take p.2.1 p.1)
          (diff >>> 1 + diff >>> 2) p.2.2).1 → less x (deref a rp) = true := by
        intro x hx
        have hx2 := (_Quick_sort_perm less f _ _ _).mem_iff.1 hx
        obtain ⟨k, hk1, hk2⟩ := exists_deref_of_mem _ _ hx2
        rw [List.length_take] at hk1
        rw [deref_take _ _ _ (by omega)] at hk2
        rw [← hk2]
        exact p5 k (by omega)
      have hR : ∀ y l2, y ∈ (_Quick_sort less f (List.drop (p.2.1 + 1) p.1)
          (diff >>> 1 + diff >>> 2) l2).1 → less y (deref a rp) = false := by
        intro y l2 hy
        have hy2 := (_Quick_sort_perm less f _ _ _).mem_iff.1 hy
        obtain ⟨k, hk1, hk2⟩ := exists_deref_of_mem _ _ hy2
        rw [List.length_drop] at hk1
        rw [deref_drop] at hk2
        rw [← hk2]
        exact p6 _ (by omega) (by omega)
      unfold SortedBy
      rw [List.pairwise_append, List.pairwise_append]
      refine ⟨⟨ih _ _ _, List.pairwise_singleton _ _, ?_⟩, ih _ _ _, ?_⟩
      · intro x hx y hy
        rw [List.mem_singleton] at hy
        rw [hy]
        exact hswo.asymm (hL x hx)
      · intro x hx y hy
        rw [List.mem_append, List.mem_singleton] at hx
        rcases hx with hx | hx
        · by_contra hcon
          have hcon2 : less y x = true := by simpa using hcon
          have := hswo.trans _ _ _ hcon2 (hL x hx)
          rw [hR y _ hy] at this
          exact Bool.noConfusion this
        · rw [hx]
          exact hR y _ hy
    · exact _Quick_sort_finish_sorted hswo a

/-- With the built-in order, `sort` sorts its range for every stream. -/
theorem sort_sorted_less [Inhabited α] [LT α] [DecidableRel (fun x y : α => x < y)]
    (hswo : StrictWeakOrder (less : α → α → Bool)) (a : List α) (g : Nat → Nat) :
    SortedBy less (sort less a g).1 := by
  unfold sort
  split_ifs with h
  · exact _Quick_sort_sorted hswo _ a _ g
  · rw [sortedBy_iff_pairs]
    intro i j hij hj
    simp only at hj
    omega

/-- More fuel than the budget does not change the result of `_Quick_sort`. -/
theorem _Quick_sort_fuel_succ [Inhabited α] [LT α] [DecidableRel (fun x y : α => x < y)]
    (cmp : α → α → Bool) :
    ∀ fuel (a : List α) diff g, diff ≤ fuel →
      _Quick_sort cmp (fuel + 1) a diff g = _Quick_sort cmp fuel a diff g := by
  intro fuel
  induction fuel with
  | zero =>
    intro a diff g h
    have h0 : diff = 0 := by omega
    subst h0
    simp [_Quick_sort]
  | succ f ih =>
    intro a diff g h
    rw [_Quick_sort]
    conv => rhs; rw [_Quick_sort]
    dsimp only
    have hd : diff >>> 1 + diff >>> 2 ≤ f ∨ diff = 0 := by
      rw [Nat.shiftRight_eq_div_pow, Nat.shiftRight_eq_div_pow]
      omega
    rcases hd with hd | hd
    · rw [ih _ _ _ hd, ih _ _ _ hd]
    · subst hd
      simp

theorem sortedBy_less_int_iff (l : List Int) : SortedBy less l ↔ List.Sorted (fun x y => x ≤ y) l := by
  unfold SortedBy List.Sorted
  constructor
  · intro h
    exact h.imp (fun hxy => by simpa [less] using hxy)
  · intro h
    exact h.imp (fun hxy => by simpa [less] using hxy)

/-- C2: with the default less-than on integers, `sort` yields the ascending sorted permutation
of its input, for every length and every pivot stream: the output is a permutation of the
input, no element is before an earlier one, the source predicate `is_sorted` accepts it, and
`[5,3,8,1,9,2]` becomes `[1,2,3,5,8,9]` under every stream. -/
theorem sort_int_correct (a : List Int) (g : Nat → Nat) :
    (sort less a g).1.Perm a ∧
    List.Sorted (fun x y : Int => x ≤ y) (sort less a g).1 ∧
    is_sorted less (sort less a g).1 = true ∧
    (sort less ([5, 3, 8, 1, 9, 2] : List Int) g).1 = [1, 2, 3, 5, 8, 9] := by
  have hs := sort_sorted_less less_int_swo a g
  refine ⟨sort_perm less a g, (sortedBy_less_int_iff _).1 hs, is_sorted_of_sortedBy less _ hs, ?_⟩
  apply List.eq_of_perm_of_sorted (r := fun x y : Int => x ≤ y)
  · exact (sort_perm less _ g).trans (by decide)
  · exact (sortedBy_less_int_iff _).1 (sort_sorted_less less_int_swo _ g)
  · decide

/-- C8: on integers with the default less-than, `make_heap` followed by `sort_heap` produces
exactly the sequence that `sort` produces, whatever the pivot stream. -/
theorem heap_sort_eq_sort (a : List Int) (g : Nat → Nat) :
    sort_heap less (make_heap less a) = (sort less a g).1 := by
  obtain ⟨h1, h2⟩ := heap_sort_less less_int_swo a
  apply List.eq_of_perm_of_sorted (r := fun x y : Int => x ≤ y)
  · exact h2.trans (sort_perm less a g).symm
  · exact (sortedBy_less_int_iff _).1 h1
  · exact (sortedBy_less_int_iff _).1 (sort_sorted_less less_int_swo a g)

end TinySTL

namespace TinySTL

variable {α : Type}

/-! ## Caller-supplied orderings and the heap routines

`_Adjust_heap` picks the larger child with the built-in `operator<` and `sort_heap` calls
`pop_heap(first, last)` without its comparison, so the heap routines, and the heap-sort
fallback of `sort`, follow `cmp` only when it agrees with the built-in order. -/

/-- C4 at a failing input: under the ordering `greater`, a strict weak ordering, `make_heap`
turns `[3, 1, 2]` into `[2, 1, 3]`, which `is_heap` rejects. -/
theorem make_heap_greater_not_heap :
    StrictWeakOrder (greater : Int → Int → Bool) ∧
    make_heap greater ([3, 1, 2] : List Int) = [2, 1, 3] ∧
    is_heap greater (make_heap greater ([3, 1, 2] : List Int)) = false :=
  ⟨greater_int_swo, by decide, by decide⟩

/-- C6 at a failing input: `[1, 2, 3, 4]` is a valid heap under the ordering `greater`, and
`pop_heap` moves the former front to the last position but leaves `[3, 2, 4]` in front of
it, which is not a heap under that ordering. -/
theorem pop_heap_greater_not_heap :
    StrictWeakOrder (greater : Int → Int → Bool) ∧
    is_heap greater ([1, 2, 3, 4] : List Int) = true ∧
    pop_heap greater ([1, 2, 3, 4] : List Int) = [3, 2, 4, 1] ∧
    is_heap greater ((pop_heap greater ([1, 2, 3, 4] : List Int)).take 3) = false :=
  ⟨greater_int_swo, by decide, by decide, by decide⟩

/-- C7 at a failing input: `[1, 2, 3]` is a valid heap under the ordering `greater`, and
`sort_heap` with that comparison returns `[2, 3, 1]`, which is not sorted by it. -/
theorem sort_heap_greater_not_sorted :
    StrictWeakOrder (greater : Int → Int → Bool) ∧
    is_heap greater ([1, 2, 3] : List Int) = true ∧
    sort_heap greater ([1, 2, 3] : List Int) = [2, 3, 1] ∧
    is_sorted greater (sort_heap greater ([1, 2, 3] : List Int)) = false :=
  ⟨greater_int_swo, by decide, by decide, by decide⟩

set_option maxRecDepth 100000 in
/-- C1 at a failing input: under the ordering `greater` and the stream that always draws
offset `0`, `sort` of the 43 integers `42, ..., 0` peels off ten pivots and then heap-sorts
the remaining 33 elements without regard to `cmp`; `is_sorted` rejects the result. -/
theorem sort_greater_not_sorted :
    StrictWeakOrder (greater : Int → Int → Bool) ∧
    (sort greater descending43 firstPivot).1 =
      [42, 41, 40, 39, 38, 37, 36, 35, 34, 33, 0, 1, 2, 3, 4, 5, 6, 7, 8, 19, 27, 21, 9, 10,
        11, 12, 22, 28, 23, 13, 14, 18, 30, 20, 24, 15, 26, 17, 32, 31, 29, 25, 16] ∧
    is_sorted greater (sort greater descending43 firstPivot).1 = false :=
  ⟨greater_int_swo, by decide, by decide⟩

set_option maxRecDepth 100000 in
/-- C3 at a failing input: the 43 integers `42, ..., 0` are sorted under
the ordering `greater` and pairwise distinct, yet `sort` with that comparison and the stream
that always draws offset `0` returns a different sequence. -/
theorem sort_greater_changes_sorted :
    StrictWeakOrder (greater : Int → Int → Bool) ∧
    is_sorted greater descending43 = true ∧ descending43.Nodup ∧
    (sort greater descending43 firstPivot).1 ≠ descending43 :=
  ⟨greater_int_swo, by decide, by decide, by decide⟩

/-- C17 at a failing input: on an empty range `pop_heap` dereferences `*--last`, a position
before `first`, while on a non-empty range all accesses of its body are inside the range. -/
theorem pop_heap_checked_empty [Inhabited α] [LT α] [DecidableRel (fun x y : α => x < y)]
    (cmp : α → α → Bool) :
    pop_heap_checked cmp ([] : List α) = none ∧
    derefChecked ([] : List α) (((([] : List α).length : Nat) : Int) - 1) = none ∧
    ∀ a : List α, a ≠ [] → pop_heap_checked cmp a = some (pop_heap cmp a) := by
  refine ⟨by simp [pop_heap_checked, derefChecked], by simp [derefChecked], ?_⟩
  intro a ha
  have hpos : 0 < a.length := List.length_pos.2 ha
  have h1 : derefChecked a ((a.length : Int) - 1) = some (deref a (a.length - 1)) := by
    unfold derefChecked deref
    have hnn : (0 : Int) ≤ (a.length : Int) - 1 := by omega
    have htn : ((a.length : Int) - 1).toNat = a.length - 1 := by omega
    rw [if_pos hnn, htn, List.getD_eq_getElem?_getD]
    have : a.length - 1 < a.length := by omega
    rw [List.getElem?_eq_getElem this]
    rfl
  have h2 : derefChecked a 0 = some (deref a 0) := by
    unfold derefChecked deref
    rw [if_pos (Int.le_refl 0), List.getD_eq_getElem?_getD]
    simp only [Int.toNat_zero]
    rw [List.getElem?_eq_getElem hpos]
    rfl
  have h3 : setChecked a ((a.length : Int) - 1) (deref a 0) =
      some (a.set (a.length - 1) (deref a 0)) := by
    unfold setChecked
    have htn : ((a.length : Int) - 1).toNat = a.length - 1 := by omega
    rw [if_pos (by omega), htn]
  have htn : ((a.length : Int) - 1).toNat = a.length - 1 := by omega
  unfold pop_heap_checked
  simp only [h1, h2, h3, htn]
  rfl

/-- With the default less-than, `sort` returns an already sorted range of integers unchanged,
for every pivot stream. -/
theorem sort_int_sorted_unchanged (a : List Int) (g : Nat → Nat)
    (h : is_sorted less a = true) : (sort less a g).1 = a := by
  apply List.eq_of_perm_of_sorted (r := fun x y : Int => x ≤ y)
  · exact sort_perm less a g
  · exact (sortedBy_less_int_iff _).1 (sort_sorted_less less_int_swo a g)
  · exact (sortedBy_less_int_iff _).1 (sortedBy_of_is_sorted less_int_swo a h)

end TinySTL

namespace TinySTL

variable {α : Type}

/-! ## `is_heap_until`, `min_element`, `max_element`, `lexicographical_compare` -/

/-- C13: `is_heap_until` returns the smallest position `k ≥ 1` with `cmp(a[(k-1)/2], a[k])`,
or `last` when there is none, and `is_heap` is true exactly when no node is before one of its
children `2i+1`, `2i+2` that lie inside the range. -/
theorem is_heap_until_correct [Inhabited α] (cmp : α → α → Bool) (a : List α) :
    ((is_heap_until cmp a = a.length ∧
        ∀ k, 1 ≤ k → k < a.length → cmp (deref a ((k - 1) / 2)) (deref a k) = false) ∨
      (1 ≤ is_heap_until cmp a ∧ is_heap_until cmp a < a.length ∧
        cmp (deref a ((is_heap_until cmp a - 1) / 2)) (deref a (is_heap_until cmp a)) = true ∧
        ∀ k, 1 ≤ k → k < is_heap_until cmp a →
          cmp (deref a ((k - 1) / 2)) (deref a k) = false)) ∧
    (is_heap cmp a = true ↔
      ∀ i, (2 * i + 1 < a.length → cmp (deref a i) (deref a (2 * i + 1)) = false) ∧
        (2 * i + 2 < a.length → cmp (deref a i) (deref a (2 * i + 2)) = false)) := by
  refine ⟨is_heap_until_spec cmp a, ?_⟩
  rw [is_heap_iff]
  unfold IsHeap HeapFrom
  constructor
  · intro h i
    constructor
    · intro hi
      have := h (2 * i + 1) (by omega) hi (Nat.zero_le _)
      rwa [show (2 * i + 1 - 1) / 2 = i by omega] at this
    · intro hi
      have := h (2 * i + 2) (by omega) hi (Nat.zero_le _)
      rwa [show (2 * i + 2 - 1) / 2 = i by omega] at this
  · intro h k hk1 hk2 _
    by_cases hodd : k % 2 = 1
    · have hk : k = 2 * ((k - 1) / 2) + 1 := by omega
      have := (h ((k - 1) / 2)).1 (by omega)
      rwa [← hk] at this
    · have hk : k = 2 * ((k - 1) / 2) + 2 := by omega
      have := (h ((k - 1) / 2)).2 (by omega)
      rwa [← hk] at this

/-- The loop of `min_element` keeps the earliest smallest position of the scanned front. -/
theorem min_element_loop_spec [Inhabited α] {cmp : α → α → Bool} (hswo : StrictWeakOrder cmp)
    (a : List α) :
    ∀ fuel first m, a.length ≤ first + fuel → first ≤ a.length → FirstMin cmp a first m →
      FirstMin cmp a a.length (min_element_loop cmp a fuel first m) := by
  intro fuel
  induction fuel with
  | zero =>
    intro first m hf hle hinv
    rw [min_element_loop]
    have : first = a.length := by omega
    rw [← this]; exact hinv
  | succ f ih =>
    intro first m hf hle hinv
    rw [min_element_loop]
    by_cases hne : first ≠ a.length
    · rw [if_pos hne]
      obtain ⟨h1, h2, h3⟩ := hinv
      by_cases hc : cmp (deref a first) (deref a m) = true
      · rw [if_pos hc]
        apply ih (first + 1) first (by omega) (by omega)
        refine ⟨by omega, ?_, ?_⟩
        · intro j hj
          by_cases hjf : j = first
          · rw [hjf]; exact hswo.irrefl _
          · by_contra hcon
            have hcon2 : cmp (deref a j) (deref a first) = true := by simpa using hcon
            have := hswo.trans _ _ _ hcon2 hc
            rw [h2 j (by omega)] at this
            exact Bool.noConfusion this
        · intro j hj
          exact hswo.lt_of_lt_of_le hc (h2 j hj)
      · rw [if_neg hc]
        apply ih (first + 1) m (by omega) (by omega)
        refine ⟨by omega, ?_, h3⟩
        intro j hj
        by_cases hjf : j = first
        · rw [hjf]; simpa using hc
        · exact h2 j (by omega)
    · rw [if_neg hne]
      have : first = a.length := by omega
      rw [← this]; exact hinv

theorem swo_flip {cmp : α → α → Bool} (hswo : StrictWeakOrder cmp) :
    StrictWeakOrder (fun x y => cmp y x) where
  irrefl := hswo.irrefl
  trans := fun x y z h1 h2 => hswo.trans z y x h2 h1
  incomp_trans := fun x y z h1 h2 h3 h4 =>
    let r := hswo.incomp_trans x y z h2 h1 h4 h3
    ⟨r.2, r.1⟩

/-- The loop of `max_element` is the loop of `min_element` for the reversed comparison. -/
theorem max_element_loop_eq [Inhabited α] (cmp : α → α → Bool) (a : List α) :
    ∀ fuel first m, max_element_loop cmp a fuel first m =
      min_element_loop (fun x y => cmp y x) a fuel first m := by
  intro fuel
  induction fuel with
  | zero => intro first m; rw [max_element_loop, min_element_loop]
  | succ f ih =>
    intro first m
    rw [max_element_loop, min_element_loop]
    simp only [ih]

theorem min_element_firstMin [Inhabited α] {cmp : α → α → Bool} (hswo : StrictWeakOrder cmp)
    (a : List α) (hne : a ≠ []) : FirstMin cmp a a.length (min_element cmp a) := by
  have hpos : 0 < a.length := List.length_pos.2 hne
  unfold min_element
  rw [if_neg (by omega)]
  apply min_element_loop_spec hswo a a.length 1 0 (by omega) (by omega)
  refine ⟨by omega, ?_, fun j hj => by omega⟩
  intro j hj
  have : j = 0 := by omega
  rw [this]; exact hswo.irrefl _

theorem max_element_firstMax [Inhabited α] {cmp : α → α → Bool} (hswo : StrictWeakOrder cmp)
    (a : List α) (hne : a ≠ []) : FirstMax cmp a a.length (max_element cmp a) := by
  have hpos : 0 < a.length := List.length_pos.2 hne
  unfold max_element
  rw [if_neg (by omega), max_element_loop_eq]
  have := min_element_loop_spec (swo_flip hswo) a a.length 1 0 (by omega) (by omega)
    ⟨by omega, fun j hj => by
      have : j = 0 := by omega
      rw [this]; exact hswo.irrefl _, fun j hj => by omega⟩
  exact this

/-- C14: for a strict weak ordering and a non-empty range, `min_element` returns a position
whose element has no element of the range before it, and it is the earliest such position;
`max_element` returns a position whose element is before no element of the range, and it is
the earliest such position; on an empty range both return `last`. -/
theorem min_max_element_correct [Inhabited α] (cmp : α → α → Bool)
    (hswo : StrictWeakOrder cmp) (a : List α) (hne : a ≠ []) :
    (min_element cmp a < a.length ∧
      (∀ j, j < a.length → cmp (deref a j) (deref a (min_element cmp a)) = false) ∧
      (∀ p, p < a.length → (∀ j, j < a.length → cmp (deref a j) (deref a p) = false) →
        min_element cmp a ≤ p)) ∧
    (max_element cmp a < a.length ∧
      (∀ j, j < a.length → cmp (deref a (max_element cmp a)) (deref a j) = false) ∧
      (∀ p, p < a.length → (∀ j, j < a.length → cmp (deref a p) (deref a j) = false) →
        max_element cmp a ≤ p)) ∧
    min_element cmp ([] : List α) = ([] : List α).length ∧
    max_element cmp ([] : List α) = ([] : List α).length := by
  obtain ⟨m1, m2, m3⟩ := min_element_firstMin hswo a hne
  obtain ⟨x1, x2, x3⟩ := max_element_firstMax hswo a hne
  refine ⟨⟨m1, m2, ?_⟩, ⟨x1, x2, ?_⟩, rfl, rfl⟩
  · intro p hp hmin
    by_contra hlt
    have h1 := m3 p (by omega)
    rw [hmin _ m1] at h1
    exact Bool.noConfusion h1
  · intro p hp hmax
    by_contra hlt
    have h1 := x3 p (by omega)
    rw [hmax _ x1] at h1
    exact Bool.noConfusion h1

theorem min_max_element_correct_witness :
    ([2, 1, 3, 1, 3] : List Int) ≠ [] ∧ min_element less ([2, 1, 3, 1, 3] : List Int) < 5 ∧
      max_element less ([2, 1, 3, 1, 3] : List Int) < 5 :=
  ⟨by decide, (min_max_element_correct less less_int_swo [2, 1, 3, 1, 3] (by decide)).1.1,
    (min_max_element_correct less less_int_swo [2, 1, 3, 1, 3] (by decide)).2.1.1⟩

theorem deref_cons_zero [Inhabited α] (x : α) (xs : List α) : deref (x :: xs) 0 = x := rfl

theorem deref_cons_succ [Inhabited α] (x : α) (xs : List α) (k : Nat) :
    deref (x :: xs) (k + 1) = deref xs k := rfl

/-- The scan of `_Lexicographical_compare`, for every comparison. -/
theorem _Lexicographical_compare_iff [Inhabited α] (pred : α → α → Bool) :
    ∀ (A B : List α), _Lexicographical_compare pred A B = true ↔
      ((∃ k, k < min A.length B.length ∧ pred (deref A k) (deref B k) = true ∧
          ∀ i, i < k → pred (deref A i) (deref B i) = false ∧
            pred (deref B i) (deref A i) = false) ∨
        (A.length < B.length ∧ ∀ i, i < A.length →
          pred (deref A i) (deref B i) = false ∧ pred (deref B i) (deref A i) = false)) := by
  intro A
  induction A with
  | nil =>
    intro B
    cases B with
    | nil => simp [_Lexicographical_compare]
    | cons y ys => simp [_Lexicographical_compare]
  | cons x xs ih =>
    intro B
    cases B with
    | nil => simp [_Lexicographical_compare]
    | cons y ys =>
      rw [_Lexicographical_compare]
      by_cases h1 : pred x y = true
      · rw [if_pos h1]
        simp only [true_iff]
        left
        exact ⟨0, by simp, h1, fun i hi => by omega⟩
      · rw [if_neg h1]
        have h1f : pred x y = false := by simpa using h1
        by_cases h2 : pred y x = true
        · rw [if_pos h2]
          simp only [Bool.false_eq_true, false_iff, not_or, not_exists, not_and]
          constructor
          · intro k hk hp hall
            cases k with
            | zero =>
              rw [deref_cons_zero, deref_cons_zero] at hp
              exact h1 hp
            | succ k =>
              have := (hall 0 (by omega)).2
              rw [deref_cons_zero, deref_cons_zero, h2] at this
              exact Bool.noConfusion this
          · intro hl hall
            have := (hall 0 (by simp)).2
            rw [deref_cons_zero, deref_cons_zero, h2] at this
            exact Bool.noConfusion this
        · rw [if_neg h2]
          have h2f : pred y x = false := by simpa using h2
          rw [ih ys]
          constructor
          · rintro (⟨k, hk, hp, hall⟩ | ⟨hl, hall⟩)
            · left
              refine ⟨k + 1, by simp only [List.length_cons]; omega, hp, ?_⟩
              intro i hi
              cases i with
              | zero => exact ⟨h1f, h2f⟩
              | succ i => exact hall i (by omega)
            · right
              refine ⟨by simp only [List.length_cons]; omega, ?_⟩
              intro i hi
              cases i with
              | zero => exact ⟨h1f, h2f⟩
              | succ i => exact hall i (by simp only [List.length_cons] at hi; omega)
          · rintro (⟨k, hk, hp, hall⟩ | ⟨hl, hall⟩)
            · cases k with
              | zero =>
                rw [deref_cons_zero, deref_cons_zero] at hp
                exact absurd hp h1
              | succ k =>
                left
                refine ⟨k, by simp only [List.length_cons] at hk; omega, hp, ?_⟩
                intro i hi
                exact hall (i + 1) (by omega)
            · right
              refine ⟨by simp only [List.length_cons] at hl; omega, ?_⟩
              intro i hi
              exact hall (i + 1) (by simp only [List.length_cons]; omega)

/-- C16: `lexicographical_compare(A, B, cmp)` is true exactly when some index `k` inside both
ranges has `cmp(A[k], B[k])` while all earlier pairs are equivalent, or all `|A|` first pairs
are equivalent and `|A| < |B|`; for an irreflexive `cmp` it is false on two equal ranges. -/
theorem lexicographical_compare_correct [Inhabited α] (cmp : α → α → Bool) (A B : List α) :
    (lexicographical_compare cmp A B = true ↔
      ((∃ k, k < min A.length B.length ∧ cmp (deref A k) (deref B k) = true ∧
          ∀ i, i < k → cmp (deref A i) (deref B i) = false ∧
            cmp (deref B i) (deref A i) = false) ∨
        (A.length < B.length ∧ ∀ i, i < A.length →
          cmp (deref A i) (deref B i) = false ∧ cmp (deref B i) (deref A i) = false))) ∧
    ((∀ x, cmp x x = false) → lexicographical_compare cmp A A = false) := by
  refine ⟨_Lexicographical_compare_iff cmp A B, ?_⟩
  intro hirr
  unfold lexicographical_compare
  induction A with
  | nil => rfl
  | cons x xs ih =>
    rw [_Lexicographical_compare, hirr x]
    simpa using ih

/-- C18: for every boolean comparison, every built-in order and every pivot stream, the
range after `sort`, `make_heap`, `push_heap`, `sort_heap` or `pop_heap` on a non-empty range
is a permutation of the range before the call. -/
theorem heap_sort_ops_perm [Inhabited α] [LT α] [DecidableRel (fun x y : α => x < y)]
    (cmp : α → α → Bool) (a : List α) (g : Nat → Nat) (hne : a ≠ []) :
    (sort cmp a g).1.Perm a ∧ (make_heap cmp a).Perm a ∧ (push_heap cmp a).Perm a ∧
    (sort_heap cmp a).Perm a ∧ (pop_heap cmp a).Perm a :=
  ⟨sort_perm cmp a g, make_heap_perm cmp a, push_heap_perm cmp a, sort_heap_perm cmp a,
    pop_heap_perm cmp a hne⟩

theorem heap_sort_ops_perm_witness :
    ([3, 1, 2] : List Int) ≠ [] ∧
      (pop_heap (fun _ _ => true) ([3, 1, 2] : List Int)).Perm [3, 1, 2] :=
  ⟨by decide, (heap_sort_ops_perm (fun _ _ => true) [3, 1, 2] (fun n => n) (by decide)).2.2.2.2⟩

end TinySTL

namespace TinySTL

variable {α : Type}

/-! ## `minmax_element` -/

theorem firstMin_take [Inhabited α] {cmp : α → α → Bool} (hswo : StrictWeakOrder cmp)
    (a : List α) (n m : Nat) (h : FirstMin cmp a n m)
    (hc : cmp (deref a n) (deref a m) = true) : FirstMin cmp a (n + 1) n := by
  obtain ⟨h1, h2, h3⟩ := h
  refine ⟨by omega, ?_, ?_⟩
  · intro j hj
    by_cases hjn : j = n
    · rw [hjn]; exact hswo.irrefl _
    · by_contra hcon
      have hcon2 : cmp (deref a j) (deref a n) = true := by simpa using hcon
      have := hswo.trans _ _ _ hcon2 hc
      rw [h2 j (by omega)] at this
      exact Bool.noConfusion this
  · intro j hj
    exact hswo.lt_of_lt_of_le hc (h2 j hj)

theorem firstMin_keep [Inhabited α] {cmp : α → α → Bool} (a : List α) (n m : Nat)
    (h : FirstMin cmp a n m) (hc : cmp (deref a n) (deref a m) = false) :
    FirstMin cmp a (n + 1) m := by
  obtain ⟨h1, h2, h3⟩ := h
  refine ⟨by omega, ?_, h3⟩
  intro j hj
  by_cases hjn : j = n
  · rw [hjn]; exact hc
  · exact h2 j (by omega)

theorem lastMax_take [Inhabited α] {cmp : α → α → Bool} (hswo : StrictWeakOrder cmp)
    (a : List α) (n m : Nat) (h : LastMax cmp a n m)
    (hc : cmp (deref a n) (deref a m) = false) : LastMax cmp a (n + 1) n := by
  obtain ⟨h1, h2, h3⟩ := h
  refine ⟨by omega, ?_, fun j hj1 hj2 => by omega⟩
  intro j hj
  by_cases hjn : j = n
  · rw [hjn]; exact hswo.irrefl _
  · exact hswo.neg_trans hc (h2 j (by omega))

theorem lastMax_keep [Inhabited α] {cmp : α → α → Bool} (hswo : StrictWeakOrder cmp)
    (a : List α) (n m : Nat) (h : LastMax cmp a n m)
    (hc : cmp (deref a n) (deref a m) = true) : LastMax cmp a (n + 1) m := by
  obtain ⟨h1, h2, h3⟩ := h
  refine ⟨by omega, ?_, ?_⟩
  · intro j hj
    by_cases hjn : j = n
    · rw [hjn]; exact hswo.asymm hc
    · exact h2 j (by omega)
  · intro j hj1 hj2
    by_cases hjn : j = n
    · rw [hjn]; exact hc
    · exact h3 j hj1 (by omega)

/-- The loop of `minmax_element` keeps the earliest smallest and the latest largest position
of the scanned front `[0, first]`. -/
theorem minmax_element_loop_spec [Inhabited α] {cmp : α → α → Bool}
    (hswo : StrictWeakOrder cmp) (a : List α) :
    ∀ fuel first mn mx, a.length ≤ first + fuel → first < a.length →
      FirstMin cmp a (first + 1) mn → LastMax cmp a (first + 1) mx →
      FirstMin cmp a a.length (minmax_element_loop cmp a fuel first mn mx).1 ∧
      LastMax cmp a a.length (minmax_element_loop cmp a fuel first mn mx).2 := by
  intro fuel
  induction fuel with
  | zero => intro first mn mx hf hl _ _; omega
  | succ f ih =>
    intro first mn mx hf hl hmin hmax
    rw [minmax_element_loop]
    by_cases hne : first + 1 ≠ a.length
    · rw [if_pos hne]
      dsimp only
      have hmxmn : cmp (deref a mx) (deref a mn) = false := hmax.2.1 mn hmin.1
      by_cases hlast : first + 2 = a.length
      · rw [if_pos hlast]
        have hn : a.length = first + 1 + 1 := by omega
        by_cases hc1 : cmp (deref a (first + 1)) (deref a mn) = true
        · rw [if_pos hc1, hn]
          exact ⟨firstMin_take hswo a _ _ hmin hc1,
            lastMax_keep hswo a _ _ hmax (hswo.lt_of_lt_of_le hc1 hmxmn)⟩
        · rw [if_neg hc1]
          have hc1f : cmp (deref a (first + 1)) (deref a mn) = false := by simpa using hc1
          by_cases hc2 : cmp (deref a (first + 1)) (deref a mx) = true
          · rw [hc2]
            simp only [Bool.not_true, Bool.false_eq_true, if_false]
            rw [hn]
            exact ⟨firstMin_keep a _ _ hmin hc1f, lastMax_keep hswo a _ _ hmax hc2⟩
          · have hc2f : cmp (deref a (first + 1)) (deref a mx) = false := by simpa using hc2
            rw [hc2f]
            simp only [Bool.not_false, if_true]
            rw [hn]
            exact ⟨firstMin_keep a _ _ hmin hc1f, lastMax_take hswo a _ _ hmax hc2f⟩
      · rw [if_neg hlast]
        by_cases hp : cmp (deref a (first + 2)) (deref a (first + 1)) = true
        · rw [if_pos hp]
          apply ih (first + 2) _ _ (by omega) (by omega)
          · by_cases hc1 : cmp (deref a (first + 2)) (deref a mn) = true
            · rw [if_pos hc1]
              by_cases hc0 : cmp (deref a (first + 1)) (deref a mn) = true
              · exact firstMin_take hswo a (first + 1 + 1) _
                  (firstMin_take hswo a _ _ hmin hc0) hp
              · exact firstMin_take hswo a (first + 1 + 1) _
                  (firstMin_keep a _ _ hmin (by simpa using hc0)) hc1
            · rw [if_neg hc1]
              have hc1f : cmp (deref a (first + 2)) (deref a mn) = false := by simpa using hc1
              have hc0 : cmp (deref a (first + 1)) (deref a mn) = false := by
                by_contra hcon
                have := hswo.trans _ _ _ hp (by simpa using hcon)
                rw [hc1f] at this
                exact Bool.noConfusion this
              exact firstMin_keep a (first + 1 + 1) _ (firstMin_keep a _ _ hmin hc0) hc1f
          · by_cases hc2 : cmp (deref a (first + 1)) (deref a mx) = true
            · rw [hc2]
              simp only [Bool.not_true, Bool.false_eq_true, if_false]
              exact lastMax_keep hswo a (first + 1 + 1) _ (lastMax_keep hswo a _ _ hmax hc2)
                (hswo.trans _ _ _ hp hc2)
            · have hc2f : cmp (deref a (first + 1)) (deref a mx) = false := by simpa using hc2
              rw [hc2f]
              simp only [Bool.not_false, if_true]
              exact lastMax_keep hswo a (first + 1 + 1) _ (lastMax_take hswo a _ _ hmax hc2f) hp
        · rw [if_neg hp]
          have hpf : cmp (deref a (first + 2)) (deref a (first + 1)) = false := by simpa using hp
          apply ih (first + 2) _ _ (by omega) (by omega)
          · by_cases hc1 : cmp (deref a (first + 1)) (deref a mn) = true
            · rw [if_pos hc1]
              exact firstMin_keep a (first + 1 + 1) _ (firstMin_take hswo a _ _ hmin hc1) hpf
            · rw [if_neg hc1]
              have hc1f : cmp (deref a (first + 1)) (deref a mn) = false := by simpa using hc1
              exact firstMin_keep a (first + 1 + 1) _ (firstMin_keep a _ _ hmin hc1f)
                (hswo.neg_trans hpf hc1f)
          · by_cases hc2 : cmp (deref a (first + 2)) (deref a mx) = true
            · rw [hc2]
              simp only [Bool.not_true, Bool.false_eq_true, if_false]
              exact lastMax_keep hswo a (first + 1 + 1) _
                (lastMax_keep hswo a _ _ hmax (hswo.lt_of_le_of_lt hpf hc2)) hc2
            · have hc2f : cmp (deref a (first + 2)) (deref a mx) = false := by simpa using hc2
              rw [hc2f]
              simp only [Bool.not_false, if_true]
              by_cases hc0 : cmp (deref a (first + 1)) (deref a mx) = true
              · exact lastMax_take hswo a (first + 1 + 1) _
                  (lastMax_keep hswo a _ _ hmax hc0) hc2f
              · exact lastMax_take hswo a (first + 1 + 1) _
                  (lastMax_take hswo a _ _ hmax (by simpa using hc0)) hpf
    · rw [if_neg hne]
      have : a.length = first + 1 := by omega
      rw [this]
      exact ⟨hmin, hmax⟩

/-- C15: for a strict weak ordering and a non-empty range of any length, `minmax_element`
returns the earliest position of a smallest element and the latest position of a largest
element; for an empty or a one-element range it returns `(first, first)`. -/
theorem minmax_element_correct [Inhabited α] (cmp : α → α → Bool)
    (hswo : StrictWeakOrder cmp) (a : List α) (hne : a ≠ []) :
    ((minmax_element cmp a).1 < a.length ∧
      (∀ j, j < a.length → cmp (deref a j) (deref a (minmax_element cmp a).1) = false) ∧
      (∀ j, j < (minmax_element cmp a).1 →
        cmp (deref a (minmax_element cmp a).1) (deref a j) = true)) ∧
    ((minmax_element cmp a).2 < a.length ∧
      (∀ j, j < a.length → cmp (deref a (minmax_element cmp a).2) (deref a j) = false) ∧
      (∀ j, (minmax_element cmp a).2 < j → j < a.length →
        cmp (deref a j) (deref a (minmax_element cmp a).2) = true)) ∧
    minmax_element cmp ([] : List α) = (0, 0) ∧
    (a.length = 1 → minmax_element cmp a = (0, 0)) := by
  have hpos : 0 < a.length := List.length_pos.2 hne
  have hmain : FirstMin cmp a a.length (minmax_element cmp a).1 ∧
      LastMax cmp a a.length (minmax_element cmp a).2 := by
    unfold minmax_element
    rw [if_neg (by omega)]
    by_cases h1 : 1 = a.length
    · rw [if_pos h1, ← h1]
      refine ⟨⟨by omega, ?_, fun j hj => by omega⟩, ⟨by omega, ?_, fun j hj1 hj2 => by omega⟩⟩
      · intro j hj
        have : j = 0 := by omega
        rw [this]; exact hswo.irrefl _
      · intro j hj
        have : j = 0 := by omega
        rw [this]; exact hswo.irrefl _
    · rw [if_neg h1]
      have hmin0 : FirstMin cmp a 1 0 := ⟨by omega, fun j hj => by
        have : j = 0 := by omega
        rw [this]; exact hswo.irrefl _, fun j hj => by omega⟩
      have hmax0 : LastMax cmp a 1 0 := ⟨by omega, fun j hj => by
        have : j = 0 := by omega
        rw [this]; exact hswo.irrefl _, fun j hj1 hj2 => by omega⟩
      by_cases hc : cmp (deref a 1) (deref a 0) = true
      · rw [if_pos hc]
        exact minmax_element_loop_spec hswo a a.length 1 1 0 (by omega) (by omega)
          (firstMin_take hswo a 1 0 hmin0 hc) (lastMax_keep hswo a 1 0 hmax0 hc)
      · rw [if_neg hc]
        have hcf : cmp (deref a 1) (deref a 0) = false := by simpa using hc
        exact minmax_element_loop_spec hswo a a.length 1 0 1 (by omega) (by omega)
          (firstMin_keep a 1 0 hmin0 hcf) (lastMax_take hswo a 1 0 hmax0 hcf)
  refine ⟨hmain.1, hmain.2, rfl, ?_⟩
  intro h1
  unfold minmax_element
  rw [if_neg (by omega), if_pos h1.symm]

theorem minmax_element_correct_witness :
    ([2, 1, 3, 1, 3] : List Int) ≠ [] ∧
      (minmax_element less ([2, 1, 3, 1, 3] : List Int)).1 < 5 :=
  ⟨by decide, (minmax_element_correct less less_int_swo [2, 1, 3, 1, 3] (by decide)).1.1⟩

end TinySTL

namespace TinySTL

variable {α : Type}

/-! ## Predicates that throw

Each routine with a throwing comparison either completes with the result of the routine for
the comparison `orFalse cmp`, or stops with contents that differ from a permutation of its
input in at most the hole of the interrupted insertion or sift. -/

theorem nearPerm_of_perm [Inhabited α] {e a : List α} (h : e.Perm a) : NearPerm e a :=
  ⟨h.length_eq, e.length, default, by rw [List.set_eq_of_length_le (Nat.le_refl _)]; exact h⟩

theorem NearPerm.trans_perm {e a b : List α} (h : NearPerm e a) (hp : a.Perm b) :
    NearPerm e b := by
  obtain ⟨h1, hole, v, h2⟩ := h
  exact ⟨by rw [h1, hp.length_eq], hole, v, h2.trans hp⟩

theorem NearPerm.append_right [Inhabited α] {e a : List α} (h : NearPerm e a) (r : List α) :
    NearPerm (e ++ r) (a ++ r) := by
  obtain ⟨h1, hole, v, h2⟩ := h
  refine ⟨by simp [h1], ?_⟩
  by_cases hh : hole < e.length
  · exact ⟨hole, v, by rw [List.set_append_left _ _ hh]; exact h2.append_right r⟩
  · rw [List.set_eq_of_length_le (by omega)] at h2
    exact (nearPerm_of_perm (h2.append_right r)).2

theorem NearPerm.append_left [Inhabited α] {e a : List α} (h : NearPerm e a) (l : List α) :
    NearPerm (l ++ e) (l ++ a) := by
  obtain ⟨h1, hole, v, h2⟩ := h
  refine ⟨by simp [h1], l.length + hole, v, ?_⟩
  rw [List.set_append_right _ _ (by omega)]
  rw [show l.length + hole - l.length = hole by omega]
  exact h2.append_left l

theorem _Push_heap_loop_ex_spec [Inhabited α] (cmp : α → α → Option Bool) (top : Nat)
    (val : α) :
    ∀ fuel (a : List α) hole, hole < a.length →
      (∀ out, _Push_heap_loop_ex cmp top val fuel a hole = Except.ok out →
        out = _Push_heap_loop (orFalse cmp) top val fuel a hole) ∧
      (∀ e, _Push_heap_loop_ex cmp top val fuel a hole = Except.error e →
        e.length = a.length ∧ ∃ h, (e.set h val).Perm (a.set hole val)) := by
  intro fuel
  induction fuel with
  | zero =>
    intro a hole hh
    rw [_Push_heap_loop_ex, _Push_heap_loop]
    exact ⟨fun out h => by injection h with h; exact h.symm, fun e h => by injection h⟩
  | succ f ih =>
    intro a hole hh
    rw [_Push_heap_loop_ex, _Push_heap_loop]
    by_cases htop : top < hole
    · rw [if_pos htop]
      have hi : (hole - 1) / 2 < a.length := by omega
      cases hcmp : cmp (deref a ((hole - 1) / 2)) val with
      | none =>
        dsimp only
        refine ⟨fun out h => by injection h, fun e h => ?_⟩
        injection h with h
        subst h
        exact ⟨rfl, hole, List.Perm.refl _⟩
      | some b =>
        have hor : orFalse cmp (deref a ((hole - 1) / 2)) val = b := by
          unfold orFalse; rw [hcmp]; rfl
        cases b with
        | true =>
          dsimp only
          rw [hor]
          simp only [htop, decide_True, Bool.and_self, if_true]
          obtain ⟨i1, i2⟩ := ih (a.set hole (deref a ((hole - 1) / 2))) ((hole - 1) / 2)
            (by simpa using hi)
          refine ⟨i1, fun e h => ?_⟩
          obtain ⟨e1, h2, e2⟩ := i2 e h
          exact ⟨by simpa using e1, h2,
            e2.trans (hole_move_perm a hole _ val hh hi (by omega))⟩
        | false =>
          dsimp only
          rw [hor]
          simp only [Bool.and_false, Bool.false_eq_true, if_false]
          exact ⟨fun out h => by injection h with h; exact h.symm, fun e h => by injection h⟩
    · rw [if_neg htop]
      simp only [htop, decide_False, Bool.false_and, Bool.false_eq_true, if_false]
      exact ⟨fun out h => by injection h with h; exact h.symm, fun e h => by injection h⟩

theorem _Adjust_heap_ex_spec [Inhabited α] [LT α] [DecidableRel (fun x y : α => x < y)]
    (cmp : α → α → Option Bool) (a : List α) (hole len : Nat) (val : α)
    (hlen : len ≤ a.length) (hh : hole < a.length) :
    (∀ out, _Adjust_heap_ex cmp a hole len val = Except.ok out →
      out = _Adjust_heap (orFalse cmp) a hole len val) ∧
    (∀ e, _Adjust_heap_ex cmp a hole len val = Except.error e →
      e.length = a.length ∧ ∃ h, (e.set h val).Perm (a.set hole val)) := by
  obtain ⟨i1, i2, i3, i4, i5, -⟩ := _Adjust_heap_loop_basic len len a hole hlen hh
  unfold _Adjust_heap_ex _Adjust_heap _Push_heap_ex _Push_heap
  dsimp only
  generalize _Adjust_heap_loop len len a hole (hole * 2 + 2) = r at i1 i2 i3 i4 i5
  obtain ⟨a1, h1, rc1⟩ := r
  simp only at i1 i2 i3 i4 i5 ⊢
  have hh1 : h1 < a1.length := by
    rcases i4 with h | h
    · rw [h, i1]; exact hh
    · rw [i1]; omega
  by_cases heq : rc1 = len
  · rw [if_pos heq, if_pos heq]
    have hl1 : rc1 - 1 < a1.length := by rw [i1]; omega
    obtain ⟨s1, s2⟩ := _Push_heap_loop_ex_spec cmp hole val (rc1 - 1)
      (a1.set h1 (deref a1 (rc1 - 1))) (rc1 - 1) (by simpa using hl1)
    refine ⟨s1, fun e h => ?_⟩
    obtain ⟨e1, h2, e2⟩ := s2 e h
    exact ⟨by rw [e1, List.length_set, i1], h2,
      (e2.trans (hole_move_perm a1 h1 (rc1 - 1) val hh1 hl1 (by omega))).trans (i5 val)⟩
  · rw [if_neg heq, if_neg heq]
    obtain ⟨s1, s2⟩ := _Push_heap_loop_ex_spec cmp hole val h1 a1 h1 hh1
    refine ⟨s1, fun e h => ?_⟩
    obtain ⟨e1, h2, e2⟩ := s2 e h
    exact ⟨by rw [e1, i1], h2, e2.trans (i5 val)⟩

theorem push_heap_ex_spec [Inhabited α] (cmp : α → α → Option Bool) (a : List α) :
    (∀ out, push_heap_ex cmp a = Except.ok out → out = push_heap (orFalse cmp) a) ∧
    (∀ e, push_heap_ex cmp a = Except.error e → NearPerm e a) := by
  unfold push_heap_ex push_heap _Push_heap_ex _Push_heap
  dsimp only
  by_cases h2 : a.length ≥ 2
  · rw [if_pos h2, if_pos h2]
    obtain ⟨s1, s2⟩ := _Push_heap_loop_ex_spec cmp 0 (deref a (a.length - 1)) (a.length - 1) a
      (a.length - 1) (by omega)
    refine ⟨s1, fun e h => ?_⟩
    obtain ⟨e1, hole, e2⟩ := s2 e h
    rw [set_deref_self] at e2
    exact ⟨e1, hole, _, e2⟩
  · rw [if_neg h2, if_neg h2]
    exact ⟨fun out h => by injection h with h; exact h.symm, fun e h => by injection h⟩

theorem pop_heap_ex_spec [Inhabited α] [LT α] [DecidableRel (fun x y : α => x < y)]
    (cmp : α → α → Option Bool) (a : List α) (hne : a ≠ []) :
    (∀ out, pop_heap_ex cmp a = Except.ok out → out = pop_heap (orFalse cmp) a) ∧
    (∀ e, pop_heap_ex cmp a = Except.error e → NearPerm e a) := by
  have hpos : 0 < a.length := List.length_pos.2 hne
  unfold pop_heap_ex pop_heap _Pop_heap
  dsimp only
  obtain ⟨s1, s2⟩ := _Adjust_heap_ex_spec cmp (a.set (a.length - 1) (deref a 0)) 0
    (a.length - 1) (deref a (a.length - 1)) (by simp) (by simpa using hpos)
  refine ⟨s1, fun e h => ?_⟩
  obtain ⟨e1, hole, e2⟩ := s2 e h
  exact ⟨by simpa using e1, hole, _, e2.trans (swap_perm a (a.length - 1) 0 (by omega) hpos)⟩

theorem make_heap_loop_ex_spec [Inhabited α] [LT α] [DecidableRel (fun x y : α => x < y)]
    (cmp : α → α → Option Bool) (len : Nat) :
    ∀ parent (a : List α), len ≤ a.length → parent < a.length →
      (∀ out, make_heap_loop_ex cmp len parent a = Except.ok out →
        out = make_heap_loop (orFalse cmp) len parent a) ∧
      (∀ e, make_heap_loop_ex cmp len parent a = Except.error e → NearPerm e a) := by
  intro parent
  induction parent with
  | zero =>
    intro a hlen hp
    rw [make_heap_loop_ex, make_heap_loop]
    obtain ⟨s1, s2⟩ := _Adjust_heap_ex_spec cmp a 0 len (deref a 0) hlen hp
    refine ⟨s1, fun e h => ?_⟩
    obtain ⟨e1, hole, e2⟩ := s2 e h
    rw [set_deref_self] at e2
    exact ⟨e1, hole, _, e2⟩
  | succ p ih =>
    intro a hlen hp
    rw [make_heap_loop_ex, make_heap_loop]
    obtain ⟨s1, s2⟩ := _Adjust_heap_ex_spec cmp a (p + 1) len (deref a (p + 1)) hlen hp
    cases hadj : _Adjust_heap_ex cmp a (p + 1) len (deref a (p + 1)) with
    | error e0 =>
      dsimp only
      refine ⟨fun out h => by injection h, fun e h => ?_⟩
      injection h with h
      subst h
      obtain ⟨e1, hole, e2⟩ := s2 e0 hadj
      rw [set_deref_self] at e2
      exact ⟨e1, hole, _, e2⟩
    | ok a1 =>
      dsimp only
      have ha1 := s1 a1 hadj
      have hl := _Adjust_heap_length (orFalse cmp) a (p + 1) len (deref a (p + 1)) hlen hp
      have hperm := _Adjust_heap_perm (orFalse cmp) a (p + 1) len (deref a (p + 1)) hlen hp
      rw [set_deref_self] at hperm
      rw [← ha1] at hl hperm ⊢
      obtain ⟨t1, t2⟩ := ih a1 (by rw [hl]; exact hlen) (by rw [hl]; omega)
      exact ⟨t1, fun e h => (t2 e h).trans_perm hperm⟩

theorem make_heap_ex_spec [Inhabited α] [LT α] [DecidableRel (fun x y : α => x < y)]
    (cmp : α → α → Option Bool) (a : List α) :
    (∀ out, make_heap_ex cmp a = Except.ok out → out = make_heap (orFalse cmp) a) ∧
    (∀ e, make_heap_ex cmp a = Except.error e → NearPerm e a) := by
  unfold make_heap_ex make_heap
  by_cases h2 : a.length < 2
  · rw [if_pos h2, if_pos h2]
    exact ⟨fun out h => by injection h with h; exact h.symm, fun e h => by injection h⟩
  · rw [if_neg h2, if_neg h2]
    exact make_heap_loop_ex_spec cmp a.length _ a (Nat.le_refl _) (by omega)

theorem _Insert_sort_inner_ex_spec [Inhabited α] (cmp : α → α → Option Bool) (key : α) :
    ∀ j (a : List α), j < a.length →
      (∀ r, _Insert_sort_inner_ex cmp key j a = Except.ok r →
        r = _Insert_sort_inner (orFalse cmp) key j a) ∧
      (∀ e, _Insert_sort_inner_ex cmp key j a = Except.error e →
        e.length = a.length ∧ ∃ h, (e.set h key).Perm (a.set j key)) := by
  intro j
  induction j with
  | zero =>
    intro a ha
    rw [_Insert_sort_inner_ex, _Insert_sort_inner]
    exact ⟨fun out h => by injection h with h; exact h.symm, fun e h => by injection h⟩
  | succ j ih =>
    intro a ha
    rw [_Insert_sort_inner_ex, _Insert_sort_inner]
    cases hcmp : cmp key (deref a j) with
    | none =>
      dsimp only
      refine ⟨fun out h => by injection h, fun e h => ?_⟩
      injection h with h
      subst h
      exact ⟨rfl, j + 1, List.Perm.refl _⟩
    | some b =>
      have hor : orFalse cmp key (deref a j) = b := by
        unfold orFalse; rw [hcmp]; rfl
      cases b with
      | true =>
        dsimp only
        rw [hor]
        simp only [if_true]
        obtain ⟨i1, i2⟩ := ih (a.set (j + 1) (deref a j)) (by simp; omega)
        refine ⟨i1, fun e h => ?_⟩
        obtain ⟨e1, h2, e2⟩ := i2 e h
        exact ⟨by simpa using e1, h2,
          e2.trans (hole_move_perm a (j + 1) j key ha (by omega) (by omega))⟩
      | false =>
        dsimp only
        rw [hor]
        simp only [Bool.false_eq_true, if_false]
        exact ⟨fun out h => by injection h with h; exact h.symm, fun e h => by injection h⟩

theorem _Insert_sort_outer_ex_spec [Inhabited α] (cmp : α → α → Option Bool) :
    ∀ fuel (a : List α) i, i ≤ a.length →
      (∀ out, _Insert_sort_outer_ex cmp fuel a i = Except.ok out →
        out = _Insert_sort_outer (orFalse cmp) fuel a i) ∧
      (∀ e, _Insert_sort_outer_ex cmp fuel a i = Except.error e → NearPerm e a) := by
  intro fuel
  induction fuel with
  | zero =>
    intro a i hi
    rw [_Insert_sort_outer_ex, _Insert_sort_outer]
    exact ⟨fun out h => by injection h with h; exact h.symm, fun e h => by injection h⟩
  | succ f ih =>
    intro a i hi
    rw [_Insert_sort_outer_ex, _Insert_sort_outer]
    by_cases hne : i ≠ a.length
    · rw [if_pos hne, if_pos hne]
      dsimp only
      obtain ⟨s1, s2⟩ := _Insert_sort_inner_ex_spec cmp (deref a i) i a (by omega)
      cases hin : _Insert_sort_inner_ex cmp (deref a i) i a with
      | error e0 =>
        dsimp only
        refine ⟨fun out h => by injection h, fun e h => ?_⟩
        injection h with h
        subst h
        obtain ⟨e1, hole, e2⟩ := s2 e0 hin
        rw [set_deref_self] at e2
        exact ⟨e1, hole, _, e2⟩
      | ok r =>
        dsimp only
        have hr := s1 r hin
        obtain ⟨-, i2, -, -, -, i6⟩ :=
          _Insert_sort_inner_spec (orFalse cmp) (deref a i) i a (by omega)
        rw [set_deref_self] at i6
        rw [← hr] at i2 i6 ⊢
        have hl : (r.1.set r.2 (deref a i)).length = a.length := by
          rw [List.length_set, i2]
        obtain ⟨t1, t2⟩ := ih (r.1.set r.2 (deref a i)) (i + 1) (by rw [hl]; omega)
        exact ⟨t1, fun e h => (t2 e h).trans_perm i6⟩
    · rw [if_neg hne, if_neg hne]
      exact ⟨fun out h => by injection h with h; exact h.symm, fun e h => by injection h⟩

theorem _Insert_sort_ex_spec [Inhabited α] (cmp : α → α → Option Bool) (a : List α) :
    (∀ out, _Insert_sort_ex cmp a = Except.ok out → out = _Insert_sort (orFalse cmp) a) ∧
    (∀ e, _Insert_sort_ex cmp a = Except.error e → NearPerm e a) := by
  unfold _Insert_sort_ex _Insert_sort
  by_cases h0 : a.length = 0
  · rw [if_pos h0, if_pos h0]
    exact ⟨fun out h => by injection h with h; exact h.symm, fun e h => by injection h⟩
  · rw [if_neg h0, if_neg h0]
    exact _Insert_sort_outer_ex_spec cmp a.length a 1 (by omega)

theorem _Partition_loop_ex_spec [Inhabited α] (cmp : α → α → Option Bool) (key : α)
    (lastm1 : Nat) :
    ∀ fuel (a : List α) i j, i ≤ j → lastm1 < a.length →
      (∀ r, _Partition_loop_ex cmp key lastm1 fuel a i j = Except.ok r →
        r = _Partition_loop (orFalse cmp) key lastm1 fuel a i j) ∧
      (∀ e, _Partition_loop_ex cmp key lastm1 fuel a i j = Except.error e → e.Perm a) := by
  intro fuel
  induction fuel with
  | zero =>
    intro a i j hij hl
    rw [_Partition_loop_ex, _Partition_loop]
    exact ⟨fun out h => by injection h with h; exact h.symm, fun e h => by injection h⟩
  | succ f ih =>
    intro a i j hij hl
    rw [_Partition_loop_ex, _Partition_loop]
    by_cases hjl : j < lastm1
    · rw [if_pos hjl, if_pos hjl]
      cases hcmp : cmp (deref a j) key with
      | none =>
        dsimp only
        refine ⟨fun out h => by injection h, fun e h => ?_⟩
        injection h with h
        subst h
        exact List.Perm.refl _
      | some b =>
        have hor : orFalse cmp (deref a j) key = b := by
          unfold orFalse; rw [hcmp]; rfl
        cases b with
        | true =>
          dsimp only
          rw [hor]
          simp only [if_true]
          obtain ⟨i1, i2⟩ := ih (iter_swap a i j) (i + 1) (j + 1) (by omega)
            (by rw [iter_swap_length]; exact hl)
          exact ⟨i1, fun e h => (i2 e h).trans (iter_swap_perm a i j (by omega) (by omega))⟩
        | false =>
          dsimp only
          rw [hor]
          simp only [Bool.false_eq_true, if_false]
          exact ih a i (j + 1) (by omega) hl
    · rw [if_neg hjl, if_neg hjl]
      exact ⟨fun out h => by injection h with h; exact h.symm, fun e h => by injection h⟩

theorem _Partition_ex_spec [Inhabited α] (cmp : α → α → Option Bool) (a : List α)
    (g : Nat → Nat) (hlen : 1 ≤ a.length) :
    (∀ p, _Partition_ex cmp a g = Except.ok p → p = _Partition (orFalse cmp) a g) ∧
    (∀ e, _Partition_ex cmp a g = Except.error e → e.Perm a) := by
  have hrp : (_Get_random g a.length).1 < a.length := by
    unfold _Get_random
    exact Nat.mod_lt _ (by omega)
  unfold _Partition_ex _Partition
  dsimp only
  obtain ⟨s1, s2⟩ := _Partition_loop_ex_spec cmp
    (deref (iter_swap a (_Get_random g a.length).1 (a.length - 1))
      ((iter_swap a (_Get_random g a.length).1 (a.length - 1)).length - 1))
    ((iter_swap a (_Get_random g a.length).1 (a.length - 1)).length - 1)
    (iter_swap a (_Get_random g a.length).1 (a.length - 1)).length
    (iter_swap a (_Get_random g a.length).1 (a.length - 1)) 0 0 (Nat.le_refl _)
    (by rw [iter_swap_length]; omega)
  cases hloop : _Partition_loop_ex cmp
    (deref (iter_swap a (_Get_random g a.length).1 (a.length - 1))
      ((iter_swap a (_Get_random g a.length).1 (a.length - 1)).length - 1))
    ((iter_swap a (_Get_random g a.length).1 (a.length - 1)).length - 1)
    (iter_swap a (_Get_random g a.length).1 (a.length - 1)).length
    (iter_swap a (_Get_random g a.length).1 (a.length - 1)) 0 0 with
  | error e0 =>
    dsimp only
    refine ⟨fun out h => by injection h, fun e h => ?_⟩
    injection h with h
    subst h
    exact (s2 e0 hloop).trans (iter_swap_perm a _ _ hrp (by omega))
  | ok r =>
    dsimp only
    have hr := s1 r hloop
    refine ⟨fun p h => ?_, fun e h => by injection h⟩
    injection h with h
    rw [← h, hr]

theorem _Quick_sort_finish_ex_spec [Inhabited α] [LT α] [DecidableRel (fun x y : α => x < y)]
    (cmp : α → α → Option Bool) (count : Nat) (cur : List α) :
    (∀ out, _Quick_sort_finish_ex cmp count cur = Except.ok out →
      out = _Quick_sort_finish (orFalse cmp) count cur) ∧
    (∀ e, _Quick_sort_finish_ex cmp count cur = Except.error e → NearPerm e cur) := by
  unfold _Quick_sort_finish_ex _Quick_sort_finish
  by_cases h1 : count > _INSERT_SORT_MAX
  · rw [if_pos h1, if_pos h1]
    obtain ⟨s1, s2⟩ := make_heap_ex_spec cmp cur
    cases hmk : make_heap_ex cmp cur with
    | error e0 =>
      dsimp only
      refine ⟨fun out h => by injection h, fun e h => ?_⟩
      injection h with h
      subst h
      exact s2 e0 hmk
    | ok hp =>
      dsimp only
      have := s1 hp hmk
      unfold sort_heap_ex sort_heap
      refine ⟨fun out h => ?_, fun e h => by injection h⟩
      injection h with h
      rw [← h, this]
  · rw [if_neg h1, if_neg h1]
    by_cases h2 : count ≥ 2
    · rw [if_pos h2, if_pos h2]
      exact _Insert_sort_ex_spec cmp cur
    · rw [if_neg h2, if_neg h2]
      exact ⟨fun out h => by injection h with h; exact h.symm, fun e h => by injection h⟩

theorem _Quick_sort_ex_spec [Inhabited α] [LT α] [DecidableRel (fun x y : α => x < y)]
    (cmp : α → α → Option Bool) :
    ∀ fuel (a : List α) diff g,
      (∀ r, _Quick_sort_ex cmp fuel a diff g = Except.ok r →
        r = _Quick_sort (orFalse cmp) fuel a diff g) ∧
      (∀ e, _Quick_sort_ex cmp fuel a diff g = Except.error e → NearPerm e a) := by
  intro fuel
  induction fuel with
  | zero =>
    intro a diff g
    rw [_Quick_sort_ex, _Quick_sort]
    obtain ⟨s1, s2⟩ := _Quick_sort_finish_ex_spec cmp a.length a
    cases hfin : _Quick_sort_finish_ex cmp a.length a with
    | error e0 =>
      dsimp only
      refine ⟨fun out h => by injection h, fun e h => ?_⟩
      injection h with h
      subst h
      exact s2 e0 hfin
    | ok s =>
      dsimp only
      refine ⟨fun r h => ?_, fun e h => by injection h⟩
      injection h with h
      rw [← h, s1 s hfin]
  | succ f ih =>
    intro a diff g
    rw [_Quick_sort_ex, _Quick_sort]
    dsimp only
    by_cases hc : (decide (a.length > _INSERT_SORT_MAX) && decide (diff > 0)) = true
    · rw [if_pos hc, if_pos hc]
      have hlen : 1 ≤ a.length := by
        simp only [Bool.and_eq_true, decide_eq_true_eq] at hc
        have := hc.1
        unfold _INSERT_SORT_MAX at this
        omega
      obtain ⟨p1, p2⟩ := _Partition_ex_spec cmp a g hlen
      obtain ⟨-, -, -, -, -, -, pperm⟩ := _Partition_spec (orFalse cmp) a g hlen
      cases hpart : _Partition_ex cmp a g with
      | error e0 =>
        dsimp only
        refine ⟨fun out h => by injection h, fun e h => ?_⟩
        injection h with h
        subst h
        exact nearPerm_of_perm (p2 e0 hpart)
      | ok p =>
        dsimp only
        have hp := p1 p hpart
        rw [← hp] at pperm ⊢
        obtain ⟨l1, l2⟩ := ih (p.1.take p.2.1) (diff >>> 1 + diff >>> 2) p.2.2
        have hsplit := split_at_pivot p.1 p.2.1
        cases hl : _Quick_sort_ex cmp f (p.1.take p.2.1) (diff >>> 1 + diff >>> 2) p.2.2 with
        | error e0 =>
          dsimp only
          refine ⟨fun out h => by injection h, fun e h => ?_⟩
          injection h with h
          subst h
          have := (l2 e0 hl).append_right (p.1.drop p.2.1)
          rw [List.take_append_drop] at this
          exact this.trans_perm pperm
        | ok l =>
          dsimp only
          have hlv := l1 l hl
          have hlperm : l.1.Perm (p.1.take p.2.1) := by
            rw [hlv]; exact _Quick_sort_perm (orFalse cmp) f _ _ _
          rw [← hlv]
          obtain ⟨r1, r2⟩ := ih (p.1.drop (p.2.1 + 1)) (diff >>> 1 + diff >>> 2) l.2
          cases hr : _Quick_sort_ex cmp f (p.1.drop (p.2.1 + 1))
              (diff >>> 1 + diff >>> 2) l.2 with
          | error e0 =>
            dsimp only
            refine ⟨fun out h => by injection h, fun e h => ?_⟩
            injection h with h
            subst h
            have h1 := (r2 e0 hr).append_left (l.1 ++ (p.1.drop p.2.1).take 1)
            have h2 : (l.1 ++ (p.1.drop p.2.1).take 1 ++ p.1.drop (p.2.1 + 1)).Perm p.1 := by
              have := (hlperm.append_right ((p.1.drop p.2.1).take 1)).append_right
                (p.1.drop (p.2.1 + 1))
              rwa [hsplit] at this
            exact h1.trans_perm (h2.trans pperm)
          | ok r =>
            dsimp only
            have hrv := r1 r hr
            have hrperm : r.1.Perm (p.1.drop (p.2.1 + 1)) := by
              rw [hrv]; exact _Quick_sort_perm (orFalse cmp) f _ _ _
            rw [← hrv]
            obtain ⟨f1, f2⟩ := _Quick_sort_finish_ex_spec cmp a.length
              ((p.1.drop p.2.1).take 1)
            cases hfin : _Quick_sort_finish_ex cmp a.length ((p.1.drop p.2.1).take 1) with
            | error e0 =>
              dsimp only
              refine ⟨fun out h => by injection h, fun e h => ?_⟩
              injection h with h
              subst h
              have h1 := ((f2 e0 hfin).append_left l.1).append_right r.1
              have h2 : (l.1 ++ (p.1.drop p.2.1).take 1 ++ r.1).Perm p.1 := by
                have := (hlperm.append_right ((p.1.drop p.2.1).take 1)).append hrperm
                rwa [hsplit] at this
              exact h1.trans_perm (h2.trans pperm)
            | ok c =>
              dsimp only
              refine ⟨fun out h => ?_, fun e h => by injection h⟩
              injection h with h
              rw [← h, f1 c hfin]
    · rw [if_neg hc, if_neg hc]
      obtain ⟨s1, s2⟩ := _Quick_sort_finish_ex_spec cmp a.length a
      cases hfin : _Quick_sort_finish_ex cmp a.length a with
      | error e0 =>
        dsimp only
        refine ⟨fun out h => by injection h, fun e h => ?_⟩
        injection h with h
        subst h
        exact s2 e0 hfin
      | ok s =>
        dsimp only
        refine ⟨fun r h => ?_, fun e h => by injection h⟩
        injection h with h
        rw [← h, s1 s hfin]

theorem sort_ex_spec [Inhabited α] [LT α] [DecidableRel (fun x y : α => x < y)]
    (cmp : α → α → Option Bool) (a : List α) (g : Nat → Nat) :
    (∀ r, sort_ex cmp a g = Except.ok r → r = sort (orFalse cmp) a g) ∧
    (∀ e, sort_ex cmp a g = Except.error e → NearPerm e a) := by
  unfold sort_ex sort
  by_cases h : (a.length : Int) - 1 > 0
  · rw [if_pos h, if_pos h]
    exact _Quick_sort_ex_spec cmp a.length a a.length g
  · rw [if_neg h, if_neg h]
    exact ⟨fun out h => by injection h with h; exact h.symm, fun e h => by injection h⟩

/-- C19 as stated fails: with a less-than that throws when called with `(5, 9)`, `push_heap`
on `[5, 4, 3, 9]` is left by the exception with the contents `[5, 4, 3, 4]`, and with one
that throws when called with `(4, 5)`, `sort` on `[9, 5, 4]` is left with `[5, 9, 9]`:
neither is a permutation of the original elements. -/
theorem throwing_predicate_loses_element :
    push_heap_ex (lessThrowAt 5 9) [5, 4, 3, 9] = Except.error [5, 4, 3, 4] ∧
    ¬ ([5, 4, 3, 4] : List Int).Perm [5, 4, 3, 9] ∧
    (∀ g, (sort_ex (lessThrowAt 4 5) [9, 5, 4] g) = Except.error [5, 9, 9]) ∧
    ¬ ([5, 9, 9] : List Int).Perm [9, 5, 4] :=
  ⟨rfl, by decide, fun _ => rfl, by decide⟩

/-- C19 amended: when the predicate throws during `sort`, `make_heap`, `push_heap` or
`pop_heap` (the latter on a non-empty range), the exception reaches the caller and the
contents of the range at that moment have the original length and differ from a permutation
of the original elements in at most one position; `sort_heap` never calls the predicate; and
a call that completes returns what the routine returns for a predicate that does not throw,
a permutation of the original elements. -/
theorem throwing_predicate_near_perm [Inhabited α] [LT α]
    [DecidableRel (fun x y : α => x < y)] (cmp : α → α → Option Bool) (a : List α)
    (g : Nat → Nat) :
    (∀ e, sort_ex cmp a g = Except.error e → NearPerm e a) ∧
    (∀ e, make_heap_ex cmp a = Except.error e → NearPerm e a) ∧
    (∀ e, push_heap_ex cmp a = Except.error e → NearPerm e a) ∧
    (a ≠ [] → ∀ e, pop_heap_ex cmp a = Except.error e → NearPerm e a) ∧
    (∀ e, sort_heap_ex cmp a ≠ Except.error e) ∧
    (∀ r, sort_ex cmp a g = Except.ok r → r = sort (orFalse cmp) a g ∧ r.1.Perm a) ∧
    (∀ r, make_heap_ex cmp a = Except.ok r → r = make_heap (orFalse cmp) a ∧ r.Perm a) ∧
    (∀ r, push_heap_ex cmp a = Except.ok r → r = push_heap (orFalse cmp) a ∧ r.Perm a) ∧
    (a ≠ [] → ∀ r, pop_heap_ex cmp a = Except.ok r →
      r = pop_heap (orFalse cmp) a ∧ r.Perm a) ∧
    (∀ r, sort_heap_ex cmp a = Except.ok r → r = sort_heap (orFalse cmp) a ∧ r.Perm a) := by
  refine ⟨(sort_ex_spec cmp a g).2, (make_heap_ex_spec cmp a).2, (push_heap_ex_spec cmp a).2,
    fun hne => (pop_heap_ex_spec cmp a hne).2, ?_, ?_, ?_, ?_, ?_, ?_⟩
  · intro e h
    unfold sort_heap_ex at h
    injection h
  · intro r h
    have := (sort_ex_spec cmp a g).1 r h
    exact ⟨this, by rw [this]; exact sort_perm _ a g⟩
  · intro r h
    have := (make_heap_ex_spec cmp a).1 r h
    exact ⟨this, by rw [this]; exact make_heap_perm _ a⟩
  · intro r h
    have := (push_heap_ex_spec cmp a).1 r h
    exact ⟨this, by rw [this]; exact push_heap_perm _ a⟩
  · intro hne r h
    have := (pop_heap_ex_spec cmp a hne).1 r h
    exact ⟨this, by rw [this]; exact pop_heap_perm _ a hne⟩
  · intro r h
    unfold sort_heap_ex at h
    injection h with h
    have hr : r = sort_heap (orFalse cmp) a := by rw [← h]; rfl
    exact ⟨hr, by rw [hr]; exact sort_heap_perm _ a⟩

theorem throwing_predicate_near_perm_witness :
    ([9, 5, 4, 3] : List Int) ≠ [] ∧
      pop_heap_ex (lessThrowAt 5 3) [9, 5, 4, 3] = Except.error [5, 5, 4, 9] ∧
      NearPerm ([5, 5, 4, 9] : List Int) [9, 5, 4, 3] :=
  ⟨by decide, rfl, (throwing_predicate_near_perm (lessThrowAt 5 3) [9, 5, 4, 3]
    (fun n => n)).2.2.2.1 (by decide) [5, 5, 4, 9] rfl⟩

end TinySTL

namespace TinySTL

variable {α : Type}

/-! ## Predicates that never throw

With a comparison that always returns, the routines of the throwing model complete with the
result of the plain routines. -/

theorem _Push_heap_loop_ex_total [Inhabited α] (c : α → α → Bool) (top : Nat) (val : α) :
    ∀ fuel (a : List α) hole,
      _Push_heap_loop_ex (fun x y => some (c x y)) top val fuel a hole =
        Except.ok (_Push_heap_loop c top val fuel a hole) := by
  intro fuel
  induction fuel with
  | zero => intro a hole; rw [_Push_heap_loop_ex, _Push_heap_loop]
  | succ f ih =>
    intro a hole
    rw [_Push_heap_loop_ex, _Push_heap_loop]
    by_cases htop : top < hole
    · rw [if_pos htop]
      cases hc : c (deref a ((hole - 1) / 2)) val with
      | true =>
        simp only [htop, decide_True, Bool.and_self, if_true]
        exact ih _ _
      | false =>
        simp only [Bool.and_false, Bool.false_eq_true, if_false]
    · rw [if_neg htop]
      simp only [htop, decide_False, Bool.false_and, Bool.false_eq_true, if_false]

theorem _Adjust_heap_ex_total [Inhabited α] [LT α] [DecidableRel (fun x y : α => x < y)]
    (c : α → α → Bool) (a : List α) (hole len : Nat) (val : α) :
    _Adjust_heap_ex (fun x y => some (c x y)) a hole len val =
      Except.ok (_Adjust_heap c a hole len val) := by
  unfold _Adjust_heap_ex _Adjust_heap _Push_heap_ex _Push_heap
  dsimp only
  split_ifs <;> exact _Push_heap_loop_ex_total c _ _ _ _ _

theorem push_heap_ex_total [Inhabited α] (c : α → α → Bool) (a : List α) :
    push_heap_ex (fun x y => some (c x y)) a = Except.ok (push_heap c a) := by
  unfold push_heap_ex push_heap _Push_heap_ex _Push_heap
  dsimp only
  split_ifs
  · exact _Push_heap_loop_ex_total c _ _ _ _ _
  · rfl

theorem pop_heap_ex_total [Inhabited α] [LT α] [DecidableRel (fun x y : α => x < y)]
    (c : α → α → Bool) (a : List α) :
    pop_heap_ex (fun x y => some (c x y)) a = Except.ok (pop_heap c a) := by
  unfold pop_heap_ex pop_heap _Pop_heap
  exact _Adjust_heap_ex_total c _ _ _ _

theorem make_heap_loop_ex_total [Inhabited α] [LT α] [DecidableRel (fun x y : α => x < y)]
    (c : α → α → Bool) (len : Nat) :
    ∀ parent (a : List α), make_heap_loop_ex (fun x y => some (c x y)) len parent a =
      Except.ok (make_heap_loop c len parent a) := by
  intro parent
  induction parent with
  | zero =>
    intro a
    rw [make_heap_loop_ex, make_heap_loop]
    exact _Adjust_heap_ex_total c _ _ _ _
  | succ p ih =>
    intro a
    rw [make_heap_loop_ex, make_heap_loop, _Adjust_heap_ex_total]
    exact ih _

theorem make_heap_ex_total [Inhabited α] [LT α] [DecidableRel (fun x y : α => x < y)]
    (c : α → α → Bool) (a : List α) :
    make_heap_ex (fun x y => some (c x y)) a = Except.ok (make_heap c a) := by
  unfold make_heap_ex make_heap
  split_ifs
  · rfl
  · exact make_heap_loop_ex_total c _ _ _

theorem _Insert_sort_inner_ex_total [Inhabited α] (c : α → α → Bool) (key : α) :
    ∀ j (a : List α), _Insert_sort_inner_ex (fun x y => some (c x y)) key j a =
      Except.ok (_Insert_sort_inner c key j a) := by
  intro j
  induction j with
  | zero => intro a; rw [_Insert_sort_inner_ex, _Insert_sort_inner]
  | succ j ih =>
    intro a
    rw [_Insert_sort_inner_ex, _Insert_sort_inner]
    cases hc : c key (deref a j) with
    | true =>
      simp only [if_true]
      exact ih _
    | false =>
      simp only [Bool.false_eq_true, if_false]

theorem _Insert_sort_outer_ex_total [Inhabited α] (c : α → α → Bool) :
    ∀ fuel (a : List α) i, _Insert_sort_outer_ex (fun x y => some (c x y)) fuel a i =
      Except.ok (_Insert_sort_outer c fuel a i) := by
  intro fuel
  induction fuel with
  | zero => intro a i; rw [_Insert_sort_outer_ex, _Insert_sort_outer]
  | succ f ih =>
    intro a i
    rw [_Insert_sort_outer_ex, _Insert_sort_outer]
    split_ifs
    · dsimp only
      rw [_Insert_sort_inner_ex_total]
      exact ih _ _
    · rfl

theorem _Insert_sort_ex_total [Inhabited α] (c : α → α → Bool) (a : List α) :
    _Insert_sort_ex (fun x y => some (c x y)) a = Except.ok (_Insert_sort c a) := by
  unfold _Insert_sort_ex _Insert_sort
  split_ifs
  · rfl
  · exact _Insert_sort_outer_ex_total c _ _ _

theorem _Partition_loop_ex_total [Inhabited α] (c : α → α → Bool) (key : α) (lastm1 : Nat) :
    ∀ fuel (a : List α) i j,
      _Partition_loop_ex (fun x y => some (c x y)) key lastm1 fuel a i j =
        Except.ok (_Partition_loop c key lastm1 fuel a i j) := by
  intro fuel
  induction fuel with
  | zero => intro a i j; rw [_Partition_loop_ex, _Partition_loop]
  | succ f ih =>
    intro a i j
    rw [_Partition_loop_ex, _Partition_loop]
    split_ifs with h1 h2
    · have : c (deref a j) key = true := h2
      simp only [this]
      exact ih _ _ _
    · have : c (deref a j) key = false := by simpa using h2
      simp only [this]
      exact ih _ _ _
    · rfl

theorem _Partition_ex_total [Inhabited α] (c : α → α → Bool) (a : List α) (g : Nat → Nat) :
    _Partition_ex (fun x y => some (c x y)) a g = Except.ok (_Partition c a g) := by
  unfold _Partition_ex _Partition
  dsimp only
  rw [_Partition_loop_ex_total]

theorem _Quick_sort_finish_ex_total [Inhabited α] [LT α] [DecidableRel (fun x y : α => x < y)]
    (c : α → α → Bool) (count : Nat) (cur : List α) :
    _Quick_sort_finish_ex (fun x y => some (c x y)) count cur =
      Except.ok (_Quick_sort_finish c count cur) := by
  unfold _Quick_sort_finish_ex _Quick_sort_finish
  split_ifs
  · rw [make_heap_ex_total]
    rfl
  · exact _Insert_sort_ex_total c cur
  · rfl

theorem _Quick_sort_ex_total [Inhabited α] [LT α] [DecidableRel (fun x y : α => x < y)]
    (c : α → α → Bool) :
    ∀ fuel (a : List α) diff g, _Quick_sort_ex (fun x y => some (c x y)) fuel a diff g =
      Except.ok (_Quick_sort c fuel a diff g) := by
  intro fuel
  induction fuel with
  | zero =>
    intro a diff g
    rw [_Quick_sort_ex, _Quick_sort, _Quick_sort_finish_ex_total]
  | succ f ih =>
    intro a diff g
    rw [_Quick_sort_ex, _Quick_sort]
    dsimp only
    split_ifs
    · rw [_Partition_ex_total]
      dsimp only
      rw [ih]
      dsimp only
      rw [ih]
      dsimp only
      rw [_Quick_sort_finish_ex_total]
    · rw [_Quick_sort_finish_ex_total]

/-- With a comparison that never throws, the routines of the throwing model complete with
the results of `sort`, `make_heap`, `push_heap`, `pop_heap` and `sort_heap`. -/
theorem ex_total [Inhabited α] [LT α] [DecidableRel (fun x y : α => x < y)]
    (c : α → α → Bool) (a : List α) (g : Nat → Nat) :
    sort_ex (fun x y => some (c x y)) a g = Except.ok (sort c a g) ∧
    make_heap_ex (fun x y => some (c x y)) a = Except.ok (make_heap c a) ∧
    push_heap_ex (fun x y => some (c x y)) a = Except.ok (push_heap c a) ∧
    pop_heap_ex (fun x y => some (c x y)) a = Except.ok (pop_heap c a) ∧
    sort_heap_ex (fun x y => some (c x y)) a = Except.ok (sort_heap c a) := by
  refine ⟨?_, make_heap_ex_total c a, push_heap_ex_total c a, pop_heap_ex_total c a, rfl⟩
  unfold sort_ex sort
  split_ifs
  · exact _Quick_sort_ex_total c _ _ _ _
  · rfl

end TinySTL

namespace TinySTL

variable {α : Type}

/-! ## Short ranges -/

/-- On a range of at most one element the mutating routines other than `pop_heap` change
nothing, the predicates hold, and the searches and scans stay inside `[first, last]`;
`pop_heap` changes nothing on a one-element range. -/
theorem short_range_noop [Inhabited α] [LT α] [DecidableRel (fun x y : α => x < y)]
    (cmp : α → α → Bool) (a : List α) (g : Nat → Nat) (v : α) (h : a.length ≤ 1) :
    sort cmp a g = (a, g) ∧ make_heap cmp a = a ∧ push_heap cmp a = a ∧ sort_heap cmp a = a ∧
    is_heap cmp a = true ∧ is_sorted cmp a = true ∧
    lower_bound cmp a v ≤ a.length ∧ upper_bound cmp a v ≤ a.length ∧
    min_element cmp a = (if a.length = 0 then a.length else 0) ∧
    max_element cmp a = (if a.length = 0 then a.length else 0) ∧
    minmax_element cmp a = (0, 0) ∧
    (a.length = 1 → pop_heap cmp a = a) := by
  match a, h with
  | [], _ =>
    refine ⟨rfl, rfl, rfl, rfl, rfl, rfl, ?_, ?_, rfl, rfl, rfl, ?_⟩
    · simp [lower_bound, lower_bound_loop]
    · simp [upper_bound, upper_bound_loop]
    · intro h1; simp at h1
  | [x], _ =>
    refine ⟨rfl, rfl, rfl, rfl, rfl, rfl, ?_, ?_, rfl, rfl, rfl, ?_⟩
    · simp only [lower_bound, lower_bound_loop, List.length_singleton]
      split_ifs <;> simp
    · simp only [upper_bound, upper_bound_loop, List.length_singleton]
      split_ifs <;> simp
    · intro _
      simp [pop_heap, _Pop_heap, _Adjust_heap, _Adjust_heap_loop, _Push_heap, _Push_heap_loop,
        deref]

/-! ## Fuel

Each loop that carries fuel is started with at least as much fuel as it can use: more fuel
does not change its result. -/

theorem upper_bound_loop_fuel_succ [Inhabited α] (cmp : α → α → Bool) (a : List α) (val : α)
    (fuel first ret size : Nat) (h : size ≤ fuel) :
    upper_bound_loop cmp a val (fuel + 1) first ret size =
      upper_bound_loop cmp a val fuel first ret size := by
  rw [upper_bound_loop_eq, upper_bound_loop_eq]
  exact lower_bound_loop_fuel_succ _ a val fuel first ret size h

theorem _Adjust_heap_loop_fuel_succ [Inhabited α] [LT α] [DecidableRel (fun x y : α => x < y)]
    (len : Nat) :
    ∀ fuel (a : List α) hole rightChild, 1 ≤ rightChild → len ≤ rightChild + fuel →
      _Adjust_heap_loop len (fuel + 1) a hole rightChild =
        _Adjust_heap_loop len fuel a hole rightChild := by
  intro fuel
  induction fuel with
  | zero =>
    intro a hole rc h1 h2
    rw [_Adjust_heap_loop, _Adjust_heap_loop, if_neg (by omega)]
  | succ f ih =>
    intro a hole rc h1 h2
    rw [_Adjust_heap_loop]
    conv => rhs; rw [_Adjust_heap_loop]
    by_cases hrc : rc < len
    · rw [if_pos hrc, if_pos hrc]
      dsimp only
      split_ifs
      · exact ih _ _ _ (by omega) (by omega)
      · exact ih _ _ _ (by omega) (by omega)
    · rw [if_neg hrc, if_neg hrc]

theorem is_heap_until_loop_fuel_succ [Inhabited α] (cmp : α → α → Bool) (a : List α) :
    ∀ fuel offset, a.length ≤ offset + fuel →
      is_heap_until_loop cmp a (fuel + 1) offset = is_heap_until_loop cmp a fuel offset := by
  intro fuel
  induction fuel with
  | zero =>
    intro offset h
    rw [is_heap_until_loop, is_heap_until_loop, if_neg (by omega)]
  | succ f ih =>
    intro offset h
    rw [is_heap_until_loop]
    conv => rhs; rw [is_heap_until_loop]
    rw [ih _ (by omega)]

theorem is_sorted_until_loop_fuel_succ [Inhabited α] (cmp : α → α → Bool) (a : List α) :
    ∀ fuel first next, next < a.length → a.length ≤ next + 1 + fuel →
      is_sorted_until_loop cmp a (fuel + 1) first next =
        is_sorted_until_loop cmp a fuel first next := by
  intro fuel
  induction fuel with
  | zero =>
    intro first next h1 h2
    rw [is_sorted_until_loop, is_sorted_until_loop, if_neg (by omega)]
  | succ f ih =>
    intro first next h1 h2
    rw [is_sorted_until_loop]
    conv => rhs; rw [is_sorted_until_loop]
    by_cases hn : next + 1 ≠ a.length
    · rw [if_pos hn, if_pos hn, ih _ _ (by omega) (by omega)]
    · rw [if_neg hn, if_neg hn]

theorem min_element_loop_fuel_succ [Inhabited α] (cmp : α → α → Bool) (a : List α) :
    ∀ fuel first m, first ≤ a.length → a.length ≤ first + fuel →
      min_element_loop cmp a (fuel + 1) first m = min_element_loop cmp a fuel first m := by
  intro fuel
  induction fuel with
  | zero =>
    intro first m h1 h2
    rw [min_element_loop, min_element_loop, if_neg (by omega)]
  | succ f ih =>
    intro first m h1 h2
    rw [min_element_loop]
    conv => rhs; rw [min_element_loop]
    by_cases hn : first ≠ a.length
    · rw [if_pos hn, if_pos hn, ih _ _ (by omega) (by omega), ih _ _ (by omega) (by omega)]
    · rw [if_neg hn, if_neg hn]

theorem max_element_loop_fuel_succ [Inhabited α] (cmp : α → α → Bool) (a : List α)
    (fuel first m : Nat) (h1 : first ≤ a.length) (h2 : a.length ≤ first + fuel) :
    max_element_loop cmp a (fuel + 1) first m = max_element_loop cmp a fuel first m := by
  rw [max_element_loop_eq, max_element_loop_eq]
  exact min_element_loop_fuel_succ _ a fuel first m h1 h2

theorem minmax_element_loop_fuel_succ [Inhabited α] (cmp : α → α → Bool) (a : List α) :
    ∀ fuel first mn mx, first < a.length → a.length ≤ first + 1 + fuel →
      minmax_element_loop cmp a (fuel + 1) first mn mx =
        minmax_element_loop cmp a fuel first mn mx := by
  intro fuel
  induction fuel with
  | zero =>
    intro first mn mx h1 h2
    rw [minmax_element_loop, minmax_element_loop, if_neg (by omega)]
  | succ f ih =>
    intro first mn mx h1 h2
    rw [minmax_element_loop]
    conv => rhs; rw [minmax_element_loop]
    by_cases hn : first + 1 ≠ a.length
    · rw [if_pos hn, if_pos hn]
      dsimp only
      by_cases hl : first + 2 = a.length
      · rw [if_pos hl, if_pos hl]
      · rw [if_neg hl, if_neg hl, ih _ _ _ (by omega) (by omega),
          ih _ _ _ (by omega) (by omega)]
    · rw [if_neg hn, if_neg hn]

theorem _Partition_loop_fuel_succ [Inhabited α] (cmp : α → α → Bool) (key : α)
    (lastm1 : Nat) :
    ∀ fuel (a : List α) i j, lastm1 ≤ j + fuel →
      _Partition_loop cmp key lastm1 (fuel + 1) a i j =
        _Partition_loop cmp key lastm1 fuel a i j := by
  intro fuel
  induction fuel with
  | zero =>
    intro a i j h
    rw [_Partition_loop, _Partition_loop, if_neg (by omega)]
  | succ f ih =>
    intro a i j h
    rw [_Partition_loop]
    conv => rhs; rw [_Partition_loop]
    by_cases hj : j < lastm1
    · rw [if_pos hj, if_pos hj, ih _ _ _ (by omega), ih _ _ _ (by omega)]
    · rw [if_neg hj, if_neg hj]

theorem _Insert_sort_outer_fuel_succ [Inhabited α] (cmp : α → α → Bool) :
    ∀ fuel (a : List α) i, i ≤ a.length → a.length ≤ i + fuel →
      _Insert_sort_outer cmp (fuel + 1) a i = _Insert_sort_outer cmp fuel a i := by
  intro fuel
  induction fuel with
  | zero =>
    intro a i h1 h2
    rw [_Insert_sort_outer, _Insert_sort_outer, if_neg (by omega)]
  | succ f ih =>
    intro a i h1 h2
    rw [_Insert_sort_outer]
    conv => rhs; rw [_Insert_sort_outer]
    by_cases hn : i ≠ a.length
    · rw [if_pos hn, if_pos hn]
      dsimp only
      obtain ⟨-, i2, -⟩ := _Insert_sort_inner_spec cmp (deref a i) i a (by omega)
      have hl : ((_Insert_sort_inner cmp (deref a i) i a).1.set
          (_Insert_sort_inner cmp (deref a i) i a).2 (deref a i)).length = a.length := by
        rw [List.length_set, i2]
      exact ih _ _ (by rw [hl]; omega) (by rw [hl]; omega)
    · rw [if_neg hn, if_neg hn]

end TinySTL

namespace TinySTL

variable {α : Type}

/-! ## The budget of `_Quick_sort` -/

theorem budget_step_eq (d : Nat) : budget_step d = d / 2 + d / 4 := by
  unfold budget_step
  rw [Nat.shiftRight_eq_div_pow, Nat.shiftRight_eq_div_pow]

theorem budget_after_bound (n : Nat) : ∀ k, 4 ^ k * budget_after n k ≤ 3 ^ k * n := by
  intro k
  induction k with
  | zero => simp [budget_after]
  | succ k ih =>
    rw [budget_after, budget_step_eq]
    have h1 : 4 * (budget_after n k / 2 + budget_after n k / 4) ≤ 3 * budget_after n k := by
      omega
    calc 4 ^ (k + 1) * (budget_after n k / 2 + budget_after n k / 4)
        = 4 ^ k * (4 * (budget_after n k / 2 + budget_after n k / 4)) := by ring
      _ ≤ 4 ^ k * (3 * budget_after n k) := Nat.mul_le_mul_left _ h1
      _ = 3 * (4 ^ k * budget_after n k) := by ring
      _ ≤ 3 * (3 ^ k * n) := Nat.mul_le_mul_left _ ih
      _ = 3 ^ (k + 1) * n := by ring

theorem budget_after_zero_of_lt (n k : Nat) (h : 3 ^ k * n < 4 ^ k) : budget_after n k = 0 := by
  have h1 := budget_after_bound n k
  by_contra hne
  have h2 : 1 ≤ budget_after n k := Nat.one_le_iff_ne_zero.2 hne
  have h3 : 4 ^ k * 1 ≤ 4 ^ k * budget_after n k := Nat.mul_le_mul_left _ h2
  omega

/-- C24: in `_Quick_sort` on a range of more than 32 elements, `make_heap` + `sort_heap` is
applied to the whole range exactly when the budget `diff` is `0` on entry, and then no partition
is done (the result is the heap-sorted range and the pivot stream is untouched); when `diff > 0`
the range is partitioned and the heap step after the two recursive calls acts on the one-element
range of the pivot, which it leaves unchanged. -/
theorem _Quick_sort_heap_step [Inhabited α] [LT α] [DecidableRel (fun x y : α => x < y)]
    (cmp : α → α → Bool) (fuel : Nat) (a : List α) (diff : Nat) (g : Nat → Nat)
    (h : a.length > _INSERT_SORT_MAX) :
    (diff = 0 → _Quick_sort cmp fuel a diff g = (sort_heap cmp (make_heap cmp a), g)) ∧
    (diff > 0 →
      ((_Partition cmp a g).1.drop (_Partition cmp a g).2.1).take 1
        = [deref (_Partition cmp a g).1 (_Partition cmp a g).2.1] ∧
      _Quick_sort_finish cmp a.length [deref (_Partition cmp a g).1 (_Partition cmp a g).2.1]
        = sort_heap cmp (make_heap cmp [deref (_Partition cmp a g).1 (_Partition cmp a g).2.1]) ∧
      sort_heap cmp (make_heap cmp [deref (_Partition cmp a g).1 (_Partition cmp a g).2.1])
        = [deref (_Partition cmp a g).1 (_Partition cmp a g).2.1] ∧
      _Quick_sort cmp (fuel + 1) a diff g =
        ((_Quick_sort cmp fuel ((_Partition cmp a g).1.take (_Partition cmp a g).2.1)
            (budget_step diff) (_Partition cmp a g).2.2).1
          ++ [deref (_Partition cmp a g).1 (_Partition cmp a g).2.1]
          ++ (_Quick_sort cmp fuel ((_Partition cmp a g).1.drop ((_Partition cmp a g).2.1 + 1))
            (budget_step diff)
            (_Quick_sort cmp fuel ((_Partition cmp a g).1.take (_Partition cmp a g).2.1)
              (budget_step diff) (_Partition cmp a g).2.2).2).1,
         (_Quick_sort cmp fuel ((_Partition cmp a g).1.drop ((_Partition cmp a g).2.1 + 1))
            (budget_step diff)
            (_Quick_sort cmp fuel ((_Partition cmp a g).1.take (_Partition cmp a g).2.1)
              (budget_step diff) (_Partition cmp a g).2.2).2).2)) := by
  constructor
  · intro hd
    subst hd
    cases fuel with
    | zero => rw [_Quick_sort]; unfold _Quick_sort_finish; rw [if_pos h]
    | succ f =>
      rw [_Quick_sort]
      simp only [Nat.lt_irrefl, gt_iff_lt, decide_False, Bool.and_false, Bool.false_eq_true,
        if_false]
      unfold _Quick_sort_finish
      rw [if_pos h]
  · intro hd
    have hlen : 1 ≤ a.length := by unfold _INSERT_SORT_MAX at h; omega
    obtain ⟨_, hmid, hl, _⟩ := _Partition_spec cmp a g hlen
    have hpiv : ((_Partition cmp a g).1.drop (_Partition cmp a g).2.1).take 1
        = [deref (_Partition cmp a g).1 (_Partition cmp a g).2.1] := by
      apply ext_deref
      · simp only [List.length_take, List.length_drop, List.length_singleton]; omega
      · intro k hk
        simp only [List.length_take, List.length_drop] at hk
        have hk0 : k = 0 := by omega
        subst hk0
        rw [deref_take _ _ _ (by omega), deref_drop]
        simp [deref]
    have hfin : _Quick_sort_finish cmp a.length
        [deref (_Partition cmp a g).1 (_Partition cmp a g).2.1]
        = sort_heap cmp (make_heap cmp [deref (_Partition cmp a g).1 (_Partition cmp a g).2.1]) := by
      unfold _Quick_sort_finish
      rw [if_pos h]
    have hheap : sort_heap cmp (make_heap cmp [deref (_Partition cmp a g).1 (_Partition cmp a g).2.1])
        = [deref (_Partition cmp a g).1 (_Partition cmp a g).2.1] := by
      simp [make_heap, sort_heap, sort_heap_loop]
    refine ⟨hpiv, hfin, hheap, ?_⟩
    rw [_Quick_sort]
    have hc : (decide (a.length > _INSERT_SORT_MAX) && decide (diff > 0)) = true := by
      simp [h, hd]
    simp only [hc, if_true]
    rw [hpiv, hfin, hheap]
    rfl

theorem _Quick_sort_heap_step_witness :
    descending43.length > _INSERT_SORT_MAX ∧
      _Quick_sort less 0 descending43 0 firstPivot
        = (sort_heap less (make_heap less descending43), firstPivot) :=
  ⟨by decide, (_Quick_sort_heap_step less 0 descending43 0 firstPivot (by decide)).1 rfl⟩

/-- C25: for every budget `d > 0` the recomputed budget `(d >> 1) + (d >> 2)` is strictly
smaller than `d` and at most `3d/4`; starting from the budget `n`, the budget after `k` levels
is at most `n * (3/4)^k` and is `0` whenever `(4/3)^k > n`; from the budgets `1` and `0` the
recomputed budget is `0` and stays `0`. -/
theorem budget_decay :
    (∀ d, 0 < d → budget_step d < d ∧ 4 * budget_step d ≤ 3 * d) ∧
    (∀ n k : Nat, ((budget_after n k : Nat) : ℚ) ≤ (n : ℚ) * (3 / 4 : ℚ) ^ k) ∧
    (∀ n k : Nat, (n : ℚ) < (4 / 3 : ℚ) ^ k → budget_after n k = 0) ∧
    budget_step 1 = 0 ∧ budget_step 0 = 0 ∧
    (∀ n k, n ≤ 1 → 0 < k → budget_after n k = 0) ∧
    (∀ k, budget_after 0 k = 0) := by
  refine ⟨?_, ?_, ?_, by decide, by decide, ?_, ?_⟩
  · intro d hd
    rw [budget_step_eq]
    omega
  · intro n k
    have h1 := budget_after_bound n k
    have h2 : ((4 : ℚ) ^ k) * (budget_after n k : ℚ) ≤ (3 : ℚ) ^ k * (n : ℚ) := by
      exact_mod_cast h1
    have h4 : (0 : ℚ) < (4 : ℚ) ^ k := by positivity
    rw [div_pow, mul_div_assoc', le_div_iff₀ h4]
    linarith
  · intro n k h
    apply budget_after_zero_of_lt
    have h3 : (0 : ℚ) < (3 : ℚ) ^ k := by positivity
    rw [div_pow, lt_div_iff₀ h3] at h
    have h5 : ((3 ^ k * n : ℕ) : ℚ) < ((4 ^ k : ℕ) : ℚ) := by
      push_cast
      linarith
    exact_mod_cast h5
  · intro n k hn hk
    cases k with
    | zero => omega
    | succ k =>
      apply budget_after_zero_of_lt
      have h1 : 3 ^ (k + 1) < 4 ^ (k + 1) := Nat.pow_lt_pow_left (by omega) (by omega)
      have h2 : 3 ^ (k + 1) * n ≤ 3 ^ (k + 1) * 1 := Nat.mul_le_mul_left _ hn
      omega
  · intro k
    apply budget_after_zero_of_lt
    simp

/-! ## Assertions of the ordered searches -/

/-- The overloads of `mismatch` without a predicate are the predicate overloads called with
inequality. -/
theorem mismatch_plain_eq [Inhabited α] [DecidableEq α] (a b : List α) :
    mismatch_plain a b = mismatch_pred (fun x y => decide (x ≠ y)) a b ∧
    mismatch_plain4 a b = mismatch_pred4 (fun x y => decide (x ≠ y)) a b :=
  ⟨rfl, rfl⟩

/-- C28 at a failing input: on `[1, 2, 3]` and `[1, 2, 4]` the overloads of `mismatch` without a
predicate return the offsets `(0, 0)`, where the two ranges hold the equal elements `1` and `1`,
while the predicate overloads called with equality return `(2, 2)`, the first position at which
the ranges differ. -/
theorem mismatch_plain_stops_at_equal :
    mismatch_plain ([1, 2, 3] : List Int) [1, 2, 4] = (0, 0) ∧
    mismatch_pred (fun x y => decide (x = y)) ([1, 2, 3] : List Int) [1, 2, 4] = (2, 2) ∧
    mismatch_plain4 ([1, 2, 3] : List Int) [1, 2, 4] = (0, 0) ∧
    mismatch_pred4 (fun x y => decide (x = y)) ([1, 2, 3] : List Int) [1, 2, 4] = (2, 2) ∧
    deref ([1, 2, 3] : List Int) 0 = deref ([1, 2, 4] : List Int) 0 ∧
    deref ([1, 2, 3] : List Int) 2 ≠ deref ([1, 2, 4] : List Int) 2 := by
  decide

theorem copy_loop_spec : ∀ (s d : List α) (k : Nat), k + s.length ≤ d.length →
    copy_loop s d k = (d.take k ++ s ++ d.drop (k + s.length), k + s.length) := by
  intro s
  induction s with
  | nil => intro d k _; simp [copy_loop]
  | cons x s ih =>
    intro d k h
    simp only [List.length_cons] at h
    rw [copy_loop, ih _ _ (by simp only [List.length_set]; omega)]
    have hk : k < d.length := by omega
    have h1 : (d.set k x).take (k + 1) = d.take k ++ [x] := by
      rw [List.set_eq_take_append_cons_drop, if_pos hk, List.take_append_eq_append_take]
      simp [List.length_take, Nat.min_eq_left (Nat.le_of_lt hk)]
    have h2 : (d.set k x).drop (k + 1 + s.length) = d.drop (k + (s.length + 1)) := by
      rw [List.drop_set, show k + 1 + s.length = k + (s.length + 1) by omega]
      have : k < k + (s.length + 1) := by omega
      simp [this]
    rw [h1, h2]
    simp only [List.length_cons, List.append_assoc, List.singleton_append, Prod.mk.injEq]
    exact ⟨trivial, by omega⟩

/-- The function `copy` writes the source range over the front of the destination and returns
the destination advanced by its length. -/
theorem copy_spec (s d : List α) (h : s.length ≤ d.length) :
    copy s d = (s ++ d.drop s.length, s.length) := by
  unfold copy
  rw [copy_loop_spec s d 0 (by omega)]
  simp

theorem copy_n_loop_spec [Inhabited α] (s : List α) (count : Int) :
    ∀ fuel (i : Int) (d : List α), 0 ≤ i →
      copy_n_loop s count fuel i d
        = if i < count ∧ 0 < fuel then d.set 0 (deref s 0) else d := by
  intro fuel
  induction fuel with
  | zero => intro i d _; simp [copy_n_loop]
  | succ f ih =>
    intro i d hi
    rw [copy_n_loop]
    by_cases h : i < count
    · rw [if_pos h, ih _ _ (by omega)]
      simp only [h, true_and, Nat.succ_pos, if_true]
      split_ifs
      · simp
      · rfl
    · rw [if_neg h]
      simp [h]

/-- The function `copy_n` on every input: for `count > 0` it writes the element at `src` to
the position `dst`, and to no other position, and in every case it returns `dst` itself. -/
theorem copy_n_spec [Inhabited α] (s : List α) (count : Int) (d : List α) :
    copy_n s count d = (if count > 0 then d.set 0 (deref s 0) else d, 0) := by
  unfold copy_n
  by_cases h : count > 0
  · rw [if_pos h, if_pos h, copy_n_loop_spec s count _ 0 d (le_refl _)]
    have : 0 < count.toNat := by omega
    simp [h, this]
  · rw [if_neg h, if_neg h]

/-- C29 at a failing input: `copy_n(src, 2, dst)` with the source `[1, 2, 3]` and the
destination `[0, 0, 0]` leaves the destination `[1, 0, 0]` and returns `dst`, while
`copy(src, src + 2, dst)` leaves `[1, 2, 0]` and returns `dst + 2`. -/
theorem copy_n_does_not_advance :
    copy_n ([1, 2, 3] : List Int) 2 [0, 0, 0] = ([1, 0, 0], 0) ∧
    copy (([1, 2, 3] : List Int).take 2) [0, 0, 0] = ([1, 2, 0], 2) ∧
    copy_n ([1, 2, 3] : List Int) 0 [0, 0, 0] = ([0, 0, 0], 0) ∧
    copy_n ([1, 2, 3] : List Int) (-1) [0, 0, 0] = ([0, 0, 0], 0) := by
  decide

end TinySTL

namespace TinySTL

variable {α : Type}

/-! ## Stability of the insertion sort -/

theorem deref_append [Inhabited α] (a b : List α) (k : Nat) :
    deref (a ++ b) k = if k < a.length then deref a k else deref b (k - a.length) := by
  split_ifs with h
  · exact deref_append_left a b k h
  · exact deref_append_right a b k (by omega)

theorem deref_cons [Inhabited α] (x : α) (xs : List α) (k : Nat) :
    deref (x :: xs) k = if k = 0 then x else deref xs (k - 1) := by
  cases k with
  | zero => rfl
  | succ k => simp [deref_cons_succ]

/-- One pass of the outer loop of `_Insert_sort` in list form: the key at position `i` moves
to the front of the block `[p, i)` of elements it is before, and nothing else moves. -/
theorem _Insert_sort_step_lists [Inhabited α] (cmp : α → α → Bool) (a : List α) (i : Nat)
    (hi : i < a.length) :
    a = a.take (_Insert_sort_inner cmp (deref a i) i a).2
        ++ ((a.take i).drop (_Insert_sort_inner cmp (deref a i) i a).2
          ++ deref a i :: a.drop (i + 1)) ∧
    (_Insert_sort_inner cmp (deref a i) i a).1.set (_Insert_sort_inner cmp (deref a i) i a).2
        (deref a i)
      = a.take (_Insert_sort_inner cmp (deref a i) i a).2
        ++ (deref a i :: ((a.take i).drop (_Insert_sort_inner cmp (deref a i) i a).2
          ++ a.drop (i + 1))) ∧
    ∀ b ∈ (a.take i).drop (_Insert_sort_inner cmp (deref a i) i a).2,
      cmp (deref a i) b = true := by
  obtain ⟨hp, hlen, hgt, _, hread, _⟩ := _Insert_sort_inner_spec cmp (deref a i) i a hi
  generalize (_Insert_sort_inner cmp (deref a i) i a).2 = p at hp hgt hread ⊢
  generalize (_Insert_sort_inner cmp (deref a i) i a).1 = r1 at hlen hread ⊢
  refine ⟨?_, ?_, ?_⟩
  · apply ext_deref
    · simp only [List.length_append, List.length_take, List.length_drop, List.length_cons]
      omega
    · intro k hk
      simp only [deref_append, deref_cons, List.length_take, List.length_drop]
      split_ifs with h1 h2 h3
      · rw [deref_take _ _ _ (by omega)]
      · rw [deref_drop, deref_take _ _ _ (by omega)]
        congr 1
        omega
      · congr 1
        omega
      · rw [deref_drop]
        congr 1
        omega
  · apply ext_deref
    · simp only [List.length_append, List.length_take, List.length_drop, List.length_cons,
        List.length_set]
      omega
    · intro k hk
      rw [hread k]
      simp only [deref_append, deref_cons, List.length_take, List.length_drop]
      split_ifs <;> first
        | rfl
        | (exfalso; omega)
        | (rw [deref_take _ _ _ (by omega)])
        | (rw [deref_drop, deref_take _ _ _ (by omega)]; congr 1; omega)
        | (rw [deref_drop]; congr 1; omega)
  · intro b hb
    obtain ⟨k, hk, hbk⟩ := exists_deref_of_mem _ b hb
    simp only [List.length_take, List.length_drop] at hk
    rw [deref_drop, deref_take _ _ _ (by omega)] at hbk
    rw [← hbk]
    exact hgt (p + k) (by omega) (by omega)

/-- Moving a key over a block of elements it is strictly before keeps the order inside every
equivalence class. -/
theorem stable_move [Inhabited α] {cmp : α → α → Bool} (hswo : StrictWeakOrder cmp)
    (pre blk suf : List α) (key : α) (h : ∀ b ∈ blk, cmp key b = true) :
    StableBy cmp (pre ++ (key :: (blk ++ suf))) (pre ++ (blk ++ key :: suf)) := by
  intro x
  simp only [List.filter_append, List.filter_cons]
  by_cases hx : equivBy cmp x key = true
  · have hblk : blk.filter (equivBy cmp x) = [] := by
      rw [List.filter_eq_nil_iff]
      intro b hb hxb
      unfold equivBy at hx hxb
      simp only [Bool.and_eq_true, Bool.not_eq_true'] at hx hxb
      have := hswo.neg_trans hx.2 hxb.1
      rw [h b hb] at this
      exact Bool.noConfusion this
    simp [hx, hblk]
  · simp [hx]

theorem StableBy.trans {cmp : α → α → Bool} {a b c : List α} (h1 : StableBy cmp a b)
    (h2 : StableBy cmp b c) : StableBy cmp a c :=
  fun x => (h1 x).trans (h2 x)

theorem _Insert_sort_outer_stable [Inhabited α] {cmp : α → α → Bool}
    (hswo : StrictWeakOrder cmp) :
    ∀ fuel (a : List α) i, i ≤ a.length → StableBy cmp (_Insert_sort_outer cmp fuel a i) a := by
  intro fuel
  induction fuel with
  | zero => intro a i _; rw [_Insert_sort_outer]; exact fun _ => rfl
  | succ f ih =>
    intro a i hi
    rw [_Insert_sort_outer]
    by_cases hne : i ≠ a.length
    · rw [if_pos hne]
      dsimp only
      have hlt : i < a.length := by omega
      obtain ⟨h1, h2, h3⟩ := _Insert_sort_step_lists cmp a i hlt
      have hl : ((_Insert_sort_inner cmp (deref a i) i a).1.set
          (_Insert_sort_inner cmp (deref a i) i a).2 (deref a i)).length = a.length := by
        rw [List.length_set]
        exact (_Insert_sort_inner_spec cmp (deref a i) i a hlt).2.1
      refine (ih _ (i + 1) (by omega)).trans ?_
      rw [h2]
      have h4 := stable_move hswo (a.take (_Insert_sort_inner cmp (deref a i) i a).2) _
        (a.drop (i + 1)) (deref a i) h3
      intro x
      rw [h4 x, ← h1]
    · rw [if_neg hne]
      exact fun _ => rfl

theorem _Insert_sort_keeps_classes [Inhabited α] {cmp : α → α → Bool} (hswo : StrictWeakOrder cmp)
    (a : List α) : StableBy cmp (_Insert_sort cmp a) a := by
  unfold _Insert_sort
  split
  · exact fun _ => rfl
  · exact _Insert_sort_outer_stable hswo a.length a 1 (by omega)

/-- A sorted list is determined by the order inside its equivalence classes: two sorted lists
with the same elements, in the same order, in every class are equal. -/
theorem stable_sorted_unique {cmp : α → α → Bool} (hswo : StrictWeakOrder cmp) :
    ∀ (s t : List α), SortedBy cmp s → SortedBy cmp t → StableBy cmp s t → s = t := by
  have hrefl : ∀ x : α, equivBy cmp x x = true := by
    intro x; simp [equivBy, hswo.irrefl x]
  intro s
  induction s with
  | nil =>
    intro t _ _ hst
    cases t with
    | nil => rfl
    | cons y t =>
      have := hst y
      simp [List.filter_cons, hrefl y] at this
  | cons h s ih =>
    intro t hs ht hst
    cases t with
    | nil =>
      have := hst h
      simp [List.filter_cons, hrefl h] at this
    | cons y t =>
      unfold SortedBy at hs ht
      rw [List.pairwise_cons] at hs ht
      have hmem1 : h ∈ (y :: t).filter (equivBy cmp h) := by
        rw [← hst h]; simp [List.filter_cons, hrefl h]
      have hmem2 : y ∈ (h :: s).filter (equivBy cmp y) := by
        rw [hst y]; simp [List.filter_cons, hrefl y]
      have hhy : cmp h y = false := by
        have := (List.mem_filter.1 hmem1).1
        rcases List.mem_cons.1 this with h1 | h1
        · rw [h1]; exact hswo.irrefl y
        · exact ht.1 h h1
      have hyh : cmp y h = false := by
        have := (List.mem_filter.1 hmem2).1
        rcases List.mem_cons.1 this with h1 | h1
        · rw [h1]; exact hswo.irrefl h
        · exact hs.1 y h1
      have heq : equivBy cmp h y = true := by simp [equivBy, hhy, hyh]
      have hhead : h = y := by
        have := hst h
        simp only [List.filter_cons, hrefl h, heq, if_true] at this
        exact (List.cons.inj this).1
      subst hhead
      have htail : StableBy cmp s t := by
        intro x
        have := hst x
        simp only [List.filter_cons] at this
        split_ifs at this
        · exact (List.cons.inj this).2
        · exact this
      rw [ih t hs.2 ht.2 htail]

/-- C21: for every range and every strict weak ordering `cmp`, `_Insert_sort` leaves the range
sorted by `cmp` and a permutation of its input, and it is stable: the elements of every
equivalence class of `cmp` keep their relative order. The result is the stable sort of the
input: every sorted rearrangement of the input that keeps the order inside each class is equal
to it. -/
theorem _Insert_sort_stable [Inhabited α] {cmp : α → α → Bool} (hswo : StrictWeakOrder cmp)
    (a : List α) :
    SortedBy cmp (_Insert_sort cmp a) ∧ (_Insert_sort cmp a).Perm a ∧
    StableBy cmp (_Insert_sort cmp a) a ∧
    (∀ s : List α, SortedBy cmp s → s.Perm a → StableBy cmp s a → s = _Insert_sort cmp a) := by
  refine ⟨_Insert_sort_sorted hswo a, _Insert_sort_perm cmp a, _Insert_sort_keeps_classes hswo a, ?_⟩
  intro s hs _ hst
  apply stable_sorted_unique hswo s _ hs (_Insert_sort_sorted hswo a)
  intro x
  rw [hst x, _Insert_sort_keeps_classes hswo a x]

theorem byTens_swo : StrictWeakOrder byTens where
  irrefl := by intro x; simp [byTens]
  trans := by intro x y z; simp only [byTens, decide_eq_true_eq]; omega
  incomp_trans := by intro x y z; simp only [byTens, decide_eq_false_iff_not]; omega

theorem _Insert_sort_stable_witness :
    StrictWeakOrder byTens ∧
      _Insert_sort byTens [22, 11, 21, 10] = [11, 10, 22, 21] ∧
      StableBy byTens (_Insert_sort byTens [22, 11, 21, 10]) [22, 11, 21, 10] :=
  ⟨byTens_swo, by decide, (_Insert_sort_stable byTens_swo [22, 11, 21, 10]).2.2.1⟩

/-- C23: for every range of 2 to 32 elements, every `cmp` and every pivot stream, `sort` draws
nothing from the stream (no partition is done), takes the insertion-sort branch and not the
heap branch, and returns exactly the result of `_Insert_sort`; hence for a strict weak ordering
`cmp` the result is sorted, a permutation of the input and stable. -/
theorem sort_small_eq_Insert_sort [Inhabited α] [LT α] [DecidableRel (fun x y : α => x < y)]
    (cmp : α → α → Bool) (a : List α) (g : Nat → Nat) (h2 : 2 ≤ a.length)
    (h32 : a.length ≤ 32) :
    sort cmp a g = (_Insert_sort cmp a, g) ∧
    (∀ fuel diff, _Quick_sort cmp fuel a diff g = (_Insert_sort cmp a, g)) ∧
    _Quick_sort_finish cmp a.length a = _Insert_sort cmp a ∧
    (StrictWeakOrder cmp →
      SortedBy cmp (sort cmp a g).1 ∧ (sort cmp a g).1.Perm a ∧
      StableBy cmp (sort cmp a g).1 a) := by
  have hfin : _Quick_sort_finish cmp a.length a = _Insert_sort cmp a := by
    unfold _Quick_sort_finish _INSERT_SORT_MAX
    rw [if_neg (by omega), if_pos (by omega)]
  have hqs : ∀ fuel diff, _Quick_sort cmp fuel a diff g = (_Insert_sort cmp a, g) := by
    intro fuel diff
    cases fuel with
    | zero => rw [_Quick_sort, hfin]
    | succ f =>
      rw [_Quick_sort]
      have hc : (decide (a.length > _INSERT_SORT_MAX) && decide (diff > 0)) = false := by
        unfold _INSERT_SORT_MAX
        simp only [Bool.and_eq_false_imp, decide_eq_true_eq]
        intro hgt
        omega
      simp only [hc, Bool.false_eq_true, if_false, hfin]
  have hsort : sort cmp a g = (_Insert_sort cmp a, g) := by
    unfold sort
    rw [if_pos (by omega), hqs]
  refine ⟨hsort, hqs, hfin, ?_⟩
  intro hswo
  rw [hsort]
  exact ⟨_Insert_sort_sorted hswo a, _Insert_sort_perm cmp a, _Insert_sort_keeps_classes hswo a⟩

theorem sort_small_eq_Insert_sort_witness :
    2 ≤ ([22, 11, 21, 10] : List Int).length ∧ ([22, 11, 21, 10] : List Int).length ≤ 32 ∧
      sort byTens [22, 11, 21, 10] firstPivot = (_Insert_sort byTens [22, 11, 21, 10], firstPivot) :=
  ⟨by decide, by decide,
    (sort_small_eq_Insert_sort byTens [22, 11, 21, 10] firstPivot (by decide) (by decide)).1⟩

end TinySTL

namespace TinySTL

variable {α : Type}

/-! ## Extraction order of a heap -/

/-- One `pop_heap` on a non-empty heap under the built-in order: the element moved to the last
position is the former front, no element of the heap is after it, and the remaining front is a
heap again. -/
theorem pop_heap_extracts_max [Inhabited α] [LT α] [DecidableRel (fun x y : α => x < y)]
    (hswo : StrictWeakOrder (less : α → α → Bool)) (h : List α) (hne : h ≠ [])
    (hheap : IsHeap less h) :
    deref (pop_heap less h) (h.length - 1) = deref h 0 ∧
    (∀ y ∈ h, less (deref (pop_heap less h) (h.length - 1)) y = false) ∧
    HeapFrom less (pop_heap less h) 0 (h.length - 1) ∧
    (pop_heap less h).Perm h := by
  refine ⟨pop_heap_last less h hne, ?_, pop_heap_heap hswo less_iff h hne hheap,
    pop_heap_perm less h hne⟩
  intro y hy
  obtain ⟨k, hk, hyk⟩ := exists_deref_of_mem h y hy
  rw [pop_heap_last less h hne, ← hyk]
  exact heap_root_max hswo h h.length hheap k hk

/-- Repeated `pop_heap` on a heap of `n` elements extracts a rearrangement of these elements
in which no element is before a later one. -/
theorem pop_all_spec [Inhabited α] [LT α] [DecidableRel (fun x y : α => x < y)]
    (hswo : StrictWeakOrder (less : α → α → Bool)) :
    ∀ n (a : List α), n ≤ a.length → HeapFrom less a 0 n →
      (pop_all less n a).Perm (a.take n) ∧
      (pop_all less n a).Pairwise (fun x y => less x y = false) := by
  intro n
  induction n with
  | zero =>
    intro a _ _
    simp [pop_all]
  | succ m ih =>
    intro a hn hheap
    rw [pop_all]
    have hlh : (a.take (m + 1)).length = m + 1 := by rw [List.length_take]; omega
    have hne : a.take (m + 1) ≠ [] := by
      intro h
      rw [h] at hlh
      exact absurd hlh (by simp)
    have hH : IsHeap less (a.take (m + 1)) := (isHeap_take_iff less a (m + 1) hn).2 hheap
    obtain ⟨hlast, hmax, hheap2, hperm⟩ := pop_heap_extracts_max hswo _ hne hH
    rw [hlh] at hlast hmax hheap2
    simp only [Nat.add_sub_cancel] at hlast hmax hheap2
    have hlr : (pop_heap less (a.take (m + 1))).length = m + 1 := by
      rw [pop_heap_length less _ hne, hlh]
    have hl : (pop_heap less (a.take (m + 1)) ++ a.drop (m + 1)).length = a.length := by
      rw [List.length_append, hlr, List.length_drop]; omega
    have hleft : ∀ i, i < m + 1 →
        deref (pop_heap less (a.take (m + 1)) ++ a.drop (m + 1)) i =
          deref (pop_heap less (a.take (m + 1))) i := by
      intro i hi
      exact deref_append_left _ _ i (by rw [hlr]; exact hi)
    have hheap3 : HeapFrom less (pop_heap less (a.take (m + 1)) ++ a.drop (m + 1)) 0 m := by
      intro k hk1 hk2 hk3
      rw [hleft _ (by omega), hleft _ (by omega)]
      exact hheap2 k hk1 hk2 hk3
    obtain ⟨ihp, ihs⟩ := ih _ (by omega) hheap3
    have htk : (pop_heap less (a.take (m + 1)) ++ a.drop (m + 1)).take m
        = (pop_heap less (a.take (m + 1))).take m := by
      rw [List.take_append_of_le_length (by omega)]
    rw [htk] at ihp
    rw [hleft m (by omega)]
    have hsplit : (pop_heap less (a.take (m + 1))).take m
        ++ [deref (pop_heap less (a.take (m + 1))) m] = pop_heap less (a.take (m + 1)) := by
      apply ext_deref
      · simp only [List.length_append, List.length_take, List.length_singleton]; omega
      · intro k hk
        simp only [List.length_append, List.length_take, List.length_singleton] at hk
        by_cases hkm : k < m
        · rw [deref_append_left _ _ _ (by rw [List.length_take]; omega),
            deref_take _ _ _ hkm]
        · have hk2 : k = m := by omega
          subst hk2
          rw [deref_append_right _ _ _ (by rw [List.length_take]; omega)]
          simp only [List.length_take, hlr]
          rw [show k - min k (k + 1) = 0 by omega]
          rfl
    have hP : (deref (pop_heap less (a.take (m + 1))) m
        :: (pop_heap less (a.take (m + 1))).take m).Perm (pop_heap less (a.take (m + 1))) := by
      have h1 : (deref (pop_heap less (a.take (m + 1))) m
          :: (pop_heap less (a.take (m + 1))).take m).Perm
          ((pop_heap less (a.take (m + 1))).take m
            ++ [deref (pop_heap less (a.take (m + 1))) m]) :=
        (List.perm_append_singleton _ _).symm
      rw [hsplit] at h1
      exact h1
    constructor
    · exact ((List.Perm.cons _ ihp).trans hP).trans hperm
    · rw [List.pairwise_cons]
      refine ⟨?_, ihs⟩
      intro y hy
      have h1 : y ∈ (pop_heap less (a.take (m + 1))).take m := ihp.subset hy
      have h2 : y ∈ pop_heap less (a.take (m + 1)) := List.mem_of_mem_take h1
      exact hmax y (hperm.subset h2)

theorem heap_extract_spec [Inhabited α] [LT α] [DecidableRel (fun x y : α => x < y)]
    (hswo : StrictWeakOrder (less : α → α → Bool)) (a : List α) :
    (heap_extract less a).Perm a ∧
    (heap_extract less a).Pairwise (fun x y => less x y = false) := by
  unfold heap_extract
  have hheap := make_heap_heap hswo less_iff a
  unfold IsHeap at hheap
  rw [make_heap_length] at hheap
  obtain ⟨h1, h2⟩ := pop_all_spec hswo a.length (make_heap less a)
    (by rw [make_heap_length]) hheap
  refine ⟨?_, h2⟩
  refine h1.trans ?_
  rw [List.take_of_length_le (by rw [make_heap_length])]
  exact make_heap_perm less a

/-- C22: for every integer range under the default less-than ordering, `make_heap` followed by
repeated `pop_heap` on the shrinking range extracts all the elements, in non-increasing order;
each `pop_heap` on a non-empty heap moves to the last position an element that is the maximum
of the heap and leaves a heap in front of it; for `[1, 5, 2, 4, 3]` the extraction order is
`5, 4, 3, 2, 1`. -/
theorem heap_extract_descending (a : List Int) :
    (heap_extract less a).Perm a ∧
    (heap_extract less a).Pairwise (fun x y => x ≥ y) ∧
    (∀ h : List Int, h ≠ [] → IsHeap less h →
      deref (pop_heap less h) (h.length - 1) ∈ h ∧
      (∀ y ∈ h, y ≤ deref (pop_heap less h) (h.length - 1)) ∧
      IsHeap less ((pop_heap less h).take (h.length - 1))) ∧
    heap_extract less ([1, 5, 2, 4, 3] : List Int) = [5, 4, 3, 2, 1] := by
  obtain ⟨h1, h2⟩ := heap_extract_spec less_int_swo a
  refine ⟨h1, ?_, ?_, by decide⟩
  · refine h2.imp ?_
    intro x y hxy
    simp only [less, decide_eq_false_iff_not, not_lt] at hxy
    exact hxy
  · intro h hne hheap
    obtain ⟨hlast, hmax, hheap2, hperm⟩ := pop_heap_extracts_max less_int_swo h hne hheap
    have hpos : 0 < h.length := List.length_pos.2 hne
    refine ⟨?_, ?_, ?_⟩
    · rw [hlast]
      exact deref_mem h 0 hpos
    · intro y hy
      have := hmax y hy
      simp only [less, decide_eq_false_iff_not, not_lt] at this
      exact this
    · rw [isHeap_take_iff less _ _ (by rw [pop_heap_length less h hne]; omega)]
      exact hheap2

end TinySTL

namespace TinySTL

variable {α : Type}

/-! ## Termination of the loops of the hybrid sort -/

/-- The loop of `_Push_heap` exits within `hole` iterations. -/
theorem _Push_heap_loop_strict_eq [Inhabited α] (cmp : α → α → Bool) (top : Nat) (val : α) :
    ∀ fuel (a : List α) hole, hole ≤ fuel →
      _Push_heap_loop_strict cmp top val fuel a hole
        = some (_Push_heap_loop cmp top val fuel a hole) := by
  intro fuel
  induction fuel with
  | zero =>
    intro a hole h
    have h0 : hole = 0 := by omega
    subst h0
    simp [_Push_heap_loop_strict, _Push_heap_loop]
  | succ f ih =>
    intro a hole h
    rw [_Push_heap_loop_strict, _Push_heap_loop]
    by_cases hc : (decide (top < hole) && cmp (deref a ((hole - 1) / 2)) val) = true
    · rw [if_pos hc, if_pos hc]
      have hth : top < hole := by
        simp only [Bool.and_eq_true, decide_eq_true_eq] at hc
        exact hc.1
      exact ih _ _ (by omega)
    · rw [if_neg hc, if_neg hc]

/-- The loop of `_Adjust_heap` exits within `len - rightChild` iterations. -/
theorem _Adjust_heap_loop_strict_eq [Inhabited α] [LT α] [DecidableRel (fun x y : α => x < y)]
    (len : Nat) :
    ∀ fuel (a : List α) hole rightChild, 1 ≤ rightChild → len ≤ rightChild + fuel →
      _Adjust_heap_loop_strict len fuel a hole rightChild
        = some (_Adjust_heap_loop len fuel a hole rightChild) := by
  intro fuel
  induction fuel with
  | zero =>
    intro a hole rc h1 h2
    rw [_Adjust_heap_loop_strict, _Adjust_heap_loop, if_neg (by omega)]
  | succ f ih =>
    intro a hole rc h1 h2
    rw [_Adjust_heap_loop_strict, _Adjust_heap_loop]
    by_cases hc : rc < len
    · rw [if_pos hc, if_pos hc]
      dsimp only
      apply ih
      · split_ifs <;> omega
      · split_ifs <;> omega
    · rw [if_neg hc, if_neg hc]

/-- The loop of `make_heap` exits after `parent + 1` iterations. -/
theorem make_heap_loop_strict_eq [Inhabited α] [LT α] [DecidableRel (fun x y : α => x < y)]
    (cmp : α → α → Bool) (len : Nat) :
    ∀ fuel parent (a : List α), parent < fuel →
      make_heap_loop_strict cmp len fuel parent a = some (make_heap_loop cmp len parent a) := by
  intro fuel
  induction fuel with
  | zero => intro parent a h; omega
  | succ f ih =>
    intro parent a h
    rw [make_heap_loop_strict]
    cases parent with
    | zero => rw [if_pos rfl, make_heap_loop]
    | succ p =>
      rw [if_neg (by omega), make_heap_loop]
      exact ih p _ (by omega)

/-- The loop of `sort_heap` exits after `n - 1` iterations. -/
theorem sort_heap_loop_strict_eq [Inhabited α] [LT α] [DecidableRel (fun x y : α => x < y)] :
    ∀ fuel n (a : List α), n ≤ fuel + 1 →
      sort_heap_loop_strict fuel n a = some (sort_heap_loop n a) := by
  intro fuel
  induction fuel with
  | zero =>
    intro n a h
    rw [sort_heap_loop_strict, if_neg (by omega)]
    match n, h with
    | 0, _ => simp [sort_heap_loop]
    | 1, _ => simp [sort_heap_loop]
  | succ f ih =>
    intro n a h
    rw [sort_heap_loop_strict]
    match n, h with
    | 0, _ => simp [sort_heap_loop]
    | 1, _ => simp [sort_heap_loop]
    | m + 2, h =>
      rw [if_pos (by omega), sort_heap_loop]
      exact ih (m + 1) _ (by omega)

/-- The inner loop of `_Insert_sort` exits within `j - first` iterations. -/
theorem _Insert_sort_inner_strict_eq [Inhabited α] (cmp : α → α → Bool) (key : α) :
    ∀ fuel j (a : List α), j ≤ fuel →
      _Insert_sort_inner_strict cmp key fuel j a = some (_Insert_sort_inner cmp key j a) := by
  intro fuel
  induction fuel with
  | zero =>
    intro j a h
    have h0 : j = 0 := by omega
    subst h0
    simp [_Insert_sort_inner_strict, _Insert_sort_inner]
  | succ f ih =>
    intro j a h
    rw [_Insert_sort_inner_strict]
    cases j with
    | zero => simp [_Insert_sort_inner]
    | succ k =>
      rw [_Insert_sort_inner]
      simp only [Nat.succ_pos, gt_iff_lt, decide_True, Bool.true_and, Nat.add_sub_cancel]
      split_ifs
      · exact ih k _ (by omega)
      · rfl

/-- The outer loop of `_Insert_sort` exits within `last - i` iterations. -/
theorem _Insert_sort_outer_strict_eq [Inhabited α] (cmp : α → α → Bool) :
    ∀ fuel (a : List α) i, i ≤ a.length → a.length ≤ i + fuel →
      _Insert_sort_outer_strict cmp fuel a i = some (_Insert_sort_outer cmp fuel a i) := by
  intro fuel
  induction fuel with
  | zero =>
    intro a i h1 h2
    rw [_Insert_sort_outer_strict, _Insert_sort_outer, if_neg (by omega)]
  | succ f ih =>
    intro a i h1 h2
    rw [_Insert_sort_outer_strict, _Insert_sort_outer]
    by_cases hne : i ≠ a.length
    · rw [if_pos hne, if_pos hne]
      dsimp only
      have hlt : i < a.length := by omega
      have hl : ((_Insert_sort_inner cmp (deref a i) i a).1.set
          (_Insert_sort_inner cmp (deref a i) i a).2 (deref a i)).length = a.length := by
        rw [List.length_set]
        exact (_Insert_sort_inner_spec cmp (deref a i) i a hlt).2.1
      exact ih _ _ (by omega) (by omega)
    · rw [if_neg hne, if_neg hne]

/-- The scan of `_Partition` exits within `last - 1 - j` iterations. -/
theorem _Partition_loop_strict_eq [Inhabited α] (cmp : α → α → Bool) (key : α) (lastm1 : Nat) :
    ∀ fuel (a : List α) i j, lastm1 ≤ j + fuel →
      _Partition_loop_strict cmp key lastm1 fuel a i j
        = some (_Partition_loop cmp key lastm1 fuel a i j) := by
  intro fuel
  induction fuel with
  | zero =>
    intro a i j h
    rw [_Partition_loop_strict, _Partition_loop, if_neg (by omega)]
  | succ f ih =>
    intro a i j h
    rw [_Partition_loop_strict, _Partition_loop]
    by_cases hc : j < lastm1
    · rw [if_pos hc, if_pos hc]
      split_ifs
      · exact ih _ _ _ (by omega)
      · exact ih _ _ _ (by omega)
    · rw [if_neg hc, if_neg hc]

/-- Both recursive calls of `_Quick_sort` are made on ranges strictly shorter than the
caller's, and with a strictly smaller budget. -/
theorem _Quick_sort_calls_shorter [Inhabited α] (cmp : α → α → Bool) (a : List α)
    (diff : Nat) (g : Nat → Nat) (h : a.length > _INSERT_SORT_MAX) (hd : diff > 0) :
    ((_Partition cmp a g).1.take (_Partition cmp a g).2.1).length < a.length ∧
    ((_Partition cmp a g).1.drop ((_Partition cmp a g).2.1 + 1)).length < a.length ∧
    ((_Partition cmp a g).1.take (_Partition cmp a g).2.1).length
      + ((_Partition cmp a g).1.drop ((_Partition cmp a g).2.1 + 1)).length + 1 = a.length ∧
    (diff >>> 1) + (diff >>> 2) < diff := by
  have hlen : 1 ≤ a.length := by unfold _INSERT_SORT_MAX at h; omega
  obtain ⟨_, hmid, hl, _⟩ := _Partition_spec cmp a g hlen
  have hb := budget_step_eq diff
  unfold budget_step at hb
  simp only [List.length_take, List.length_drop, hl]
  omega

/-- The recursion of `_Quick_sort` is no deeper than the length of the range, and no deeper
than the budget. -/
theorem _Quick_sort_strict_eq [Inhabited α] [LT α] [DecidableRel (fun x y : α => x < y)]
    (cmp : α → α → Bool) :
    ∀ fuel (a : List α) diff g, a.length ≤ fuel ∨ diff ≤ fuel →
      _Quick_sort_strict cmp fuel a diff g = some (_Quick_sort cmp fuel a diff g) := by
  intro fuel
  induction fuel with
  | zero =>
    intro a diff g h
    rw [_Quick_sort_strict, _Quick_sort]
    have hc : (decide (a.length > _INSERT_SORT_MAX) && decide (diff > 0)) = false := by
      unfold _INSERT_SORT_MAX
      simp only [Bool.and_eq_false_imp, decide_eq_true_eq]
      intro hgt
      simp only [gt_iff_lt, decide_eq_false_iff_not, not_lt]
      omega
    rw [hc]
    rfl
  | succ f ih =>
    intro a diff g h
    rw [_Quick_sort_strict, _Quick_sort]
    dsimp only
    by_cases hc : (decide (a.length > _INSERT_SORT_MAX) && decide (diff > 0)) = true
    · rw [if_pos hc, if_pos hc]
      have hc2 : a.length > _INSERT_SORT_MAX ∧ diff > 0 := by
        simpa only [Bool.and_eq_true, decide_eq_true_eq] using hc
      obtain ⟨h1, h2, _, h4⟩ := _Quick_sort_calls_shorter cmp a diff g hc2.1 hc2.2
      rw [ih _ _ _ (by omega), Option.some_bind, ih _ _ _ (by omega), Option.some_bind]
    · rw [if_neg hc, if_neg hc]

/-- More fuel than the length of the range, or than the budget, does not change the result
of `_Quick_sort`. -/
theorem _Quick_sort_fuel_succ_any [Inhabited α] [LT α] [DecidableRel (fun x y : α => x < y)]
    (cmp : α → α → Bool) :
    ∀ fuel (a : List α) diff g, a.length ≤ fuel ∨ diff ≤ fuel →
      _Quick_sort cmp (fuel + 1) a diff g = _Quick_sort cmp fuel a diff g := by
  intro fuel
  induction fuel with
  | zero =>
    intro a diff g h
    rw [_Quick_sort, _Quick_sort]
    have hc : (decide (a.length > _INSERT_SORT_MAX) && decide (diff > 0)) = false := by
      unfold _INSERT_SORT_MAX
      simp only [Bool.and_eq_false_imp, decide_eq_true_eq]
      intro hgt
      simp only [gt_iff_lt, decide_eq_false_iff_not, not_lt]
      omega
    simp only [hc, Bool.false_eq_true, if_false]
  | succ f ih =>
    intro a diff g h
    rw [_Quick_sort]
    conv => rhs; rw [_Quick_sort]
    dsimp only
    by_cases hc : (decide (a.length > _INSERT_SORT_MAX) && decide (diff > 0)) = true
    · rw [if_pos hc, if_pos hc]
      have hc2 : a.length > _INSERT_SORT_MAX ∧ diff > 0 := by
        simpa only [Bool.and_eq_true, decide_eq_true_eq] using hc
      obtain ⟨h1, h2, _, h4⟩ := _Quick_sort_calls_shorter cmp a diff g hc2.1 hc2.2
      rw [ih _ _ _ (by omega), ih _ _ _ (by omega)]
    · rw [if_neg hc, if_neg hc]

theorem _Quick_sort_fuel_ge [Inhabited α] [LT α] [DecidableRel (fun x y : α => x < y)]
    (cmp : α → α → Bool) (a : List α) (diff : Nat) (g : Nat → Nat) :
    ∀ k, _Quick_sort cmp (min a.length diff + k) a diff g
      = _Quick_sort cmp (min a.length diff) a diff g := by
  intro k
  induction k with
  | zero => rfl
  | succ k ih =>
    rw [← ih, ← Nat.add_assoc]
    exact _Quick_sort_fuel_succ_any cmp _ a diff g (by omega)

/-- C27: `_Quick_sort` terminates for every range, every boolean `cmp`, every starting budget
and every pivot stream: a recursion depth of the length of the range (or of the budget, if
smaller) is enough, every larger bound gives the same result, and both recursive calls are made
on ranges strictly shorter than the caller's, which together with the pivot position make up
the caller's range; `sort` returns for every range; and the loops of `_Push_heap`,
`_Adjust_heap`, `make_heap`, `sort_heap`, `_Insert_sort` and `_Partition` exit within the
stated numbers of iterations. -/
theorem sort_terminates [Inhabited α] [LT α] [DecidableRel (fun x y : α => x < y)]
    (cmp : α → α → Bool) (a : List α) (diff : Nat) (g : Nat → Nat) :
    (∀ fuel, min a.length diff ≤ fuel →
      _Quick_sort_strict cmp fuel a diff g
        = some (_Quick_sort cmp (min a.length diff) a diff g)) ∧
    (_Quick_sort_strict cmp a.length a a.length g = some (_Quick_sort cmp a.length a a.length g)
      ∧ (2 ≤ a.length → sort cmp a g = _Quick_sort cmp a.length a a.length g)
      ∧ (a.length < 2 → sort cmp a g = (a, g))) ∧
    (a.length > _INSERT_SORT_MAX → diff > 0 →
      ((_Partition cmp a g).1.take (_Partition cmp a g).2.1).length < a.length ∧
      ((_Partition cmp a g).1.drop ((_Partition cmp a g).2.1 + 1)).length < a.length ∧
      ((_Partition cmp a g).1.take (_Partition cmp a g).2.1).length
        + ((_Partition cmp a g).1.drop ((_Partition cmp a g).2.1 + 1)).length + 1
        = a.length) ∧
    (∀ top val hole, _Push_heap_loop_strict cmp top val hole a hole
      = some (_Push_heap cmp a hole top val)) ∧
    (∀ len hole, _Adjust_heap_loop_strict len len a hole (hole * 2 + 2)
      = some (_Adjust_heap_loop len len a hole (hole * 2 + 2))) ∧
    (∀ len parent, make_heap_loop_strict cmp len (parent + 1) parent a
      = some (make_heap_loop cmp len parent a)) ∧
    (∀ n, sort_heap_loop_strict n n a = some (sort_heap_loop n a)) ∧
    (∀ key j, _Insert_sort_inner_strict cmp key j j a
      = some (_Insert_sort_inner cmp key j a)) ∧
    (∀ i, i ≤ a.length → _Insert_sort_outer_strict cmp a.length a i
      = some (_Insert_sort_outer cmp a.length a i)) ∧
    (∀ key i, _Partition_loop_strict cmp key (a.length - 1) a.length a i 0
      = some (_Partition_loop cmp key (a.length - 1) a.length a i 0)) := by
  refine ⟨?_, ⟨?_, ?_, ?_⟩, ?_, ?_, ?_, ?_, ?_, ?_, ?_, ?_⟩
  · intro fuel hfuel
    rw [_Quick_sort_strict_eq cmp fuel a diff g (by omega)]
    obtain ⟨k, hk⟩ := Nat.exists_eq_add_of_le hfuel
    rw [hk, _Quick_sort_fuel_ge]
  · exact _Quick_sort_strict_eq cmp _ a _ g (Or.inl (Nat.le_refl _))
  · intro h2
    unfold sort
    rw [if_pos (by omega)]
  · intro h2
    unfold sort
    rw [if_neg (by omega)]
  · intro h hd
    obtain ⟨h1, h2, h3, _⟩ := _Quick_sort_calls_shorter cmp a diff g h hd
    exact ⟨h1, h2, h3⟩
  · intro top val hole
    exact _Push_heap_loop_strict_eq cmp top val hole a hole (Nat.le_refl _)
  · intro len hole
    exact _Adjust_heap_loop_strict_eq len len a hole _ (by omega) (by omega)
  · intro len parent
    exact make_heap_loop_strict_eq cmp len _ parent a (by omega)
  · intro n
    exact sort_heap_loop_strict_eq n n a (by omega)
  · intro key j
    exact _Insert_sort_inner_strict_eq cmp key j j a (Nat.le_refl _)
  · intro i hi
    exact _Insert_sort_outer_strict_eq cmp a.length a i hi (by omega)
  · intro key i
    exact _Partition_loop_strict_eq cmp key (a.length - 1) a.length a i 0 (by omega)

end TinySTL

namespace TinySTL

variable {α : Type}

/-! ## `rotate` -/

/-- One iteration of a loop of `rotate` that ends with `mid = next`. -/
theorem rotate_step_mid [Inhabited α] (a : List α) (first mid next : Nat)
    (h1 : first + 1 = mid) (h2 : mid ≤ next) (h3 : next < a.length) (k : Nat)
    (hk : k < a.length) :
    deref (iter_swap a first next) (rotate_src a.length (first + 1) (next + 1) (next + 1) k)
      = deref a (rotate_src a.length first mid next k) := by
  rw [deref_iter_swap a first next _ (by omega) h3]
  unfold rotate_src
  split_ifs <;> first
    | rfl
    | (exfalso; omega)
    | (congr 1; omega)

/-- One iteration of the second loop of `rotate` that ends with `next = mid`. -/
theorem rotate_step_wrap [Inhabited α] (a : List α) (first mid next : Nat)
    (h1 : first + 1 < mid) (h2 : mid ≤ next) (h3 : next + 1 = a.length) (k : Nat)
    (hk : k < a.length) :
    deref (iter_swap a first next) (rotate_src a.length (first + 1) mid mid k)
      = deref a (rotate_src a.length first mid next k) := by
  rw [deref_iter_swap a first next _ (by omega) (by omega)]
  unfold rotate_src
  split_ifs <;> first
    | rfl
    | (exfalso; omega)
    | (congr 1; omega)

/-- One iteration of a loop of `rotate` that changes neither `mid` nor the role of `next`. -/
theorem rotate_step_plain [Inhabited α] (a : List α) (first mid next : Nat)
    (h1 : first + 1 < mid) (h2 : mid ≤ next) (h3 : next + 1 < a.length) (k : Nat)
    (hk : k < a.length) :
    deref (iter_swap a first next) (rotate_src a.length (first + 1) mid (next + 1) k)
      = deref a (rotate_src a.length first mid next k) := by
  rw [deref_iter_swap a first next _ (by omega) (by omega)]
  unfold rotate_src
  split_ifs <;> first
    | rfl
    | (exfalso; omega)
    | (congr 1; omega)

/-- The second loop of `rotate` exits within `last - first` iterations and leaves the elements
as `rotate_src` tells. -/
theorem rotate_loop2_spec [Inhabited α] (n : Nat) :
    ∀ fuel (a : List α) first mid next, a.length = n → n ≤ first + fuel →
      ((first < mid ∧ mid ≤ next ∧ next < n) ∨ (next = n ∧ mid = n)) →
      ∃ r, rotate_loop2 n fuel a first mid next = some r ∧ r.length = n ∧
        ∀ k, k < n → deref r k = deref a (rotate_src n first mid next k) := by
  intro fuel
  induction fuel with
  | zero =>
    intro a first mid next hl hf hst
    rcases hst with ⟨h1, h2, h3⟩ | ⟨h1, h2⟩
    · omega
    · refine ⟨a, ?_, hl, ?_⟩
      · rw [rotate_loop2, if_neg (by omega)]
      · intro k hk
        subst h1 h2
        unfold rotate_src
        split_ifs <;> first
          | rfl
          | (exfalso; omega)
  | succ f ih =>
    intro a first mid next hl hf hst
    rw [rotate_loop2]
    rcases hst with ⟨h1, h2, h3⟩ | ⟨h1, h2⟩
    · rw [if_pos (by omega)]
      dsimp only
      have hl1 : (iter_swap a first next).length = n := by rw [iter_swap_length, hl]
      by_cases hm : first + 1 = mid
      · rw [if_pos hm]
        obtain ⟨r, hr1, hr2, hr3⟩ := ih (iter_swap a first next) (first + 1) (next + 1)
          (next + 1) hl1 (by omega) (by
            by_cases hn : next + 1 = n
            · exact Or.inr ⟨hn, hn⟩
            · exact Or.inl ⟨by omega, Nat.le_refl _, by omega⟩)
        refine ⟨r, hr1, hr2, ?_⟩
        intro k hk
        rw [hr3 k hk]
        subst hl
        exact rotate_step_mid a first mid next hm h2 h3 k hk
      · rw [if_neg hm]
        by_cases hn : next + 1 = n
        · rw [if_pos hn]
          obtain ⟨r, hr1, hr2, hr3⟩ := ih (iter_swap a first next) (first + 1) mid mid hl1
            (by omega) (Or.inl ⟨by omega, Nat.le_refl _, by omega⟩)
          refine ⟨r, hr1, hr2, ?_⟩
          intro k hk
          rw [hr3 k hk]
          subst hl
          exact rotate_step_wrap a first mid next (by omega) h2 hn k hk
        · rw [if_neg hn]
          obtain ⟨r, hr1, hr2, hr3⟩ := ih (iter_swap a first next) (first + 1) mid (next + 1)
            hl1 (by omega) (Or.inl ⟨by omega, by omega, by omega⟩)
          refine ⟨r, hr1, hr2, ?_⟩
          intro k hk
          rw [hr3 k hk]
          subst hl
          exact rotate_step_plain a first mid next (by omega) h2 (by omega) k hk
    · rw [if_neg (by omega)]
      refine ⟨a, rfl, hl, ?_⟩
      intro k hk
      subst h1 h2
      unfold rotate_src
      split_ifs <;> first
        | rfl
        | (exfalso; omega)
        | (congr 1; omega)

/-- The first loop of `rotate` exits after `last - next` iterations, with `first` advanced by
that number, in a state from which the second loop produces the same arrangement as from the
initial state. -/
theorem rotate_loop1_spec [Inhabited α] (n : Nat) :
    ∀ fuel (a : List α) first mid next, a.length = n → first < mid → mid ≤ next → next < n →
      n ≤ next + fuel →
      ∃ r, rotate_loop1 n fuel a first mid next = some r ∧ r.1.length = n ∧
        r.2.1 = first + (n - next) ∧
        ((r.2.1 < r.2.2 ∧ r.2.2 < n) ∨ r.2.2 = n) ∧
        ∀ k, k < n → deref r.1 (rotate_src n r.2.1 r.2.2 r.2.2 k)
          = deref a (rotate_src n first mid next k) := by
  intro fuel
  induction fuel with
  | zero => intro a first mid next hl h1 h2 h3 hf; omega
  | succ f ih =>
    intro a first mid next hl h1 h2 h3 hf
    rw [rotate_loop1]
    have hl1 : (iter_swap a first next).length = n := by rw [iter_swap_length, hl]
    by_cases hn : next + 1 = n
    · rw [if_neg (by omega)]
      by_cases hm : first + 1 = mid
      · rw [if_pos hm]
        refine ⟨_, rfl, hl1, by dsimp only; omega, Or.inr hn, ?_⟩
        intro k hk
        dsimp only
        subst hl
        exact rotate_step_mid a first mid next hm h2 h3 k hk
      · rw [if_neg hm]
        refine ⟨_, rfl, hl1, by dsimp only; omega, Or.inl ⟨by dsimp only; omega,
          by dsimp only; omega⟩, ?_⟩
        intro k hk
        dsimp only
        subst hl
        exact rotate_step_wrap a first mid next (by omega) h2 hn k hk
    · rw [if_pos hn]
      by_cases hm : first + 1 = mid
      · rw [if_pos hm]
        obtain ⟨r, hr1, hr2, hr3, hr4, hr5⟩ := ih (iter_swap a first next) (first + 1)
          (next + 1) (next + 1) hl1 (by omega) (Nat.le_refl _) (by omega) (by omega)
        refine ⟨r, hr1, hr2, by omega, hr4, ?_⟩
        intro k hk
        rw [hr5 k hk]
        subst hl
        exact rotate_step_mid a first mid next hm h2 h3 k hk
      · rw [if_neg hm]
        obtain ⟨r, hr1, hr2, hr3, hr4, hr5⟩ := ih (iter_swap a first next) (first + 1)
          mid (next + 1) hl1 (by omega) (by omega) (by omega) (by omega)
        refine ⟨r, hr1, hr2, by omega, hr4, ?_⟩
        intro k hk
        rw [hr5 k hk]
        subst hl
        exact rotate_step_plain a first mid next (by omega) h2 (by omega) k hk

/-- The function `rotate` with any iteration bound of at least `last - first`. -/
theorem rotate_fuel_spec [Inhabited α] (fuel : Nat) (a : List α) (mid : Nat)
    (h : mid ≤ a.length) (hf : a.length ≤ fuel) :
    rotate_fuel fuel a mid = some (a.drop mid ++ a.take mid, a.length - mid) := by
  unfold rotate_fuel
  by_cases h0 : 0 = mid
  · rw [if_pos h0]
    subst h0
    simp
  · rw [if_neg h0]
    by_cases hn : mid = a.length
    · rw [if_pos hn]
      subst hn
      simp
    · rw [if_neg hn]
      obtain ⟨r, hr1, hr2, hr3, hr4, hr5⟩ := rotate_loop1_spec a.length fuel a 0 mid mid rfl
        (by omega) (Nat.le_refl _) (by omega) (by omega)
      rw [hr1, Option.some_bind]
      obtain ⟨r2, hs1, hs2, hs3⟩ := rotate_loop2_spec a.length fuel r.1 r.2.1 r.2.2 r.2.2 hr2
        (by omega) (by
          rcases hr4 with h4 | h4
          · exact Or.inl ⟨h4.1, Nat.le_refl _, h4.2⟩
          · exact Or.inr ⟨h4, h4⟩)
      rw [hs1, Option.some_bind, hr3]
      have heq : r2 = a.drop mid ++ a.take mid := by
        apply ext_deref
        · rw [hs2, List.length_append, List.length_drop, List.length_take]; omega
        · intro k hk
          rw [hs2] at hk
          rw [hs3 k hk, hr5 k hk, deref_append]
          simp only [List.length_drop]
          unfold rotate_src
          split_ifs <;> first
            | (exfalso; omega)
            | (rw [deref_drop]; congr 1; omega)
            | (rw [deref_take _ _ _ (by omega)])
      rw [heq]
      simp

/-- C30 at a counterexample: `rotate(first, first, last)` on `[1, 2]` returns
`first + (last - mid) = last`, the offset `2`, which is not a position of the range, while
the element `1` that was at `first` is still at `first`, the offset `0`. -/
theorem rotate_returns_last_for_mid_first :
    rotate ([1, 2] : List Int) 0 = some ([1, 2], 2) ∧
    ¬ (2 < ([1, 2] : List Int).length) ∧
    (∀ k, k < ([1, 2] : List Int).length → deref ([1, 2] : List Int) k = 1 → k = 0) := by
  refine ⟨by decide, by decide, ?_⟩
  intro k hk
  have h2 : k = 0 ∨ k = 1 := by
    simp only [List.length_cons, List.length_nil] at hk
    omega
  rcases h2 with h | h <;> subst h <;> decide

/-- C30, amended: for every range and every `mid` with `first <= mid <= last`, `rotate`
terminates (its loops exit within `last - first` iterations, and every larger bound gives the
same result), leaves the range equal to the old elements of `[mid, last)` followed by the old
elements of `[first, mid)`, and returns `first + (last - mid)`; when `mid` is not `first` this
is the new position of the element that was at `first`. -/
theorem rotate_correct [Inhabited α] (a : List α) (mid : Nat) (h : mid ≤ a.length) :
    rotate a mid = some (a.drop mid ++ a.take mid, a.length - mid) ∧
    (∀ fuel, a.length ≤ fuel →
      rotate_fuel fuel a mid = some (a.drop mid ++ a.take mid, a.length - mid)) ∧
    (0 < mid → a.length - mid < a.length ∧
      deref (a.drop mid ++ a.take mid) (a.length - mid) = deref a 0) := by
  refine ⟨rotate_fuel_spec a.length a mid h (Nat.le_refl _),
    fun fuel hf => rotate_fuel_spec fuel a mid h hf, ?_⟩
  intro hm
  refine ⟨by omega, ?_⟩
  rw [deref_append_right _ _ _ (by rw [List.length_drop])]
  rw [List.length_drop, Nat.sub_self, deref_take _ _ _ hm]

theorem rotate_correct_witness :
    2 ≤ ([1, 2, 3, 4, 5] : List Int).length ∧
      rotate ([1, 2, 3, 4, 5] : List Int) 2 = some ([3, 4, 5, 1, 2], 3) :=
  ⟨by decide, (rotate_correct ([1, 2, 3, 4, 5] : List Int) 2 (by decide)).1⟩

end TinySTL

namespace TinySTL

variable {α : Type}

/-! ## `minmax_element` against `min_element` and `max_element` -/

/-- On a non-empty range `minmax_element` returns the earliest position of a smallest element
and the latest position of a largest element. -/
theorem minmax_element_firstMin_lastMax [Inhabited α] {cmp : α → α → Bool}
    (hswo : StrictWeakOrder cmp) (a : List α) (hne : a ≠ []) :
    FirstMin cmp a a.length (minmax_element cmp a).1 ∧
      LastMax cmp a a.length (minmax_element cmp a).2 := by
  have hpos : 0 < a.length := List.length_pos.2 hne
  unfold minmax_element
  rw [if_neg (by omega)]
  by_cases h1 : 1 = a.length
  · rw [if_pos h1, ← h1]
    refine ⟨⟨by omega, ?_, fun j hj => by omega⟩, ⟨by omega, ?_, fun j hj1 hj2 => by omega⟩⟩
    · intro j hj
      have : j = 0 := by omega
      rw [this]; exact hswo.irrefl _
    · intro j hj
      have : j = 0 := by omega
      rw [this]; exact hswo.irrefl _
  · rw [if_neg h1]
    have hmin0 : FirstMin cmp a 1 0 := ⟨by omega, fun j hj => by
      have : j = 0 := by omega
      rw [this]; exact hswo.irrefl _, fun j hj => by omega⟩
    have hmax0 : LastMax cmp a 1 0 := ⟨by omega, fun j hj => by
      have : j = 0 := by omega
      rw [this]; exact hswo.irrefl _, fun j hj1 hj2 => by omega⟩
    by_cases hc : cmp (deref a 1) (deref a 0) = true
    · rw [if_pos hc]
      exact minmax_element_loop_spec hswo a a.length 1 1 0 (by omega) (by omega)
        (firstMin_take hswo a 1 0 hmin0 hc) (lastMax_keep hswo a 1 0 hmax0 hc)
    · rw [if_neg hc]
      have hcf : cmp (deref a 1) (deref a 0) = false := by simpa using hc
      exact minmax_element_loop_spec hswo a a.length 1 0 1 (by omega) (by omega)
        (firstMin_keep a 1 0 hmin0 hcf) (lastMax_take hswo a 1 0 hmax0 hcf)

/-- The earliest position of a smallest element is unique. -/
theorem firstMin_unique [Inhabited α] (cmp : α → α → Bool) (a : List α) (n m m1 : Nat)
    (h : FirstMin cmp a n m) (h1 : FirstMin cmp a n m1) : m = m1 := by
  obtain ⟨hm, hmin, hbefore⟩ := h
  obtain ⟨hm1, hmin1, hbefore1⟩ := h1
  rcases Nat.lt_trichotomy m m1 with hlt | heq | hgt
  · have h2 := hbefore1 m hlt
    rw [hmin m1 hm1] at h2
    exact Bool.noConfusion h2
  · exact heq
  · have h2 := hbefore m1 hgt
    rw [hmin1 m hm] at h2
    exact Bool.noConfusion h2

/-- The latest position of a largest element against the earliest one: it is not before it,
the two elements are equivalent, and the two positions are the same exactly when no other
position holds an element equivalent to the largest. -/
theorem lastMax_vs_firstMax [Inhabited α] (cmp : α → α → Bool) (a : List α) (n l f : Nat)
    (hl : LastMax cmp a n l) (hf : FirstMax cmp a n f) :
    f ≤ l ∧ equivBy cmp (deref a l) (deref a f) = true ∧
    (l = f ↔ ∀ k, k < n → equivBy cmp (deref a k) (deref a f) = true → k = f) := by
  obtain ⟨hln, hlmax, hlafter⟩ := hl
  obtain ⟨hfn, hfmax, hfbefore⟩ := hf
  have hfl : f ≤ l := by
    by_contra hc
    have h2 := hfbefore l (by omega)
    rw [hlmax f hfn] at h2
    exact Bool.noConfusion h2
  have heq : equivBy cmp (deref a l) (deref a f) = true := by
    simp [equivBy, hlmax f hfn, hfmax l hln]
  refine ⟨hfl, heq, ?_⟩
  constructor
  · intro hlf k hk hkeq
    simp only [equivBy, Bool.and_eq_true, Bool.not_eq_true'] at hkeq
    rcases Nat.lt_trichotomy k f with hlt | hkf | hgt
    · have h2 := hfbefore k hlt
      rw [hkeq.1] at h2
      exact Bool.noConfusion h2
    · exact hkf
    · have h2 := hlafter k (by omega) hk
      rw [hlf, hkeq.1] at h2
      exact Bool.noConfusion h2
  · intro h
    exact h l hln heq

/-- C31: for every range and every strict weak ordering `cmp`, the first component of
`minmax_element` is the result of `min_element`; the second component is at or after the result
of `max_element` and its element is equivalent to the one there; and the two are the same
position exactly when the largest element occurs once, that is when no position other than
the result of `max_element` holds an element equivalent to it (on a non-empty range: when
exactly one position holds such an element). -/
theorem minmax_element_vs_min_max [Inhabited α] {cmp : α → α → Bool}
    (hswo : StrictWeakOrder cmp) (a : List α) :
    (minmax_element cmp a).1 = min_element cmp a ∧
    max_element cmp a ≤ (minmax_element cmp a).2 ∧
    equivBy cmp (deref a (minmax_element cmp a).2) (deref a (max_element cmp a)) = true ∧
    ((minmax_element cmp a).2 = max_element cmp a ↔
      ∀ k, k < a.length → equivBy cmp (deref a k) (deref a (max_element cmp a)) = true →
        k = max_element cmp a) ∧
    (a ≠ [] →
      ((minmax_element cmp a).2 = max_element cmp a ↔
        ∃! k, k < a.length ∧
          equivBy cmp (deref a k) (deref a (max_element cmp a)) = true)) := by
  by_cases hne : a = []
  · subst hne
    have hd : equivBy cmp (default : α) default = true := by simp [equivBy, hswo.irrefl]
    refine ⟨rfl, Nat.le_refl _, ?_, ?_, fun h => absurd rfl h⟩
    · simpa [minmax_element, max_element, deref] using hd
    · simp [minmax_element, max_element]
  · obtain ⟨hmin, hmax⟩ := minmax_element_firstMin_lastMax hswo a hne
    have hmin1 := min_element_firstMin hswo a hne
    have hmax1 := max_element_firstMax hswo a hne
    obtain ⟨h1, h2, h3⟩ := lastMax_vs_firstMax cmp a a.length _ _ hmax hmax1
    refine ⟨firstMin_unique cmp a a.length _ _ hmin hmin1, h1, h2, h3, fun _ => ?_⟩
    rw [h3]
    have hself : equivBy cmp (deref a (max_element cmp a)) (deref a (max_element cmp a))
        = true := by simp [equivBy, hswo.irrefl]
    constructor
    · intro h
      exact ⟨max_element cmp a, ⟨hmax1.1, hself⟩, fun k hk => h k hk.1 hk.2⟩
    · rintro ⟨k0, _, huniq⟩ k hk hkeq
      rw [huniq k ⟨hk, hkeq⟩, huniq (max_element cmp a) ⟨hmax1.1, hself⟩]

theorem minmax_element_vs_min_max_witness :
    StrictWeakOrder byTens ∧
      (minmax_element byTens [31, 12, 35, 10, 20]).1 = min_element byTens [31, 12, 35, 10, 20] ∧
      max_element byTens [31, 12, 35, 10, 20] ≤ (minmax_element byTens [31, 12, 35, 10, 20]).2 :=
  ⟨byTens_swo, (minmax_element_vs_min_max byTens_swo [31, 12, 35, 10, 20]).1,
    (minmax_element_vs_min_max byTens_swo [31, 12, 35, 10, 20]).2.1⟩

end TinySTL

namespace TinySTL

variable {α : Type}

/-! ## The comparison operators of `array` -/

/-- The loop of `equal` returns `true` exactly when `pred` holds for every remaining pair. -/
theorem equal_loop_spec [Inhabited α] (pred : α → α → Bool) (a b : List α) :
    ∀ fuel i1 i2, i1 ≤ a.length → a.length ≤ i1 + fuel →
      (equal_loop pred a b fuel i1 i2 = true ↔
        ∀ k, i1 + k < a.length → pred (deref a (i1 + k)) (deref b (i2 + k)) = true) := by
  intro fuel
  induction fuel with
  | zero =>
    intro i1 i2 hle h
    rw [equal_loop]
    simp only [true_iff]
    intro k hk
    omega
  | succ f ih =>
    intro i1 i2 hle h
    rw [equal_loop]
    by_cases hne : i1 ≠ a.length
    · rw [if_pos hne]
      by_cases hp : pred (deref a i1) (deref b i2) = true
      · simp only [hp, Bool.not_true, Bool.false_eq_true, if_false]
        rw [ih (i1 + 1) (i2 + 1) (by omega) (by omega)]
        constructor
        · intro hall k hk
          cases k with
          | zero => exact hp
          | succ k =>
            have := hall k (by omega)
            rwa [show i1 + 1 + k = i1 + (k + 1) by omega,
              show i2 + 1 + k = i2 + (k + 1) by omega] at this
        · intro hall k hk
          have := hall (k + 1) (by omega)
          rwa [show i1 + (k + 1) = i1 + 1 + k by omega,
            show i2 + (k + 1) = i2 + 1 + k by omega] at this
      · have hpf : pred (deref a i1) (deref b i2) = false := by simpa using hp
        simp only [hpf, Bool.not_false, if_true, Bool.false_eq_true, false_iff]
        intro hall
        have := hall 0 (by omega)
        rw [Nat.add_zero, Nat.add_zero, hpf] at this
        exact Bool.noConfusion this
    · rw [if_neg hne]
      simp only [true_iff]
      intro k hk
      omega

/-- The `operator==` of two arrays holds exactly when all element pairs are equal. -/
theorem array_eq_iff [Inhabited α] [DecidableEq α] (a b : List α) :
    array_eq a b = true ↔ ∀ k, k < a.length → deref a k = deref b k := by
  unfold array_eq equal
  rw [equal_loop_spec equal_to a b a.length 0 0 (by omega) (by omega)]
  simp only [Nat.zero_add, equal_to, decide_eq_true_eq]

/-- The `operator<` of two arrays of the same size is the lexicographic order. -/
theorem array_lt_iff [Inhabited α] [LinearOrder α] (a b : List α) (h : a.length = b.length) :
    array_lt a b = true ↔
      ∃ k, k < a.length ∧ deref a k < deref b k ∧ ∀ i, i < k → deref a i = deref b i := by
  unfold array_lt lexicographical_compare
  rw [_Lexicographical_compare_iff]
  constructor
  · rintro (⟨k, hk, hp, hall⟩ | ⟨hl, _⟩)
    · refine ⟨k, by omega, (less_iff _ _).2 hp, ?_⟩
      intro i hi
      obtain ⟨h1, h2⟩ := hall i hi
      have h3 : ¬ deref a i < deref b i := fun hc => by
        rw [(less_iff _ _).1 hc] at h1; exact Bool.noConfusion h1
      have h4 : ¬ deref b i < deref a i := fun hc => by
        rw [(less_iff _ _).1 hc] at h2; exact Bool.noConfusion h2
      exact le_antisymm (not_lt.1 h4) (not_lt.1 h3)
    · omega
  · rintro ⟨k, hk, hp, hall⟩
    left
    refine ⟨k, by omega, (less_iff _ _).1 hp, ?_⟩
    intro i hi
    rw [hall i hi]
    have : less (deref b i) (deref b i) = false := by simp [less]
    exact ⟨this, this⟩

/-- C32: for two arrays `a` and `b` of the same size `N >= 1` over a linearly ordered element
type, `a == b` holds exactly when all `N` element pairs are equal, `a < b` is the lexicographic
order (the first differing pair decides), exactly one of `a < b`, `a == b`, `b < a` holds, and
`a != b`, `a > b`, `a <= b`, `a >= b` are `!(a == b)`, `b < a`, `!(b < a)`, `!(a < b)`. -/
theorem array_compare_correct [Inhabited α] [LinearOrder α] (a b : List α)
    (h : a.length = b.length) (_hN : 1 ≤ a.length) :
    (array_eq a b = true ↔ ∀ k, k < a.length → deref a k = deref b k) ∧
    (array_eq a b = true ↔ a = b) ∧
    (array_lt a b = true ↔
      ∃ k, k < a.length ∧ deref a k < deref b k ∧ ∀ i, i < k → deref a i = deref b i) ∧
    ((array_lt a b = true ∨ array_eq a b = true ∨ array_lt b a = true) ∧
      ¬ (array_lt a b = true ∧ array_eq a b = true) ∧
      ¬ (array_lt a b = true ∧ array_lt b a = true) ∧
      ¬ (array_eq a b = true ∧ array_lt b a = true)) ∧
    array_ne a b = !array_eq a b ∧
    array_gt a b = array_lt b a ∧
    array_le a b = !array_lt b a ∧
    array_ge a b = !array_lt a b := by
  have heq := array_eq_iff a b
  have hlt := array_lt_iff a b h
  have hgt := array_lt_iff b a h.symm
  refine ⟨heq, ?_, hlt, ⟨?_, ?_, ?_, ?_⟩, rfl, rfl, rfl, rfl⟩
  · rw [heq]
    constructor
    · intro hall
      exact ext_deref a b h hall
    · intro hab k _
      rw [hab]
  · by_cases hall : ∀ k, k < a.length → deref a k = deref b k
    · exact Or.inr (Or.inl (heq.2 hall))
    · have hex : ∃ k, k < a.length ∧ deref a k ≠ deref b k := by
        by_contra hc
        apply hall
        intro k hk
        by_contra hne
        exact hc ⟨k, hk, hne⟩
      classical
      have hk := Nat.find_spec hex
      have hmin : ∀ i, i < Nat.find hex → deref a i = deref b i := by
        intro i hi
        by_contra hne
        exact Nat.find_min hex hi ⟨by omega, hne⟩
      rcases lt_or_gt_of_ne hk.2 with h1 | h1
      · exact Or.inl (hlt.2 ⟨Nat.find hex, hk.1, h1, hmin⟩)
      · exact Or.inr (Or.inr (hgt.2 ⟨Nat.find hex, by omega, h1,
          fun i hi => (hmin i hi).symm⟩))
  · rintro ⟨h1, h2⟩
    obtain ⟨k, hk, hp, _⟩ := hlt.1 h1
    rw [heq.1 h2 k hk] at hp
    exact lt_irrefl _ hp
  · rintro ⟨h1, h2⟩
    obtain ⟨k, hk, hp, hall⟩ := hlt.1 h1
    obtain ⟨k1, hk1, hp1, hall1⟩ := hgt.1 h2
    rcases Nat.lt_trichotomy k k1 with hc | hc | hc
    · rw [hall1 k hc] at hp
      exact lt_irrefl _ hp
    · subst hc
      exact lt_asymm hp hp1
    · rw [hall k1 hc] at hp1
      exact lt_irrefl _ hp1
  · rintro ⟨h1, h2⟩
    obtain ⟨k, hk, hp, _⟩ := hgt.1 h2
    rw [heq.1 h1 k (by omega)] at hp
    exact lt_irrefl _ hp

theorem array_compare_correct_witness :
    ([1, 2, 3] : List Int).length = ([1, 2, 4] : List Int).length ∧
      1 ≤ ([1, 2, 3] : List Int).length ∧
      (array_lt ([1, 2, 3] : List Int) [1, 2, 4] = true ↔
        ∃ k, k < ([1, 2, 3] : List Int).length ∧
          deref ([1, 2, 3] : List Int) k < deref ([1, 2, 4] : List Int) k ∧
          ∀ i, i < k → deref ([1, 2, 3] : List Int) i = deref ([1, 2, 4] : List Int) i) :=
  ⟨by decide, by decide,
    (array_compare_correct ([1, 2, 3] : List Int) [1, 2, 4] (by decide) (by decide)).2.2.1⟩

end TinySTL

namespace TinySTL

variable {α : Type}

/-! ## The comparisons of the array iterator in the `_DEBUG` build -/

/-- In the `_DEBUG` build the assertion of `operator<` fails for two iterators with the same
`ptr`, whatever their indices, and so do `<=`, `>` and `>=`, which call `operator<`; `==`, `!=`
and the difference of such iterators pass their assertion. -/
theorem iter_compare_same_array (p i j : Nat) :
    iter_lt ⟨p, i⟩ ⟨p, j⟩ = none ∧ iter_le ⟨p, i⟩ ⟨p, j⟩ = none ∧
    iter_gt ⟨p, i⟩ ⟨p, j⟩ = none ∧ iter_ge ⟨p, i⟩ ⟨p, j⟩ = none ∧
    iter_eq ⟨p, i⟩ ⟨p, j⟩ = some (i == j) ∧ iter_ne ⟨p, i⟩ ⟨p, j⟩ = some (!(i == j)) ∧
    iter_diff ⟨p, i⟩ ⟨p, j⟩ = some ((i : Int) - (j : Int)) := by
  simp [iter_lt, iter_le, iter_gt, iter_ge, iter_eq, iter_ne, iter_diff, assert_]

/-- In the `_DEBUG` build `operator<` passes its assertion exactly for iterators with different
`ptr`, that is for iterators into different arrays, and then compares the indices. -/
theorem iter_lt_other_array (p q i j : Nat) (h : p ≠ q) :
    iter_lt ⟨p, i⟩ ⟨q, j⟩ = some (decide (i < j)) := by
  simp [iter_lt, assert_, h]

theorem iter_sub_one (Size p i : Nat) (h1 : 1 ≤ i) (h2 : i ≤ Size + 1)
    (h3 : i < 18446744073709551616) :
    iter_sub Size ⟨p, i⟩ 1 = some ⟨p, i - 1⟩ := by
  unfold iter_sub iter_add assert_
  have hs : ((i : Int) + -1) % (18446744073709551616 : Int) = ((i - 1 : Nat) : Int) := by
    rw [Int.emod_eq_of_lt (by omega) (by omega)]
    omega
  simp only [hs, Int.toNat_ofNat]
  rw [if_pos (by simp only [decide_eq_true_eq]; omega)]
  rfl

theorem iter_add_begin (Size p k : Nat) (h1 : k ≤ Size) (h3 : k < 18446744073709551616) :
    iter_add Size (array_begin p) (k : Int) = some ⟨p, k⟩ := by
  unfold iter_add assert_ array_begin
  have hs : (((0 : Nat) : Int) + (k : Int)) % (18446744073709551616 : Int) = (k : Int) := by
    rw [Int.emod_eq_of_lt (by omega) (by omega)]
    omega
  simp only [hs, Int.toNat_ofNat]
  rw [if_pos (by simp only [decide_eq_true_eq]; omega)]
  rfl

/-- The inner loop of `_Insert_sort` fails the assertion of its first test `j > first`. -/
theorem _Insert_sort_inner_dbg_aborts [Inhabited α] (cmp : α → α → Bool) (key : α)
    (first j : _Array_const_iterator) (fuel : Nat) (a : List α) (hp : j.ptr = first.ptr)
    (hf : 0 < fuel) :
    _Insert_sort_inner_dbg cmp key first fuel a j = none := by
  cases fuel with
  | zero => omega
  | succ f =>
    rw [_Insert_sort_inner_dbg]
    have h : iter_gt j first = none := by
      simp [iter_gt, iter_lt, assert_, hp]
    rw [h]
    rfl

theorem _Insert_sort_outer_dbg_aborts [Inhabited α] (cmp : α → α → Bool)
    (first last i : _Array_const_iterator) (fuel : Nat) (a : List α) (hp : i.ptr = first.ptr)
    (hl : i.ptr = last.ptr) (hi : i.idx ≠ last.idx) (hf : 0 < fuel) (ha : 0 < a.length) :
    _Insert_sort_outer_dbg cmp first last fuel a i = none := by
  cases fuel with
  | zero => omega
  | succ f =>
    rw [_Insert_sort_outer_dbg]
    have h3 : iter_ne i last = some true := by
      simp [iter_ne, iter_eq, assert_, hl, hi]
    rw [h3, Option.some_bind, if_pos rfl]
    cases iter_deref a i with
    | none => rfl
    | some key =>
      rw [Option.some_bind, _Insert_sort_inner_dbg_aborts cmp key first i a.length a hp ha]
      rfl

/-- In the `_DEBUG` build `_Insert_sort` on the iterators of an array of at least two elements
fails an assertion, at the latest at the first test `j > first` of the inner loop. -/
theorem _Insert_sort_dbg_aborts [Inhabited α] (cmp : α → α → Bool) (p : Nat) (a : List α)
    (h : 2 ≤ a.length) : _Insert_sort_dbg cmp p a = none := by
  unfold _Insert_sort_dbg
  have h1 : iter_eq (array_begin p) (array_end p a.length) = some false := by
    simp only [iter_eq, array_begin, array_end, assert_, beq_self_eq_true, if_true,
      Option.some_bind, Option.some.injEq, beq_eq_false_iff_ne, ne_eq]
    omega
  have h2 : iter_add a.length (array_begin p) 1 = some ⟨p, 1⟩ := by
    have := iter_add_begin a.length p 1 (by omega) (by omega)
    simpa using this
  rw [h1, Option.some_bind, if_neg (by simp), h2, Option.some_bind]
  exact _Insert_sort_outer_dbg_aborts cmp _ _ _ a.length a rfl rfl
    (by simp only [array_end]; omega) (by omega) (by omega)

/-- In the `_DEBUG` build `_Insert_sort` on the iterators of an array of one element returns
without a comparison of iterators by `<`. -/
theorem _Insert_sort_dbg_one [Inhabited α] (cmp : α → α → Bool) (p : Nat) (x : α) :
    _Insert_sort_dbg cmp p [x] = some [x] := by
  simp [_Insert_sort_dbg, _Insert_sort_outer_dbg, iter_eq, iter_ne, iter_add, array_begin,
    array_end, assert_]

/-- The scan of `_Partition` fails an assertion at the latest at its first test
`j < last - 1`. -/
theorem _Partition_loop_dbg_aborts [Inhabited α] (cmp : α → α → Bool) (key : α)
    (last i j : _Array_const_iterator) (fuel : Nat) (b : List α) (hj : j.ptr = last.ptr)
    (hf : 0 < fuel) :
    _Partition_loop_dbg cmp key last fuel b i j = none := by
  cases fuel with
  | zero => omega
  | succ f =>
    rw [_Partition_loop_dbg]
    cases hs : iter_sub b.length last 1 with
    | none => rfl
    | some lm1 =>
      rw [Option.some_bind]
      have hptr : lm1.ptr = last.ptr := by
        unfold iter_sub iter_add assert_ at hs
        dsimp only at hs
        split_ifs at hs
        · simp only [Option.some_bind, Option.some.injEq] at hs
          rw [← hs]
        · simp at hs
      have h : iter_lt j lm1 = none := by
        simp [iter_lt, assert_, hj, hptr]
      rw [h]
      rfl

/-- In the `_DEBUG` build `_Partition` on the iterators of a non-empty array fails an
assertion, at the latest at the first test `j < last - 1` of its scan. -/
theorem _Partition_dbg_aborts [Inhabited α] (cmp : α → α → Bool) (p : Nat) (a : List α)
    (g : Nat → Nat) (h : 1 ≤ a.length) : _Partition_dbg cmp p a g = none := by
  unfold _Partition_dbg
  dsimp only
  cases iter_diff (array_end p a.length) (array_begin p) with
  | none => rfl
  | some count =>
    rw [Option.some_bind]
    cases iter_add a.length (array_begin p) ((_Get_random g count.toNat).1 : Int) with
    | none => rfl
    | some it1 =>
      rw [Option.some_bind]
      cases iter_sub a.length (array_end p a.length) 1 with
      | none => rfl
      | some it2 =>
        rw [Option.some_bind]
        cases iter_deref a it1 with
        | none => rfl
        | some x1 =>
          rw [Option.some_bind]
          cases iter_deref a it2 with
          | none => rfl
          | some x2 =>
            rw [Option.some_bind]
            cases iter_sub (iter_swap a it1.idx it2.idx).length (array_end p a.length) 1 with
            | none => rfl
            | some lm1 =>
              rw [Option.some_bind]
              cases iter_deref (iter_swap a it1.idx it2.idx) lm1 with
              | none => rfl
              | some key =>
                rw [Option.some_bind, _Partition_loop_dbg_aborts cmp key
                  (array_end p a.length) (array_begin p) (array_begin p)
                  (iter_swap a it1.idx it2.idx).length (iter_swap a it1.idx it2.idx) rfl
                  (by rw [iter_swap_length]; omega)]
                rfl

/-- C33 at a failing input: in the `_DEBUG` build, for the iterators `begin()` and `end()` of
one array of two elements, each of `<`, `<=`, `>` and `>=` fails the assertion
`assert(ptr != rhs.ptr)` of `operator<` instead of returning the comparison of the indices,
while `==` returns the comparison of the indices; `_Insert_sort` on the array `[2, 1]` and
`_Partition` on the array `[2, 1, 3]` fail that assertion at the first test of `j > first`
and of `j < last - 1`. -/
theorem array_iterator_less_asserts :
    iter_lt (array_begin 1) (array_end 1 2) = none ∧
    iter_le (array_begin 1) (array_end 1 2) = none ∧
    iter_gt (array_begin 1) (array_end 1 2) = none ∧
    iter_ge (array_begin 1) (array_end 1 2) = none ∧
    iter_eq (array_begin 1) (array_end 1 2) = some false ∧
    iter_gt (⟨1, 1⟩ : _Array_const_iterator) (array_begin 1) = none ∧
    _Insert_sort_dbg less 1 ([2, 1] : List Int) = none ∧
    iter_sub 3 (array_end 1 3) 1 = some ⟨1, 2⟩ ∧
    iter_lt (array_begin 1) (⟨1, 2⟩ : _Array_const_iterator) = none ∧
    _Partition_dbg less 1 ([2, 1, 3] : List Int) firstPivot = none ∧
    _Insert_sort less ([2, 1] : List Int) = [1, 2] := by
  refine ⟨rfl, rfl, rfl, rfl, rfl, rfl, ?_, ?_, rfl, ?_, by decide⟩
  · exact _Insert_sort_dbg_aborts less 1 [2, 1] (by decide)
  · exact iter_sub_one 3 1 3 (by omega) (by omega) (by omega)
  · exact _Partition_dbg_aborts less 1 [2, 1, 3] firstPivot (by decide)

end TinySTL

namespace TinySTL

variable {α : Type}

/-! ## The return type of `binary_search` -/

/-- For none of the iterator types at hand does `binary_search` return a value: the return
statement needs a conversion from `bool` to the declared return type `FwdIter`, and neither
pointers nor the array iterators have one. -/
theorem binary_search_no_value [Inhabited α] (t : FwdIterType) (cmp : α → α → Bool)
    (a : List α) (val : α) : binary_search t cmp a val = none := by
  cases t <;> rfl

/-- C12 at a failing input: on the ints `[1, 2, 2, 2, 5]`, sorted under the default
less-than, with the probe `2`, the return expression of `binary_search` has the value `true`
and `lower_bound` differs from `upper_bound`, but `binary_search` is declared to return
`FwdIter`, and for pointers, `_Array_iterator` and `_Array_const_iterator` the value `true`
does not convert to the iterator type, so the call returns no boolean. -/
theorem binary_search_returns_no_boolean :
    is_sorted less ([1, 2, 2, 2, 5] : List Int) = true ∧
    binary_search_expr less ([1, 2, 2, 2, 5] : List Int) 2 = true ∧
    lower_bound less ([1, 2, 2, 2, 5] : List Int) 2 ≠ upper_bound less [1, 2, 2, 2, 5] 2 ∧
    bool_to_FwdIter FwdIterType.pointer = none ∧
    bool_to_FwdIter FwdIterType.array_iterator = none ∧
    bool_to_FwdIter FwdIterType.array_const_iterator = none ∧
    binary_search FwdIterType.pointer less ([1, 2, 2, 2, 5] : List Int) 2 = none ∧
    binary_search FwdIterType.array_iterator less ([1, 2, 2, 2, 5] : List Int) 2 = none ∧
    binary_search FwdIterType.array_const_iterator less ([1, 2, 2, 2, 5] : List Int) 2
      = none := by
  refine ⟨by decide, by decide, by decide, rfl, rfl, rfl, rfl, rfl, rfl⟩

end TinySTL
